import Mathlib

/-! emlc: a shallow embedding of `src/emlc/main.cpp`.

Strings of the program (`std::string`, a sequence of bytes) are lists of characters.
The three fields `input`, `pos`, `len` of `Parser` are represented by the unread
suffix `input[pos..]`: `input` is never modified, `eof()` is "the suffix is empty",
`advance()` drops its head, and a saved position is a saved suffix.
Loops whose number of iterations is not bounded by a structural argument take a
fuel argument and return `none` when it runs out.

The file has three parts: the embedding of the program, the definitions that the
round-trip property needs (the observed sequence of a tree, the classes of trees, the
statements "the parser returns"), and the lemmas and claims.
-/

namespace Emlc

/-- A `std::string`. -/
abbrev Str := List Char

/-! ## Constants -/

/-- The set `SELF_CLOSING_TAGS` (lines 15-18). -/
def SELF_CLOSING_TAGS : List Str :=
  ["area".toList, "base".toList, "br".toList, "col".toList, "embed".toList, "hr".toList,
   "img".toList, "input".toList, "link".toList, "meta".toList, "param".toList,
   "source".toList, "track".toList, "wbr".toList]

/-- The reserved tag of the synthetic root. -/
def ROOT : Str := "ROOT".toList

/-! ## Character classes (`<cctype>` in the "C" locale) -/

/-- The C function `isspace`: space, `\t`, `\n`, `\v`, `\f`, `\r`. -/
def isspace (c : Char) : Bool :=
  c == ' ' || c == '\t' || c == '\n' || c == Char.ofNat 11 || c == Char.ofNat 12 || c == '\r'

/-- The C function `isalpha`. -/
def isalpha (c : Char) : Bool :=
  (97 ≤ c.toNat && c.toNat ≤ 122) || (65 ≤ c.toNat && c.toNat ≤ 90)

/-- The C function `isalnum`. -/
def isalnum (c : Char) : Bool :=
  isalpha c || (48 ≤ c.toNat && c.toNat ≤ 57)

/-- The function `is_ident_start` (lines 42-44). -/
def is_ident_start (c : Char) : Bool :=
  isalpha c || c == '_'

/-- The function `is_ident_part` (lines 46-48). -/
def is_ident_part (c : Char) : Bool :=
  isalnum c || c == '-' || c == '_' || c == '.' || c == ':'

/-! ## String helpers -/

/-- Membership in the character set `" \t\n\r"` used by `trim`. -/
def is_trim_char (c : Char) : Bool :=
  c == ' ' || c == '\t' || c == '\n' || c == '\r'

/-- The function `trim` (lines 30-35): the substring from the first to the last character
that is not in `" \t\n\r"`, empty when there is none. -/
def trim (str : Str) : Str :=
  ((str.dropWhile is_trim_char).reverse.dropWhile is_trim_char).reverse

/-- The call `std::count(s.begin(), s.end(), '\n')`. -/
def count_newlines (s : Str) : Nat :=
  s.count '\n'

/-- The test `s.find('\n') != string::npos`. -/
def has_newline (s : Str) : Bool :=
  s.contains '\n'

/-- The method `std::string::substr(start, count)` for `start ≤ size`. -/
def substr (s : Str) (start count : Nat) : Str :=
  (s.drop start).take count

/-- Subtraction of two `size_t` values (both below `2^64`), wrapping around. -/
def size_sub (a b : Nat) : Nat :=
  if b ≤ a then a - b else a + 2 ^ 64 - b

/-- The method `std::string::find(pat, pos)`, as an offset from `pos`, on the suffix
that starts at `pos`; `none` is `string::npos`. -/
def find_str (pat : Str) : Str → Option Nat
  | [] => if pat.isEmpty then some 0 else none
  | c :: cs =>
    if pat.isPrefixOf (c :: cs) then some 0
    else (find_str pat cs).map (fun i => i + 1)

/-- The loop `while (getline(ss, line))`: the successive lines that `std::getline`
extracts; the second argument is the line read so far. A line that ends at the end of
the stream is returned only if at least one character was extracted for it. -/
def getlines : Str → Str → List Str
  | [], cur => if cur.isEmpty then [] else [cur]
  | c :: rest, cur =>
    if c == '\n' then cur :: getlines rest [] else getlines rest (cur ++ [c])

/-! ## AST -/

/-- The struct `Attribute` (lines 53-57). -/
structure Attribute where
  key : Str
  value : Str
  separator : Str
deriving DecidableEq

/-- The enum `NodeType` (lines 59-67). -/
inductive NodeType where
  | ELEMENT
  | TEXT
  | COMMENT
  | COMMENT_BLOCK
  | PI
  | IMPORT
  | WHITESPACE
deriving DecidableEq

/-- The struct `Node` (lines 69-85); the owned `children` pointers are the child nodes. -/
inductive Node where
  | mk (type : NodeType) (tag : Str) (attrs : List Attribute) (content : Str)
      (children : List Node) (explicit_empty_block : Bool)

/-- The field `type`. -/
def Node.type : Node → NodeType
  | .mk t _ _ _ _ _ => t

/-- The field `tag`. -/
def Node.tag : Node → Str
  | .mk _ t _ _ _ _ => t

/-- The field `attrs`. -/
def Node.attrs : Node → List Attribute
  | .mk _ _ a _ _ _ => a

/-- The field `content`. -/
def Node.content : Node → Str
  | .mk _ _ _ c _ _ => c

/-- The field `children`. -/
def Node.children : Node → List Node
  | .mk _ _ _ _ cs _ => cs

/-- The field `explicit_empty_block`. -/
def Node.explicit_empty_block : Node → Bool
  | .mk _ _ _ _ _ b => b

/-- The constructor `Node(NodeType t)`: every other field is default-initialised. -/
def Node.new (t : NodeType) : Node :=
  .mk t [] [] [] [] false

/-- A freshly constructed node of type `t` whose `content` has been assigned. -/
def Node.leaf (t : NodeType) (content : Str) : Node :=
  .mk t [] [] content [] false

/-! ## Formatters -/

/-- The method `Formatter::get_indent` (lines 96-98). -/
def get_indent (level : Nat) : Str :=
  List.replicate (level * 4) ' '

/-- The output of a `Whitespace` node (lines 124-131 and 236-242): `n - 1` line breaks
when the payload has `n > 1` of them. -/
def format_whitespace (content : Str) : Str :=
  let n := count_newlines content
  if n > 1 then List.replicate (n - 1) '\n' else []

/-- The method `EmlFormatter::format_children_raw` (lines 209-219). -/
def format_children_raw (content : Str) (indent_level : Nat) : Str :=
  ((getlines content []).map (fun line => get_indent indent_level ++ trim line ++ "\n".toList)).flatten

/-- The attribute loop of `EmlFormatter::format` (lines 173-178), `first` being the
loop's flag. -/
def eml_attr_items : Bool → List Attribute → Str
  | _, [] => []
  | first, a :: rest =>
    (if first then [] else ", ".toList) ++ a.key ++ " = \"".toList ++ a.value ++ "\"".toList
      ++ eml_attr_items false rest

/-- The attribute text of `EmlFormatter::format` (lines 171-180). -/
def eml_attrs (attrs : List Attribute) : Str :=
  if attrs.isEmpty then [] else " (".toList ++ eml_attr_items true attrs ++ ")".toList

/-- The body of `EmlFormatter::format` (lines 120-206) for a node with the given fields;
`children_out level` is the text that the loop
`for (auto c : node->children) out += format(c, level)` appends. -/
def EmlFormatter.format_node (type : NodeType) (tag : Str) (attrs : List Attribute)
    (content : Str) (children : List Node) (explicit_empty_block : Bool)
    (children_out : Nat → Str) (indent_level : Nat) : Str :=
  let ind := get_indent indent_level
  match type with
  | .WHITESPACE => format_whitespace content
  | .COMMENT => ind ++ "// ".toList ++ content ++ "\n".toList
  | .COMMENT_BLOCK => ind ++ "/*".toList ++ content ++ "*/\n".toList
  | .IMPORT => "import ".toList ++ content ++ ";\n".toList
  | .PI =>
    if tag = "php".toList then
      ind ++ "php \x7b\n".toList ++ format_children_raw content (indent_level + 1)
        ++ ind ++ "\x7d\n".toList
    else ind ++ "php /* ".toList ++ content ++ " */\n".toList
  | .TEXT => ind ++ content ++ "\n".toList
  | .ELEMENT =>
    if tag = ROOT then children_out indent_level
    else
      let out := ind ++ tag ++ eml_attrs attrs
      match children with
      | [] => if explicit_empty_block then out ++ " \x7b\x7d\n".toList else out ++ "\n".toList
      | c :: cs =>
        let block := out ++ " \x7b\n".toList ++ children_out (indent_level + 1)
          ++ ind ++ "\x7d\n".toList
        if cs.isEmpty && c.type = NodeType.TEXT then
          let text := trim c.content
          if !has_newline text then out ++ " \x7b ".toList ++ text ++ " \x7d\n".toList
          else block
        else block

mutual
/-- The method `EmlFormatter::format` (lines 120-206). -/
def EmlFormatter.format : Node → Nat → Str
  | .mk type tag attrs content children explicit_empty_block, indent_level =>
    EmlFormatter.format_node type tag attrs content children explicit_empty_block
      (fun level => EmlFormatter.format_children children level) indent_level
/-- The loop `for (auto c : node->children) out += format(c, level)`. -/
def EmlFormatter.format_children : List Node → Nat → Str
  | [], _ => []
  | c :: cs, level => EmlFormatter.format c level ++ EmlFormatter.format_children cs level
end

/-- The attribute text `attr_str` of `MarkupFormatter::format` (lines 338-343). -/
def markup_attrs : List Attribute → Str
  | [] => []
  | a :: rest => " ".toList ++ a.key ++ "=\"".toList ++ a.value ++ "\"".toList ++ markup_attrs rest

/-- The normalised payload `out_content` of a raw-code block (lines 306-313). -/
def php_out_content (php_content : Str) : Str :=
  let starts_newline := !php_content.isEmpty && php_content.head? == some '\n'
  let out_content := if !starts_newline then "\n".toList ++ php_content else php_content
  if !out_content.isEmpty && out_content.getLast? != some '\n' then out_content ++ "\n".toList
  else out_content

/-- The statement `t.erase(last_char + 1)` after `t.find_last_not_of(" \t")`, or
`t.clear()` when there is no such character (lines 400-405). -/
def erase_trailing_blanks (t : Str) : Str :=
  (t.reverse.dropWhile (fun c => c == ' ' || c == '\t')).reverse

/-- The body of `MarkupFormatter::format` (lines 231-430) for a node with the given
fields; `is_xml` is the field of the formatter (strict mode when true) and
`children_out level` is the text that the loop
`for (auto c : node->children) out += format(c, level)` appends. -/
def MarkupFormatter.format_node (is_xml : Bool) (type : NodeType) (tag : Str)
    (attrs : List Attribute) (content : Str) (children : List Node)
    (explicit_empty_block : Bool) (children_out : Nat → Str) (indent_level : Nat) : Str :=
  let ind := get_indent indent_level
  match type with
  | .WHITESPACE => format_whitespace content
  | .COMMENT => ind ++ "<!-- ".toList ++ trim content ++ " -->\n".toList
  | .COMMENT_BLOCK => ind ++ "<!--".toList ++ content ++ "-->\n".toList
  | .IMPORT => ind ++ "<?import ".toList ++ content ++ "?>\n".toList
  | .PI =>
    if tag = "php".toList then
      ind ++ "<?php".toList ++ php_out_content content ++ ind ++ "?>\n".toList
    else ind ++ "<?".toList ++ tag ++ " ".toList ++ content ++ "?>\n".toList
  | .TEXT => ind ++ trim content ++ "\n".toList
  | .ELEMENT =>
    if tag = ROOT then children_out indent_level
    else
      let open_tag := "<".toList ++ tag ++ markup_attrs attrs
      let self_close0 :=
        if is_xml then children.isEmpty && !explicit_empty_block
        else SELF_CLOSING_TAGS.contains tag
      let self_close := if is_xml && explicit_empty_block then false else self_close0
      if self_close then
        if is_xml then ind ++ open_tag ++ " />\n".toList
        else ind ++ open_tag ++ ">\n".toList
      else
        let out := ind ++ open_tag ++ ">".toList
        match children with
        | [] => out ++ "</".toList ++ tag ++ ">\n".toList
        | c :: cs =>
          if cs.isEmpty && c.type = NodeType.TEXT then
            let t := c.content
            let trimmed := trim t
            if !has_newline t && !trimmed.isEmpty then
              out ++ t ++ "</".toList ++ tag ++ ">\n".toList
            else
              let t1 := erase_trailing_blanks t
              let starts_newline := !t1.isEmpty && t1.head? == some '\n'
              out ++ (if !starts_newline then "\n".toList else []) ++ t1
                ++ (if !t1.isEmpty && t1.getLast? != some '\n' then "\n".toList else [])
                ++ ind ++ "</".toList ++ tag ++ ">\n".toList
          else
            out ++ "\n".toList ++ children_out (indent_level + 1)
              ++ ind ++ "</".toList ++ tag ++ ">\n".toList

mutual
/-- The method `MarkupFormatter::format` (lines 231-430). -/
def MarkupFormatter.format (is_xml : Bool) : Node → Nat → Str
  | .mk type tag attrs content children explicit_empty_block, indent_level =>
    MarkupFormatter.format_node is_xml type tag attrs content children explicit_empty_block
      (fun level => MarkupFormatter.format_children is_xml children level) indent_level
/-- The loop `for (auto c : node->children) out += format(c, level)`. -/
def MarkupFormatter.format_children (is_xml : Bool) : List Node → Nat → Str
  | [], _ => []
  | c :: cs, level =>
    MarkupFormatter.format is_xml c level ++ MarkupFormatter.format_children is_xml cs level
end

/-! ## Parser: scanning primitives -/

/-- The method `Parser::peek` (line 460): the next character, `0` at the end. -/
def peek (rest : Str) : Char :=
  rest.headD (Char.ofNat 0)

/-- The method `Parser::advance` (line 461), for its effect on the position. -/
def advance (rest : Str) : Str :=
  rest.drop 1

/-- The method `Parser::skip_whitespace` (lines 464-466). -/
def skip_whitespace (rest : Str) : Str :=
  rest.dropWhile isspace

/-- The attribute separator `" "` stored by both parsers. -/
def SEP : Str := " ".toList

/-- The double quote character. -/
def DQUOTE : Char := Char.ofNat 34

/-- The single quote character. -/
def SQUOTE : Char := Char.ofNat 39

/-- The value part of an attribute after `=` has been consumed (lines 616-631 with
`stops = ") ,"`, lines 808-820 with `stops = "> /"`): the value and the unread suffix. -/
def read_attr_value (stop1 stop2 : Char) (rest : Str) : Str × Str :=
  let r := skip_whitespace rest
  let q := peek r
  if q == DQUOTE || q == SQUOTE then
    let r1 := advance r
    (r1.takeWhile (fun c => c != q), advance (r1.dropWhile (fun c => c != q)))
  else
    (r.takeWhile (fun c => !isspace c && c != stop1 && c != stop2),
     r.dropWhile (fun c => !isspace c && c != stop1 && c != stop2))

/-! ## Parser: EML -/

/-- The method `Parser::parse_eml_attrs` (lines 602-641): the attributes pushed, in order,
and the unread suffix. One unit of fuel per iteration of the `while` loop. -/
def parse_eml_attrs : Nat → Str → Option (List Attribute × Str)
  | 0, _ => none
  | fuel + 1, rest =>
    if rest.isEmpty || peek rest == ')' then
      some ([], if peek rest == ')' then advance rest else rest)
    else
      let r1 := skip_whitespace rest
      if peek r1 == ')' then some ([], advance r1)
      else
        let key := r1.takeWhile is_ident_part
        let r2 := skip_whitespace (r1.dropWhile is_ident_part)
        let (val, r3) :=
          if peek r2 == '=' then read_attr_value ')' ',' (advance r2) else ([], r2)
        let r4 := skip_whitespace r3
        let r5 := if peek r4 == ',' then advance r4 else r4
        match parse_eml_attrs fuel r5 with
        | none => none
        | some (attrs, r6) => some (⟨key, val, SEP⟩ :: attrs, r6)

/-- The loop of `Parser::read_balanced_braces` (lines 689-700): `depth` is the counter,
`content` the text collected so far; the result is the content and the unread suffix. -/
def read_balanced_braces_loop : Nat → Str → Str → Str × Str
  | _, content, [] => (content, [])
  | depth, content, c :: rest =>
    if depth = 0 then (content, c :: rest)
    else
      let depth1 := if c == '\x7b' then depth + 1 else depth
      if c == '\x7d' then
        if depth1 - 1 = 0 then (content, rest)
        else read_balanced_braces_loop (depth1 - 1) (content ++ [c]) rest
      else read_balanced_braces_loop depth1 (content ++ [c]) rest

/-- The method `Parser::read_balanced_braces` (lines 683-702). -/
def read_balanced_braces (rest : Str) : Str × Str :=
  read_balanced_braces_loop 1 [] rest

/-- A word character of the regular expression (`\w`, which decides `\b`). -/
def is_word_char (c : Char) : Bool :=
  isalnum c || c == '_'

/-- The class `[a-zA-Z0-9_.-]` of the regular expression. -/
def is_regex_ident_char (c : Char) : Bool :=
  isalnum c || c == '_' || c == '.' || c == '-'

/-- A match of `[a-zA-Z_][a-zA-Z0-9_.-]*\s*[(\x7b]` at the head of the text. The two starred
classes are disjoint from each other and from what follows them, so the longest run of
each is the only one that can lead to a match. -/
def regex_match_here : Str → Bool
  | [] => false
  | c :: cs =>
    is_ident_start c &&
      (let r := (cs.dropWhile is_regex_ident_char).dropWhile isspace
       peek r == '(' || peek r == '\x7b')

/-- The call `regex_search` for the pattern of `contains_eml_syntax`: a match may start
where `\b` holds, which before an identifier-start character means that the previous
character (`prev_word` tells whether it is a word character) is not a word character. -/
def regex_search_from : Bool → Str → Bool
  | _, [] => false
  | prev_word, c :: cs =>
    (!prev_word && regex_match_here (c :: cs)) || regex_search_from (is_word_char c) cs

/-- The method `Parser::contains_eml_syntax` (lines 673-676). -/
def contains_eml_syntax (text : Str) : Bool :=
  regex_search_from false text

/-- The method `Parser::parse_eml_block_content` (lines 643-670): the children added to
the parent and the unread suffix; `sub_parse` is the children of the root returned by
`Parser sub; sub.parse(block_inner, true)`. -/
def parse_eml_block_content (sub_parse : Str → Option (List Node)) (rest : Str) :
    Option (List Node × Str) :=
  let (block_inner, r) := read_balanced_braces rest
  if contains_eml_syntax block_inner then
    match sub_parse block_inner with
    | none => none
    | some children => some (children, r)
  else if !block_inner.isEmpty then some ([Node.leaf NodeType.TEXT block_inner], r)
  else some ([], r)

/-- The test of line 516: `import` followed by the end of input or a space. -/
def at_import (rest : Str) : Bool :=
  rest.take 6 == "import".toList && ((rest.drop 6).isEmpty || isspace (peek (rest.drop 6)))

/-- The position of `c` in the text, `none` for `string::npos`. -/
def find_char (c : Char) (rest : Str) : Option Nat :=
  find_str [c] rest

/-- The whitespace node of lines 480-488, if any. -/
def eml_ws_nodes (ws : Str) : List Node :=
  if ws.length > 0 && count_newlines ws > 1 then [Node.leaf NodeType.WHITESPACE ws] else []

/-- The content block of an element (lines 551-596) once the tag and the attributes are
read: the element node and the unread suffix. -/
def parse_eml_element_body (sub_parse : Str → Option (List Node)) (tag : Str)
    (attrs : List Attribute) (rest : Str) : Option (Node × Str) :=
  if !rest.isEmpty && peek rest == '\x7b' then
    let r := advance rest
    let mode : Nat :=
      if tag = "script".toList || tag = "style".toList then 1
      else if tag = "php".toList then 1
      else if tag = "pre".toList || tag = "code".toList then 2
      else 0
    if mode = 0 then
      match parse_eml_block_content sub_parse r with
      | none => none
      | some (children, r1) =>
        some (.mk NodeType.ELEMENT tag attrs [] children children.isEmpty, r1)
    else
      let (content, r1) := read_balanced_braces r
      if tag = "php".toList then
        some (.mk NodeType.PI "php".toList attrs content [] content.isEmpty, r1)
      else
        some (.mk NodeType.ELEMENT tag attrs [] [Node.leaf NodeType.TEXT content] false, r1)
  else some (.mk NodeType.ELEMENT tag attrs [] [] false, rest)

/-- The method `Parser::parse_eml_nodes` (lines 476-600): the children added to the
parent, which has none when the method is called. One unit of fuel per iteration of the
outer `while` loop; the attribute loop and the nested parser of a block get the fuel
that is left. -/
def parse_eml_nodes : Nat → Str → Option (List Node)
  | 0, _ => none
  | fuel + 1, rest =>
    if rest.isEmpty then some []
    else
      let ws := rest.takeWhile isspace
      let r1 := rest.dropWhile isspace
      let ws_nodes := eml_ws_nodes ws
      let continue_with (nodes : List Node) (r : Str) : Option (List Node) :=
        match parse_eml_nodes fuel r with
        | none => none
        | some more => some (ws_nodes ++ nodes ++ more)
      if r1.isEmpty then some ws_nodes
      else if peek r1 == '/' && 1 < r1.length && peek (r1.drop 1) == '/' then
        let r2 := r1.drop 2
        continue_with [Node.leaf NodeType.COMMENT (trim (r2.takeWhile (fun c => c != '\n')))]
          (r2.dropWhile (fun c => c != '\n'))
      else if peek r1 == '/' && 1 < r1.length && peek (r1.drop 1) == '*' then
        let r2 := r1.drop 2
        match find_str "*/".toList r2 with
        | none => continue_with [Node.leaf NodeType.COMMENT_BLOCK r2] []
        | some cend =>
          continue_with [Node.leaf NodeType.COMMENT_BLOCK (substr r2 0 cend)] (r2.drop (cend + 2))
      else
        let imp := at_import r1
        let r2 := if imp then r1.drop 6 else r1
        match (if imp then find_char ';' r2 else none) with
        | some iend =>
          continue_with [Node.leaf NodeType.IMPORT (trim (substr r2 0 iend))] (r2.drop (iend + 1))
        | none =>
          if !is_ident_start (peek r2) then continue_with [] (advance r2)
          else
            let tag := r2.takeWhile is_ident_part
            let r3 := skip_whitespace (r2.dropWhile is_ident_part)
            let attrs_res : Option (List Attribute × Str) :=
              if !r3.isEmpty && peek r3 == '(' then parse_eml_attrs fuel (advance r3)
              else some ([], r3)
            match attrs_res with
            | none => none
            | some (attrs, r4) =>
              match parse_eml_element_body (parse_eml_nodes fuel) tag attrs (skip_whitespace r4) with
              | none => none
              | some (el, r5) => continue_with [el] r5

/-! ## Parser: markup -/

/-- The classification of the text before a `<` or at the end (lines 711-724 and
729-742). -/
def markup_text_nodes (txt : Str) : List Node :=
  if (trim txt).isEmpty then
    if count_newlines txt > 0 then [Node.leaf NodeType.WHITESPACE txt] else []
  else [Node.leaf NodeType.TEXT txt]

/-- The attribute loop of `Parser::parse_markup_nodes` (lines 794-823): the attributes
pushed, in order, and the unread suffix. One unit of fuel per iteration. -/
def parse_markup_attrs : Nat → Str → Option (List Attribute × Str)
  | 0, _ => none
  | fuel + 1, rest =>
    if rest.isEmpty || peek rest == '>' || peek rest == '/' then some ([], rest)
    else
      let r1 := skip_whitespace rest
      if !is_ident_start (peek r1) then
        if peek r1 == '>' || peek r1 == '/' then some ([], r1)
        else parse_markup_attrs fuel (advance r1)
      else
        let key := r1.takeWhile is_ident_part
        let r2 := skip_whitespace (r1.dropWhile is_ident_part)
        let (val, r3) :=
          if peek r2 == '=' then read_attr_value '>' '/' (advance r2) else ([], r2)
        match parse_markup_attrs fuel r3 with
        | none => none
        | some (attrs, r4) => some (⟨key, val, SEP⟩ :: attrs, r4)

/-- The comment node of lines 745-754 for a suffix that starts with `<!--`, and the
unread suffix. -/
def parse_markup_comment (r : Str) : Node × Str :=
  match find_str "-->".toList r with
  | none => (Node.leaf NodeType.COMMENT (trim (substr r 4 (size_sub r.length 4))), [])
  | some e => (Node.leaf NodeType.COMMENT (trim (substr r 4 (size_sub e 4))), r.drop (e + 3))

/-- The node built from the text `raw` of a processing instruction (lines 760-773). -/
def markup_pi_node (raw : Str) : Node :=
  if raw.take 3 == "php".toList then .mk NodeType.PI "php".toList [] (raw.drop 3) [] false
  else if raw.take 7 == "import ".toList then .mk NodeType.IMPORT [] [] (raw.drop 7) [] false
  else .mk NodeType.PI "xml".toList [] raw [] false

/-- The processing instruction of lines 756-777 for a suffix that starts with `<?`, and
the unread suffix. -/
def parse_markup_pi (r : Str) : Node × Str :=
  match find_str "?>".toList r with
  | none => (markup_pi_node (substr r 2 (size_sub r.length 2)), [])
  | some e => (markup_pi_node (substr r 2 (size_sub e 2)), r.drop (e + 2))

/-- The closing tag of lines 839-852: the suffix after `</tag_name ... >` when the
suffix starts with the closing tag of `tag_name`, the suffix itself otherwise. -/
def consume_closing_tag (tag_name : Str) (r : Str) : Str :=
  if "</".toList.isPrefixOf r then
    let r1 := r.drop 2
    let ctag := r1.takeWhile is_ident_part
    if ctag = tag_name then advance ((r1.dropWhile is_ident_part).dropWhile (fun c => c != '>'))
    else r
  else r

/-- The method `Parser::parse_markup_nodes` (lines 706-867): the children added to the
parent, which has none when the method is called, and the unread suffix. One unit of
fuel per iteration of the outer `while` loop and per nested call. -/
def parse_markup_nodes : Nat → Str → Option (List Node × Str)
  | 0, _ => none
  | fuel + 1, rest =>
    if rest.isEmpty then some ([], [])
    else
      match find_char '<' rest with
      | none => some (markup_text_nodes rest, [])
      | some lt =>
        let pre := if lt > 0 then markup_text_nodes (substr rest 0 lt) else []
        let r := rest.drop lt
        let continue_with (node : Node) (r1 : Str) : Option (List Node × Str) :=
          match parse_markup_nodes fuel r1 with
          | none => none
          | some (more, r2) => some (pre ++ node :: more, r2)
        if "<!--".toList.isPrefixOf r then
          continue_with (parse_markup_comment r).1 (parse_markup_comment r).2
        else if "<?".toList.isPrefixOf r then
          continue_with (parse_markup_pi r).1 (parse_markup_pi r).2
        else if 1 < r.length && peek (r.drop 1) == '/' then some (pre, r)
        else
          let r1 := r.drop 1
          let tag_name := r1.takeWhile is_ident_part
          match parse_markup_attrs fuel (r1.dropWhile is_ident_part) with
          | none => none
          | some (attrs, r2) =>
            let self_closing := peek r2 == '/'
            let r3 := if self_closing then advance r2 else r2
            let r4 := if peek r3 == '>' then advance r3 else r3
            if !self_closing && !SELF_CLOSING_TAGS.contains tag_name then
              match parse_markup_nodes fuel r4 with
              | none => none
              | some (children, r5) =>
                continue_with (.mk NodeType.ELEMENT tag_name attrs [] children children.isEmpty)
                  (consume_closing_tag tag_name r5)
            else continue_with (.mk NodeType.ELEMENT tag_name attrs [] [] false) r4

/-! ## Parser: entry point -/

/-- The method `Parser::parse` (lines 442-457) with an explicit amount of fuel. -/
def Parser.parse_fuel (fuel : Nat) (input : Str) (is_eml_format : Bool) : Option Node :=
  if is_eml_format then
    match parse_eml_nodes fuel input with
    | none => none
    | some children => some (.mk NodeType.ELEMENT ROOT [] [] children false)
  else
    match parse_markup_nodes fuel input with
    | none => none
    | some (children, _) => some (.mk NodeType.ELEMENT ROOT [] [] children false)

/-- The method `Parser::parse` (lines 442-457), with `input.length + 1` units of fuel: one
unit per iteration of a loop, and an iteration that is followed by another one has
consumed a character unless the loop makes no progress at all; the result is `none` when
the fuel runs out. -/
def Parser.parse (input : Str) (is_eml_format : Bool) : Option Node :=
  Parser.parse_fuel (input.length + 1) input is_eml_format

/-! ## Round trip: the observed sequence and the classes of trees -/

/-- An entry of the document-order sequence that the round-trip property compares: a
tag name, an attribute key/value pair, or a text payload. -/
inductive Item where
  | tag (name : Str)
  | attr (key value : Str)
  | text (payload : Str)
deriving DecidableEq

mutual
/-- The document-order sequence of tag names, attribute key/value pairs and text
payloads of a tree. -/
def Node.items : Node → List Item
  | .mk type tag attrs content children _ =>
    match type with
    | .ELEMENT =>
      Item.tag tag :: attrs.map (fun a => Item.attr a.key a.value) ++ items_list children
    | .PI => [Item.tag tag]
    | .TEXT => [Item.text content]
    | _ => []
/-- The sequence of a list of siblings. -/
def items_list : List Node → List Item
  | [] => []
  | c :: cs => c.items ++ items_list cs
end

/-- An attribute that the markup renderer writes in a form the markup parser reads back:
the key is an identifier and the value has no double quote. -/
def markup_attr_ok (a : Attribute) : Bool :=
  is_ident_start (peek a.key) && a.key.all is_ident_part && !a.value.contains DQUOTE

/-- A tag name for the markup round trip: identifier characters, at least one, and not
the reserved name of the root. -/
def markup_tag_ok (tag : Str) : Bool :=
  !tag.isEmpty && tag.all is_ident_part && tag != ROOT

/-- The markup parser, with any amount of fuel above the length of `input`, returns
`nodes` and stops at the suffix `rest`. -/
def MarkupParses (input : Str) (nodes : List Node) (rest : Str) : Prop :=
  ∀ fuel, input.length < fuel → parse_markup_nodes fuel input = some (nodes, rest)

/-- The attribute loop of the markup parser, with any amount of fuel above the length
of `input`, returns `attrs` and stops at the suffix `rest`. -/
def MarkupAttrsParse (input : Str) (attrs : List Attribute) (rest : Str) : Prop :=
  ∀ fuel, input.length < fuel → parse_markup_attrs fuel input = some (attrs, rest)

/-- The attributes as a parser stores them: every separator is `" "`. -/
def with_sep (attrs : List Attribute) : List Attribute :=
  attrs.map (fun a => ⟨a.key, a.value, SEP⟩)

/-- A string whose first character, if any, is not an identifier character. -/
def StopsIdent (S : Str) : Prop := ∀ c ∈ S.head?, is_ident_part c = false

/-- The EML parser, with any amount of fuel above the length of `input`, returns `nodes`. -/
def EmlParses (input : Str) (nodes : List Node) : Prop :=
  ∀ fuel, input.length < fuel → parse_eml_nodes fuel input = some nodes

/-- The attribute loop of the EML parser, with any amount of fuel above the length of
`input`, returns `attrs` and stops at the suffix `rest`. -/
def EmlAttrsParse (input : Str) (attrs : List Attribute) (rest : Str) : Prop :=
  ∀ fuel, input.length < fuel → parse_eml_attrs fuel input = some (attrs, rest)

/-- The text of one attribute in the EML renderer. -/
def eml_attr_item (a : Attribute) : Str :=
  a.key ++ " = \"".toList ++ a.value ++ "\"".toList

/-- The depth counter of `read_balanced_braces` after the text, started at `d`; `none`
when the text closes the block that is being read. -/
def brace_scan : Nat → Str → Option Nat
  | d, [] => some d
  | d, c :: rest =>
    if c == '\x7b' then brace_scan (d + 1) rest
    else if c == '\x7d' then (if d ≤ 1 then none else brace_scan (d - 1) rest)
    else brace_scan d rest

/-- A text with matching braces: read from any depth it comes back to that depth. -/
def Balanced (s : Str) : Prop := ∀ d, 1 ≤ d → brace_scan d s = some d

/-- The tag names with a special meaning for the EML parser: its keywords and the
verbatim tags. -/
def EML_RESERVED : List Str :=
  [ROOT, "import".toList, "php".toList, "pre".toList, "code".toList, "script".toList,
   "style".toList]

/-- The EML rendering of the node has an attribute list or a block after the tag. -/
def eml_has_block_or_attrs (node : Node) : Bool :=
  !node.attrs.isEmpty || !node.children.isEmpty || node.explicit_empty_block

/-- An item with its text payload trimmed. -/
def Item.norm : Item → Item
  | .text p => .text (trim p)
  | i => i

/-- The text that the EML renderer writes after the tag and the attribute list
(lines 182-203). -/
def eml_block (children : List Node) (flag : Bool) (L : Nat) : Str :=
  match children with
  | [] => if flag then " \x7b\x7d\n".toList else "\n".toList
  | c :: cs =>
    if cs.isEmpty && c.type = NodeType.TEXT && !has_newline (trim c.content) then
      " \x7b ".toList ++ trim c.content ++ " \x7d\n".toList
    else
      " \x7b\n".toList ++ EmlFormatter.format_children (c :: cs) (L + 1) ++ get_indent L
        ++ "\x7d\n".toList

/-! ## Balanced braces, verbatim tags, and the line breaks of Whitespace nodes -/

/-- Braces are balanced in `s`: every prefix has at least as many `{` as `}`, and the
totals are equal. -/
def BraceBalanced (s : Str) : Prop :=
  (∀ p, p <+: s → p.count '\x7d' ≤ p.count '\x7b') ∧ s.count '\x7b' = s.count '\x7d'

/-- The tags other than `php` whose block is read verbatim (lines 556-562). -/
def RAW_TAGS : List Str :=
  ["pre".toList, "code".toList, "script".toList, "style".toList]

mutual
/-- Every Whitespace node of the tree has at least `k` line breaks in its payload. -/
def ws_breaks_ge (k : Nat) : Node → Bool
  | .mk type _ _ content children _ =>
    (type != NodeType.WHITESPACE || decide (k ≤ count_newlines content))
      && ws_breaks_ge_list k children
/-- Every Whitespace node of the trees has at least `k` line breaks in its payload. -/
def ws_breaks_ge_list (k : Nat) : List Node → Bool
  | [] => true
  | c :: cs => ws_breaks_ge k c && ws_breaks_ge_list k cs
end

/-! ## Invariants of parsed trees: the flag and the Text nodes -/

mutual
/-- Every node of the tree whose explicit-empty-block flag is true has no children and an
empty payload. -/
def flag_means_empty : Node → Bool
  | .mk _ _ _ content children flag =>
    (!flag || (children.isEmpty && content.isEmpty)) && flag_means_empty_list children
/-- Every node of the trees whose explicit-empty-block flag is true has no children and an
empty payload. -/
def flag_means_empty_list : List Node → Bool
  | [] => true
  | c :: cs => flag_means_empty c && flag_means_empty_list cs
end

/-- None of the nodes is a Text node. -/
def no_text (ns : List Node) : Bool :=
  ns.all (fun c => c.type != NodeType.TEXT)

mutual
/-- In the tree, a Text node is the only child of its parent: the children of every node
are without a Text node, or a single node. -/
def text_only_child : Node → Bool
  | .mk _ _ _ _ children _ =>
    (no_text children || children.length == 1) && text_only_child_list children
/-- In each tree, a Text node is the only child of its parent. -/
def text_only_child_list : List Node → Bool
  | [] => true
  | c :: cs => text_only_child c && text_only_child_list cs
end

/-- The conversion of `main` (lines 940-952) for a markup input and a markup output:
parse the text, render the tree from level 0. -/
def markup_to_markup (is_xml : Bool) (content : Str) : Option Str :=
  (Parser.parse content false).map (fun root => MarkupFormatter.format is_xml root 0)

/-! ## Round trip: the trees that survive rendering and re-parsing -/

/-- The text `pat` occurs in `s`. -/
def occurs_in (pat s : Str) : Bool := decide (pat <:+: s)

/-- A text payload that the markup renderer writes in a form the markup parser reads
back as text: no `<`, and not blank. -/
def markup_text_rt (t : Str) : Bool := !t.contains '<' && !(trim t).isEmpty

mutual
/-- The trees of the markup round trip (`is_xml` is the mode of the renderer). An element
has a tag of identifier characters other than `ROOT`, attributes with identifier keys and
values without a double quote; a void element has no children, and in strict mode no
explicit-empty-block flag; a Text payload is not blank and has no `<`; a comment has no
`-->`, a block comment moreover starts with neither `>` nor `->`; an import directive
and a processing instruction, which is tagged `php` or `xml`, have no `?>`. -/
def markup_rt (is_xml : Bool) : Node → Bool
  | .mk type tag attrs content children flag =>
    match type with
    | .ELEMENT =>
      tag.all is_ident_part && tag != ROOT && attrs.all markup_attr_ok &&
        (if SELF_CLOSING_TAGS.contains tag then children.isEmpty && !(is_xml && flag)
         else markup_rt_list is_xml false children)
    | .TEXT => markup_text_rt content
    | .WHITESPACE => true
    | .COMMENT => !occurs_in "-->".toList content
    | .COMMENT_BLOCK =>
      !occurs_in "-->".toList content && !">".toList.isPrefixOf content
        && !"->".toList.isPrefixOf content
    | .IMPORT => !occurs_in "?>".toList content
    | .PI => (tag == "php".toList || tag == "xml".toList) && !occurs_in "?>".toList content
/-- The sibling lists of the markup round trip: every node is in the class, and between
two Text nodes there is a node other than Whitespace (`prev` tells that a Text node
came before, with only Whitespace nodes since). -/
def markup_rt_list (is_xml : Bool) : Bool → List Node → Bool
  | _, [] => true
  | prev, c :: cs =>
    markup_rt is_xml c &&
      (match c.type with
       | .TEXT => !prev && markup_rt_list is_xml true cs
       | .WHITESPACE => markup_rt_list is_xml prev cs
       | _ => markup_rt_list is_xml false cs)
end

/-- The text after a rendered tag name: it starts with a blank or with `>`. -/
def StopsTag (S : Str) : Prop := ∃ r, S = ' ' :: r ∨ S = '>' :: r

/-- The items, with trimmed payload, of the text run `w` between two tags: none when the
run is blank. -/
def run_items (w : Str) : List Item :=
  if (trim w).isEmpty then [] else [Item.text (trim w)]

/-- Every character of the text is one that `trim` strips. -/
def Blank (w : Str) : Prop := ∀ c ∈ w, is_trim_char c = true

/-- The markup parser reads the text `I`, after any text run `w` without `<` that is
still pending (a blank one when `prev` is false), as nodes of the class whose items are
those of the run followed by `its`, and stops at `R`. -/
def MarkupReads (is_xml : Bool) (prev : Bool) (I : Str) (its : List Item) (R : Str) : Prop :=
  ∀ w : Str, '<' ∉ w → (prev = false → Blank w) →
    ∃ ns, MarkupParses (w ++ I) ns R ∧ (items_list ns).map Item.norm = run_items w ++ its ∧
      markup_rt_list is_xml false ns = true

/-- The markup round trip of one node that is rendered as a tag, a comment or a
processing instruction: the rendering is the indentation, a text starting with `<`, and
a line break, and that text is read back as one node of the class with the same items. -/
def MarkupNodeReads (is_xml : Bool) (node : Node) : Prop :=
  ∀ L : Nat, ∃ X, MarkupFormatter.format is_xml node L = get_indent L ++ '<' :: X ++ ['\n'] ∧
    ∀ (REST : Str) (more : List Node) (R : Str), MarkupParses ('\n' :: REST) more R →
      ∃ node', MarkupParses ('<' :: X ++ '\n' :: REST) (node' :: more) R ∧
        node'.items.map Item.norm = node.items.map Item.norm ∧
        markup_rt is_xml node' = true ∧ node'.type ≠ .TEXT ∧ node'.type ≠ .WHITESPACE

/-- The braces of the text match: read from depth one, the depth counter of
`read_balanced_braces` comes back to one. -/
def brace_balanced (s : Str) : Bool := brace_scan 1 s == some 1

/-- An attribute for the EML round trip: the key is an identifier, the value has no
double quote, and the braces of the value match. -/
def eml_attr_rt (a : Attribute) : Bool := markup_attr_ok a && brace_balanced a.value

/-- A text payload that the EML parser takes for plain text again: no identifier followed
by `(` or an opening brace, and the braces match. -/
def eml_text_rt (t : Str) : Bool := !( contains_eml_syntax t) && brace_balanced t

/-- The children are a single Text node with such a payload. -/
def eml_sole_text (children : List Node) : Bool :=
  match children with
  | [c] => c.type == NodeType.TEXT && eml_text_rt c.content
  | _ => false

/-- The children are a single Text node whose braces match. -/
def eml_raw_text (children : List Node) : Bool :=
  match children with
  | [c] => c.type == NodeType.TEXT && brace_balanced c.content
  | _ => false

/-- The names that `eml_tag_rt` excludes. -/
def EML_KEYWORDS : List Str := [ROOT, "import".toList, "php".toList]

/-- A tag name for the EML round trip: an identifier other than `ROOT`, `import` and
`php`. -/
def eml_tag_rt (tag : Str) : Bool :=
  is_ident_start (peek tag) && tag.all is_ident_part && !EML_KEYWORDS.contains tag

/-- The pattern of `contains_eml_syntax` has a match in the tag followed by a blank and
an opening brace: so it is for every identifier without `:`. -/
def eml_tag_opens (tag : Str) : Bool := contains_eml_syntax (tag ++ " \x7b".toList)

/-- A node whose EML rendering has EML syntax at its tag: a processing instruction, or an
element with such a tag that is written with an attribute list or a block. -/
def eml_opens (node : Node) : Bool :=
  node.type == NodeType.PI ||
    (node.type == NodeType.ELEMENT && eml_tag_opens node.tag && eml_has_block_or_attrs node)

mutual
/-- The trees of the EML round trip. An element has a tag and attributes as above. The
children of an element with a verbatim tag (`pre`, `code`, `script`, `style`) are absent,
without the explicit-empty-block flag, or a single Text node whose braces match. The
children of any other element are a single Text node that the parser takes for plain
text again, or nodes of the class, none of them a Text node, of which, if there are any,
at least one is a processing instruction or an element written with an attribute list or
a block after a tag in which the pattern of EML syntax matches. A line comment has
no line break, a block comment no `*/`, an import directive no `;`, a processing
instruction is tagged `php`, and the braces of these four payloads match. Whitespace
nodes are in the class. -/
def eml_rt : Node → Bool
  | .mk type tag attrs content children flag =>
    match type with
    | .ELEMENT =>
      eml_tag_rt tag && attrs.all eml_attr_rt &&
        (if RAW_TAGS.contains tag then (children.isEmpty && !flag) || eml_raw_text children
         else eml_sole_text children ||
          (eml_rt_list children && (children.isEmpty || children.any eml_opens)))
    | .WHITESPACE => true
    | .COMMENT => !content.contains '\n' && brace_balanced content
    | .COMMENT_BLOCK => !occurs_in "*/".toList content && brace_balanced content
    | .IMPORT => !content.contains ';' && brace_balanced content
    | .PI => tag == "php".toList && brace_balanced content
    | .TEXT => false
/-- Every node of the list is in the class. -/
def eml_rt_list : List Node → Bool
  | [] => true
  | c :: cs => eml_rt c && eml_rt_list cs
end

/-- The next character that is not whitespace opens neither an attribute list nor a
block. -/
def EmlSafe (I : Str) : Prop :=
  peek (skip_whitespace I) ≠ '(' ∧ peek (skip_whitespace I) ≠ '\x7b'

/-- The EML parser reads the text `I`, whatever whitespace stands in front of it, as
nodes of the class whose items are `its`; when `b` is true one of the nodes is an
element with an attribute list or a block. -/
def EmlReads (I : Str) (its : List Item) (b : Bool) : Prop :=
  ∀ J : Str, skip_whitespace J = skip_whitespace I →
    ∃ ns, EmlParses J ns ∧ (items_list ns).map Item.norm = its ∧ eml_rt_list ns = true ∧
      (b = true → ns.any eml_opens = true)

/-- The EML round trip of one node that is not a Whitespace node: the rendering has
matching braces, it is some whitespace and a text that starts with a character `a`
other than whitespace, `(` and an opening brace, and that text, in front of any text
that is read as nodes of the class, is read as nodes of the class with the items of the
node in front. -/
def EmlNodeReads (node : Node) : Prop :=
  ∀ L : Nat, Balanced (EmlFormatter.format node L) ∧
    ∃ (lead : Str) (a : Char) (X : Str), EmlFormatter.format node L = lead ++ a :: X ∧
      (∀ c ∈ lead, isspace c = true) ∧ isspace a = false ∧ a ≠ '(' ∧ a ≠ '\x7b' ∧
      ∀ (REST : Str) (its : List Item) (b : Bool), EmlSafe REST → EmlReads REST its b →
        ∃ ns, EmlParses (a :: (X ++ REST)) ns ∧
          (items_list ns).map Item.norm = node.items.map Item.norm ++ its ∧
          eml_rt_list ns = true ∧ ((eml_opens node || b) = true → ns.any eml_opens = true)

/-! ## Lemmas: characters and strings -/

theorem ne_of_is_ident_part {c d : Char} (h : is_ident_part c = true)
    (hd : is_ident_part d = false) : c ≠ d := by
  rintro rfl
  simp [h] at hd

theorem find_char_cons_self (c : Char) (s : Str) : find_char c (c :: s) = some 0 := by
  simp [find_char, find_str, List.isPrefixOf]

theorem find_char_append (c : Char) (s t : Str) (h : c ∉ s) :
    find_char c (s ++ c :: t) = some s.length := by
  induction s with
  | nil => simp [find_char, find_str, List.isPrefixOf]
  | cons a s ih =>
    have ha : a ≠ c := fun e => h (by simp [e])
    have hs : c ∉ s := fun e => h (by simp [e])
    have := ih hs
    simp only [find_char] at this
    simp [find_char, find_str, List.isPrefixOf, this, Ne.symm ha]

theorem takeWhile_ident_append (t rest : Str) (d : Char) (hid : ∀ c ∈ t, is_ident_part c = true)
    (hd : is_ident_part d = false) :
    (t ++ d :: rest).takeWhile is_ident_part = t := by
  rw [List.takeWhile_append_of_pos hid]
  simp [List.takeWhile_cons, hd]

theorem dropWhile_ident_append (t rest : Str) (d : Char) (hid : ∀ c ∈ t, is_ident_part c = true)
    (hd : is_ident_part d = false) :
    (t ++ d :: rest).dropWhile is_ident_part = d :: rest := by
  rw [List.dropWhile_append_of_pos hid]
  simp [List.dropWhile_cons, hd]

/-! ## Lemmas: markup parser steps -/

theorem parse_markup_nodes_nil (fuel : Nat) : parse_markup_nodes (fuel + 1) [] = some ([], []) := by
  simp [parse_markup_nodes]

theorem parse_markup_nodes_closing (fuel : Nat) (r : Str) :
    parse_markup_nodes (fuel + 1) ('<' :: '/' :: r) = some ([], '<' :: '/' :: r) := by
  rw [parse_markup_nodes]
  simp [find_char_cons_self, List.isPrefixOf, peek]

theorem parse_markup_attrs_stop_gt (fuel : Nat) (r : Str) :
    parse_markup_attrs (fuel + 1) ('>' :: r) = some ([], '>' :: r) := by
  simp [parse_markup_attrs, peek]

theorem parse_markup_attrs_stop_slash (fuel : Nat) (r : Str) :
    parse_markup_attrs (fuel + 1) ('/' :: r) = some ([], '/' :: r) := by
  simp [parse_markup_attrs, peek]

/-- An opening tag: the tag name, then the attributes up to `>`, the children up to the
closing tag, and the rest of the siblings. -/
theorem parse_markup_nodes_open (fuel : Nat) (a : Char) (q : Str) (attrs : List Attribute)
    (r4 r5 r6 : Str) (children more : List Node)
    (h1 : a ≠ '!') (h2 : a ≠ '?') (h3 : a ≠ '/')
    (hattrs : parse_markup_attrs fuel ((a :: q).dropWhile is_ident_part) = some (attrs, '>' :: r4))
    (hvoid : (a :: q).takeWhile is_ident_part ∉ SELF_CLOSING_TAGS)
    (hchildren : parse_markup_nodes fuel r4 = some (children, r5))
    (hmore : parse_markup_nodes fuel
      (consume_closing_tag ((a :: q).takeWhile is_ident_part) r5) = some (more, r6)) :
    parse_markup_nodes (fuel + 1) ('<' :: a :: q)
      = some (.mk .ELEMENT ((a :: q).takeWhile is_ident_part) attrs [] children children.isEmpty
          :: more, r6) := by
  rw [parse_markup_nodes]
  simp only [List.isEmpty_cons, Bool.false_eq_true, if_false, find_char_cons_self, List.drop_zero,
    lt_irrefl, List.drop_succ_cons, hattrs]
  simp [List.isPrefixOf, Ne.symm h1, Ne.symm h2, Ne.symm h3, h3, peek, hvoid, advance, hchildren,
    hmore]

/-- A self-closed tag `<tag ... />`: no children are parsed. -/
theorem parse_markup_nodes_self_closed (fuel : Nat) (a : Char) (q : Str)
    (attrs : List Attribute) (r4 r6 : Str) (more : List Node)
    (h1 : a ≠ '!') (h2 : a ≠ '?') (h3 : a ≠ '/')
    (hattrs : parse_markup_attrs fuel ((a :: q).dropWhile is_ident_part)
      = some (attrs, '/' :: '>' :: r4))
    (hmore : parse_markup_nodes fuel r4 = some (more, r6)) :
    parse_markup_nodes (fuel + 1) ('<' :: a :: q)
      = some (.mk .ELEMENT ((a :: q).takeWhile is_ident_part) attrs [] [] false :: more, r6) := by
  rw [parse_markup_nodes]
  simp only [List.isEmpty_cons, Bool.false_eq_true, if_false, find_char_cons_self, List.drop_zero,
    lt_irrefl, List.drop_succ_cons, hattrs]
  simp [List.isPrefixOf, Ne.symm h1, Ne.symm h2, Ne.symm h3, h3, peek, advance, hmore]

theorem consume_closing_tag_match (t rest : Str) (hid : ∀ c ∈ t, is_ident_part c = true) :
    consume_closing_tag t ('<' :: '/' :: (t ++ '>' :: rest)) = rest := by
  have hgt : is_ident_part '>' = false := by decide
  simp [consume_closing_tag, List.isPrefixOf, takeWhile_ident_append t rest '>' hid hgt,
    dropWhile_ident_append t rest '>' hid hgt, advance]

/-! ## Lemmas: markup parsing rules -/

theorem isspace_eq_false_of_ident_part {c : Char} (h : is_ident_part c = true) :
    isspace c = false := by
  by_contra hne
  have hsp : isspace c = true := by simpa using hne
  have : is_ident_part c = false := by
    simp only [isspace, Bool.or_eq_true, beq_iff_eq] at hsp
    rcases hsp with ((((h | h) | h) | h) | h) | h <;> subst h <;> decide
  simp [h] at this

theorem skip_whitespace_of_not_space (c : Char) (r : Str) (h : isspace c = false) :
    skip_whitespace (c :: r) = c :: r := by
  simp [skip_whitespace, List.dropWhile_cons, h]

theorem skip_whitespace_space (r : Str) : skip_whitespace (' ' :: r) = skip_whitespace r := by
  simp [skip_whitespace, List.dropWhile_cons, isspace]

theorem takeWhile_ne_append (v rest : Str) (q : Char) (h : q ∉ v) :
    (v ++ q :: rest).takeWhile (fun c => c != q) = v := by
  rw [List.takeWhile_append_of_pos]
  · simp [List.takeWhile_cons]
  · intro a ha
    have : a ≠ q := fun e => h (e ▸ ha)
    simpa using this

theorem dropWhile_ne_append (v rest : Str) (q : Char) (h : q ∉ v) :
    (v ++ q :: rest).dropWhile (fun c => c != q) = q :: rest := by
  rw [List.dropWhile_append_of_pos]
  · simp [List.dropWhile_cons]
  · intro a ha
    have : a ≠ q := fun e => h (e ▸ ha)
    simpa using this

/-- One rendered attribute ` key="value"` is read back as that key and value. -/
theorem parse_markup_attrs_one (fuel : Nat) (a : Attribute) (rest : Str)
    (hok : markup_attr_ok a = true) :
    parse_markup_attrs (fuel + 1)
        (" ".toList ++ a.key ++ "=\"".toList ++ a.value ++ "\"".toList ++ rest)
      = (parse_markup_attrs fuel rest).map (fun res => (⟨a.key, a.value, SEP⟩ :: res.1, res.2)) := by
  obtain ⟨key, value, sep⟩ := a
  simp only [markup_attr_ok, Bool.and_eq_true, List.all_eq_true, Bool.not_eq_true',
    List.contains_eq_any_beq, List.any_eq_false, beq_iff_eq] at hok
  obtain ⟨⟨hstart, hpart⟩, hval⟩ := hok
  obtain ⟨k, key', rfl⟩ : ∃ k key', key = k :: key' := by
    cases key with
    | nil => simp [peek, is_ident_start, isalpha] at hstart
    | cons k key' => exact ⟨k, key', rfl⟩
  have hk : is_ident_start k = true := by simpa [peek] using hstart
  have hkp : is_ident_part k = true := hpart k (by simp)
  have hks : isspace k = false := isspace_eq_false_of_ident_part hkp
  have hq : DQUOTE ∉ value := fun hm => hval DQUOTE hm rfl
  have e : " ".toList ++ (k :: key') ++ "=\"".toList ++ value ++ "\"".toList ++ rest
      = ' ' :: k :: (key' ++ '=' :: DQUOTE :: (value ++ DQUOTE :: rest)) := by
    simp [String.toList, DQUOTE]
  have heq : is_ident_part '=' = false := by decide
  have htw := takeWhile_ident_append (k :: key') (DQUOTE :: (value ++ DQUOTE :: rest)) '=' hpart heq
  have hdw := dropWhile_ident_append (k :: key') (DQUOTE :: (value ++ DQUOTE :: rest)) '=' hpart heq
  simp only [List.cons_append] at htw hdw
  have hval : read_attr_value '>' '/' (DQUOTE :: (value ++ DQUOTE :: rest)) = (value, rest) := by
    have hd : isspace DQUOTE = false := by decide
    simp only [read_attr_value, skip_whitespace_of_not_space _ _ hd, peek, List.headD_cons,
      beq_self_eq_true, Bool.true_or, if_true, advance, List.drop_succ_cons, List.drop_zero,
      takeWhile_ne_append _ _ _ hq, dropWhile_ne_append _ _ _ hq]
  show parse_markup_attrs (fuel + 1) (" ".toList ++ (k :: key') ++ "=\"".toList ++ value ++ "\"".toList ++ rest) = _
  rw [e, parse_markup_attrs]
  have hsp : (' ' == '>') = false := by decide
  have hsp2 : (' ' == '/') = false := by decide
  have hes : isspace '=' = false := by decide
  simp only [List.isEmpty_cons, peek, List.headD_cons, hsp, hsp2, Bool.or_self, Bool.false_eq_true,
    if_false, skip_whitespace_space, skip_whitespace_of_not_space _ _ hks, hk, Bool.not_true,
    htw, hdw, skip_whitespace_of_not_space _ _ hes, beq_self_eq_true, if_true, advance,
    List.drop_succ_cons, List.drop_zero, hval]
  cases parse_markup_attrs fuel rest <;> rfl

theorem markup_attrs_parse_stop_gt (r : Str) : MarkupAttrsParse ('>' :: r) [] ('>' :: r) := by
  intro fuel hf
  obtain ⟨f, rfl⟩ : ∃ f, fuel = f + 1 := ⟨fuel - 1, by omega⟩
  exact parse_markup_attrs_stop_gt f r

theorem markup_attrs_parse_stop_self_close (r : Str) :
    MarkupAttrsParse (' ' :: '/' :: r) [] ('/' :: r) := by
  intro fuel hf
  obtain ⟨f, rfl⟩ : ∃ f, fuel = f + 1 := ⟨fuel - 1, by omega⟩
  have hsl : isspace '/' = false := by decide
  simp [parse_markup_attrs, peek, skip_whitespace_space, skip_whitespace_of_not_space _ _ hsl,
    is_ident_start, isalpha]

theorem markup_attrs_parse_rendered (attrs : List Attribute) (rest r : Str)
    (hok : attrs.all markup_attr_ok = true) (hrest : MarkupAttrsParse rest [] r) :
    MarkupAttrsParse (markup_attrs attrs ++ rest) (with_sep attrs) r := by
  induction attrs with
  | nil => simpa [markup_attrs, with_sep] using hrest
  | cons a as ih =>
    simp only [List.all_cons, Bool.and_eq_true] at hok
    intro fuel hf
    obtain ⟨f, rfl⟩ : ∃ f, fuel = f + 1 := ⟨fuel - 1, by omega⟩
    have hstep := parse_markup_attrs_one f a (markup_attrs as ++ rest) hok.1
    have hrec := ih hok.2 f (by
      simp [markup_attrs, String.toList] at hf ⊢
      omega)
    simp only [markup_attrs, List.append_assoc] at hstep ⊢
    rw [hstep, hrec]
    rfl

theorem markup_text_nodes_nil : markup_text_nodes [] = [] := rfl

/-- Text before a `<` only adds its node in front of what is parsed from the `<` on. -/
theorem parse_markup_nodes_leading_text (fuel : Nat) (w q : Str) (hw : '<' ∉ w) :
    parse_markup_nodes (fuel + 1) (w ++ '<' :: q)
      = (parse_markup_nodes (fuel + 1) ('<' :: q)).map
          (fun res => (markup_text_nodes w ++ res.1, res.2)) := by
  cases w with
  | nil =>
    simp only [List.nil_append, markup_text_nodes_nil]
    cases parse_markup_nodes (fuel + 1) ('<' :: q) <;> simp
  | cons c w' =>
    have hfind : find_char '<' ((c :: w') ++ '<' :: q) = some (c :: w').length :=
      find_char_append '<' (c :: w') q hw
    rw [parse_markup_nodes, parse_markup_nodes]
    simp only [List.cons_append] at hfind
    simp only [List.cons_append, List.isEmpty_cons, Bool.false_eq_true, if_false, hfind,
      find_char_cons_self, List.drop_zero, lt_irrefl]
    have hdrop : List.drop (c :: w').length (c :: (w' ++ '<' :: q)) = '<' :: q := by
      rw [← List.cons_append, List.drop_left]
    have hsub : substr (c :: (w' ++ '<' :: q)) 0 (c :: w').length = c :: w' := by
      rw [← List.cons_append]; simp [substr]
    have hpos : 0 < (c :: w').length := by simp
    simp only [hdrop, hsub, hpos, if_true]
    split
    · cases parse_markup_nodes fuel (parse_markup_comment ('<' :: q)).2 <;> simp
    · split
      · cases parse_markup_nodes fuel (parse_markup_pi ('<' :: q)).2 <;> simp
      · split
        · simp
        · cases parse_markup_attrs fuel (List.dropWhile is_ident_part (List.drop 1 ('<' :: q))) with
          | none => rfl
          | some p =>
            obtain ⟨attrs, r2⟩ := p
            simp only [Option.map]
            split
            · split
              · rfl
              · split
                · rfl
                · simp
            · split
              · rfl
              · simp

theorem fuel_succ {n fuel : Nat} (h : n < fuel) : ∃ f, fuel = f + 1 := ⟨fuel - 1, by omega⟩

theorem markup_parses_text_eof (w : Str) (hw : '<' ∉ w) :
    MarkupParses w (markup_text_nodes w) [] := by
  intro fuel hf
  obtain ⟨f, rfl⟩ := fuel_succ hf
  cases w with
  | nil => rfl
  | cons c w' =>
    have hfind : find_char '<' (c :: w') = none := by
      have : ∀ s : Str, '<' ∉ s → find_str ['<'] s = none := by
        intro s hs
        induction s with
        | nil => simp [find_str]
        | cons x xs ih =>
          have hx : x ≠ '<' := fun e => hs (by simp [e])
          have hxs : '<' ∉ xs := fun e => hs (by simp [e])
          simp [find_str, List.isPrefixOf, ih hxs, Ne.symm hx]
      exact this _ hw
    rw [parse_markup_nodes]
    simp [hfind]

theorem markup_parses_prefix (w q : Str) (ns : List Node) (r : Str) (hw : '<' ∉ w)
    (h : MarkupParses ('<' :: q) ns r) :
    MarkupParses (w ++ '<' :: q) (markup_text_nodes w ++ ns) r := by
  intro fuel hf
  obtain ⟨f, rfl⟩ := fuel_succ hf
  rw [parse_markup_nodes_leading_text f w q hw, h (f + 1) (by
    simp only [List.length_append] at hf; omega)]
  rfl

theorem markup_parses_closing (r : Str) :
    MarkupParses ('<' :: '/' :: r) [] ('<' :: '/' :: r) := by
  intro fuel hf
  obtain ⟨f, rfl⟩ := fuel_succ hf
  exact parse_markup_nodes_closing f r

theorem takeWhile_ident_stops (t S : Str) (hid : ∀ c ∈ t, is_ident_part c = true)
    (hS : StopsIdent S) : (t ++ S).takeWhile is_ident_part = t := by
  cases S with
  | nil => simpa using hid
  | cons d S' => exact takeWhile_ident_append t S' d hid (hS d rfl)

theorem dropWhile_ident_stops (t S : Str) (hid : ∀ c ∈ t, is_ident_part c = true)
    (hS : StopsIdent S) : (t ++ S).dropWhile is_ident_part = S := by
  cases S with
  | nil => simpa using hid
  | cons d S' => exact dropWhile_ident_append t S' d hid (hS d rfl)

theorem tag_head_facts (tag : Str) (hne : tag ≠ []) (hid : ∀ c ∈ tag, is_ident_part c = true) :
    ∃ a t', tag = a :: t' ∧ a ≠ '!' ∧ a ≠ '?' ∧ a ≠ '/' := by
  cases tag with
  | nil => exact absurd rfl hne
  | cons a t' =>
    have ha : is_ident_part a = true := hid a (by simp)
    exact ⟨a, t', rfl, ne_of_is_ident_part ha (by decide), ne_of_is_ident_part ha (by decide),
      ne_of_is_ident_part ha (by decide)⟩

/-- An element `<tag attrs>children</tag>` of a tag that is not void. -/
theorem markup_parses_open (tag S : Str) (attrs : List Attribute) (r4 r5 r6 : Str)
    (children more : List Node)
    (hne : tag ≠ []) (hid : ∀ c ∈ tag, is_ident_part c = true) (hS : StopsIdent S)
    (hattrs : MarkupAttrsParse S attrs ('>' :: r4))
    (hvoid : tag ∉ SELF_CLOSING_TAGS)
    (hchildren : MarkupParses r4 children r5)
    (hmore : MarkupParses (consume_closing_tag tag r5) more r6)
    (hl1 : r4.length ≤ S.length) (hl2 : (consume_closing_tag tag r5).length ≤ S.length) :
    MarkupParses ('<' :: (tag ++ S))
      (.mk .ELEMENT tag attrs [] children children.isEmpty :: more) r6 := by
  intro fuel hf
  obtain ⟨f, rfl⟩ := fuel_succ hf
  obtain ⟨a, t', rfl, h1, h2, h3⟩ := tag_head_facts tag hne hid
  simp only [List.length_cons, List.length_append] at hf
  have htw := takeWhile_ident_stops (a :: t') S hid hS
  have hdw := dropWhile_ident_stops (a :: t') S hid hS
  have := parse_markup_nodes_open f a (t' ++ S) attrs r4 r5 r6 children more h1 h2 h3
    (by rw [← List.cons_append, hdw]; exact hattrs f (by omega))
    (by rw [← List.cons_append, htw]; exact hvoid)
    (hchildren f (by omega))
    (by rw [← List.cons_append, htw]; exact hmore f (by omega))
  rw [← List.cons_append, htw] at this
  exact this

/-! ## Lemmas: `trim` -/

theorem trim_eq_rdropWhile (s : Str) :
    trim s = (s.dropWhile is_trim_char).rdropWhile is_trim_char := rfl

theorem trim_idempotent (s : Str) : trim (trim s) = trim s := by
  simp only [trim_eq_rdropWhile]
  have hpre : ((s.dropWhile is_trim_char).rdropWhile is_trim_char) <+: s.dropWhile is_trim_char :=
    List.rdropWhile_prefix _ _
  have hdrop : List.dropWhile is_trim_char ((s.dropWhile is_trim_char).rdropWhile is_trim_char)
      = (s.dropWhile is_trim_char).rdropWhile is_trim_char := by
    cases hA : (s.dropWhile is_trim_char).rdropWhile is_trim_char with
    | nil => rfl
    | cons x xs =>
      rw [hA] at hpre
      obtain ⟨u, hu⟩ := hpre
      have hx : is_trim_char x = false := by
        have h := List.dropWhile_idempotent (p := is_trim_char) (l := s)
        rw [← hu] at h
        by_contra hne
        have hxt : is_trim_char x = true := by simpa using hne
        have hlen := congrArg List.length h
        simp only [List.cons_append, List.dropWhile_cons, hxt, if_true, List.length_cons] at hlen
        have hsuf := (List.dropWhile_suffix is_trim_char (l := xs ++ u)).length_le
        omega
      simp [List.dropWhile_cons, hx]
  rw [hdrop, List.rdropWhile_idempotent]

theorem trim_sublist (s : Str) : (trim s).Sublist s := by
  rw [trim_eq_rdropWhile]
  exact (List.rdropWhile_prefix _ _).sublist.trans (List.dropWhile_suffix _).sublist

theorem has_newline_trim (s : Str) (h : has_newline s = false) : has_newline (trim s) = false := by
  simp only [has_newline, List.contains_eq_any_beq, List.any_eq_false, beq_iff_eq] at h ⊢
  intro x hx
  exact h x ((trim_sublist s).subset hx)

/-! ## Lemmas: EML parser steps -/

theorem parse_eml_nodes_nil (fuel : Nat) : parse_eml_nodes (fuel + 1) [] = some [] := by
  simp [parse_eml_nodes]

/-- A line comment `// ...` at the head of the input. -/
theorem parse_eml_nodes_line_comment (fuel : Nat) (r : Str) (more : List Node)
    (h : parse_eml_nodes fuel (r.dropWhile (fun c => c != '\n')) = some more) :
    parse_eml_nodes (fuel + 1) ('/' :: '/' :: r)
      = some (Node.leaf .COMMENT (trim (r.takeWhile (fun c => c != '\n'))) :: more) := by
  rw [parse_eml_nodes]
  have hsl : isspace '/' = false := by decide
  simp only [List.isEmpty_cons, Bool.false_eq_true, if_false, List.takeWhile_cons,
    List.dropWhile_cons, hsl]
  simp [peek, h, eml_ws_nodes]

/-- An `import` directive at the head of the input, closed by the next `;`. -/
theorem parse_eml_nodes_import (fuel : Nat) (c : Char) (r : Str) (iend : Nat) (more : List Node)
    (hc : isspace c = true) (hfind : find_char ';' (c :: r) = some iend)
    (h : parse_eml_nodes fuel ((c :: r).drop (iend + 1)) = some more) :
    parse_eml_nodes (fuel + 1) ('i' :: 'm' :: 'p' :: 'o' :: 'r' :: 't' :: c :: r)
      = some (Node.leaf .IMPORT (trim (substr (c :: r) 0 iend)) :: more) := by
  rw [parse_eml_nodes]
  have hi : isspace 'i' = false := by decide
  have himp : at_import ('i' :: 'm' :: 'p' :: 'o' :: 'r' :: 't' :: c :: r) = true := by
    simp [at_import, peek, hc]
  have hpk : peek ('i' :: 'm' :: 'p' :: 'o' :: 'r' :: 't' :: c :: r) = 'i' := rfl
  simp only [List.isEmpty_cons, Bool.false_eq_true, if_false, List.takeWhile_cons,
    List.dropWhile_cons, hi, himp, hpk, if_true, List.drop_succ_cons, List.drop_zero, hfind]
  simp only [List.drop_succ_cons] at h
  simp [eml_ws_nodes, h]

/-! ## Lemmas: formatters -/

/-- The attribute text of the markup renderer is each attribute as ` key="value"`. -/
theorem markup_attrs_eq_flatten (attrs : List Attribute) :
    markup_attrs attrs = (attrs.map
      (fun a => " ".toList ++ a.key ++ "=\"".toList ++ a.value ++ "\"".toList)).flatten := by
  induction attrs with
  | nil => rfl
  | cons a rest ih => simp [markup_attrs, ih]

/-! ## Lemmas: markup round trip -/

theorem parse_markup_nodes_void (fuel : Nat) (a : Char) (q : Str) (attrs : List Attribute)
    (r4 r6 : Str) (more : List Node)
    (h1 : a ≠ '!') (h2 : a ≠ '?') (h3 : a ≠ '/')
    (hattrs : parse_markup_attrs fuel ((a :: q).dropWhile is_ident_part) = some (attrs, '>' :: r4))
    (hvoid : (a :: q).takeWhile is_ident_part ∈ SELF_CLOSING_TAGS)
    (hmore : parse_markup_nodes fuel r4 = some (more, r6)) :
    parse_markup_nodes (fuel + 1) ('<' :: a :: q)
      = some (.mk .ELEMENT ((a :: q).takeWhile is_ident_part) attrs [] [] false :: more, r6) := by
  rw [parse_markup_nodes]
  simp only [List.isEmpty_cons, Bool.false_eq_true, if_false, find_char_cons_self, List.drop_zero,
    lt_irrefl, List.drop_succ_cons, hattrs]
  simp [List.isPrefixOf, Ne.symm h1, Ne.symm h2, Ne.symm h3, h3, peek, hvoid, advance, hmore]

/-- A void element `<tag attrs>`: no children are parsed. -/
theorem markup_parses_void (tag S : Str) (attrs : List Attribute) (r4 r6 : Str)
    (more : List Node)
    (hne : tag ≠ []) (hid : ∀ c ∈ tag, is_ident_part c = true) (hS : StopsIdent S)
    (hattrs : MarkupAttrsParse S attrs ('>' :: r4))
    (hvoid : tag ∈ SELF_CLOSING_TAGS)
    (hmore : MarkupParses r4 more r6) (hl1 : r4.length ≤ S.length) :
    MarkupParses ('<' :: (tag ++ S)) (.mk .ELEMENT tag attrs [] [] false :: more) r6 := by
  intro fuel hf
  obtain ⟨f, rfl⟩ := fuel_succ hf
  obtain ⟨a, t', rfl, h1, h2, h3⟩ := tag_head_facts tag hne hid
  simp only [List.length_cons, List.length_append] at hf
  have htw := takeWhile_ident_stops (a :: t') S hid hS
  have hdw := dropWhile_ident_stops (a :: t') S hid hS
  have := parse_markup_nodes_void f a (t' ++ S) attrs r4 r6 more h1 h2 h3
    (by rw [← List.cons_append, hdw]; exact hattrs f (by omega))
    (by rw [← List.cons_append, htw]; exact hvoid)
    (hmore f (by omega))
  rw [← List.cons_append, htw] at this
  exact this

/-- A self-closed element `<tag attrs />`: no children are parsed. -/
theorem markup_parses_self_closed (tag S : Str) (attrs : List Attribute) (r4 r6 : Str)
    (more : List Node)
    (hne : tag ≠ []) (hid : ∀ c ∈ tag, is_ident_part c = true) (hS : StopsIdent S)
    (hattrs : MarkupAttrsParse S attrs ('/' :: '>' :: r4))
    (hmore : MarkupParses r4 more r6) (hl1 : r4.length ≤ S.length) :
    MarkupParses ('<' :: (tag ++ S)) (.mk .ELEMENT tag attrs [] [] false :: more) r6 := by
  intro fuel hf
  obtain ⟨f, rfl⟩ := fuel_succ hf
  obtain ⟨a, t', rfl, h1, h2, h3⟩ := tag_head_facts tag hne hid
  simp only [List.length_cons, List.length_append] at hf
  have htw := takeWhile_ident_stops (a :: t') S hid hS
  have hdw := dropWhile_ident_stops (a :: t') S hid hS
  have := parse_markup_nodes_self_closed f a (t' ++ S) attrs r4 r6 more h1 h2 h3
    (by rw [← List.cons_append, hdw]; exact hattrs f (by omega))
    (hmore f (by omega))
  rw [← List.cons_append, htw] at this
  exact this

/-! ### Facts about the renderer -/

theorem items_list_append (l1 l2 : List Node) :
    items_list (l1 ++ l2) = items_list l1 ++ items_list l2 := by
  induction l1 with
  | nil => simp [items_list]
  | cons c cs ih => simp [items_list, ih]

theorem items_with_sep (attrs : List Attribute) :
    (with_sep attrs).map (fun a => Item.attr a.key a.value)
      = attrs.map (fun a => Item.attr a.key a.value) := by
  simp [with_sep]

theorem markup_attrs_stops (attrs : List Attribute) (S : Str) (hS : StopsIdent S) :
    StopsIdent (markup_attrs attrs ++ S) := by
  cases attrs with
  | nil => simpa [markup_attrs] using hS
  | cons a as =>
    intro c hc
    simp [markup_attrs, String.toList] at hc
    subst hc
    decide

theorem markup_tag_ok_facts {tag : Str} (h : markup_tag_ok tag = true) :
    tag ≠ [] ∧ (∀ c ∈ tag, is_ident_part c = true) ∧ tag ≠ ROOT := by
  simp only [markup_tag_ok, Bool.and_eq_true, Bool.not_eq_true', List.isEmpty_eq_false,
    List.all_eq_true, bne_iff_ne, ne_eq] at h
  exact ⟨h.1.1, h.1.2, h.2⟩

theorem stops_space (r : Str) : StopsIdent (' ' :: r) := by
  intro c hc; simp at hc; subst hc; decide

theorem stops_gt (r : Str) : StopsIdent ('>' :: r) := by
  intro c hc; simp at hc; subst hc; decide

/-! ## Lemmas: EML parsing rules -/

theorem takeWhile_isspace_skip (X : Str) : (skip_whitespace X).takeWhile isspace = [] := by
  unfold skip_whitespace
  induction X with
  | nil => rfl
  | cons a X ih =>
    by_cases ha : isspace a = true
    · simp [List.dropWhile_cons, ha, ih]
    · simp [List.dropWhile_cons, ha, List.takeWhile_cons]

theorem skip_whitespace_idem (X : Str) : skip_whitespace (skip_whitespace X) = skip_whitespace X := by
  unfold skip_whitespace
  exact List.dropWhile_idempotent (p := isspace) (l := X)

theorem ident_start_facts {a : Char} (ha : is_ident_start a = true) :
    is_ident_part a = true ∧ isspace a = false ∧ a ≠ '/' := by
  have hp : is_ident_part a = true := by
    simp only [is_ident_start, Bool.or_eq_true, beq_iff_eq] at ha
    simp only [is_ident_part, isalnum, Bool.or_eq_true, beq_iff_eq]
    rcases ha with h | h
    · exact Or.inl (Or.inl (Or.inl (Or.inl (Or.inl h))))
    · exact Or.inl (Or.inl (Or.inr h))
  exact ⟨hp, isspace_eq_false_of_ident_part hp, ne_of_is_ident_part hp (by decide)⟩

/-- An element at the head of the input: the tag, the attribute list if a `(` follows,
the content block if a brace follows, then the rest of the siblings. -/
theorem parse_eml_nodes_element (f : Nat) (a : Char) (t' S : Str) (attrs : List Attribute)
    (r4 r5 : Str) (el : Node) (more : List Node)
    (ha : is_ident_start a = true) (hid : ∀ c ∈ a :: t', is_ident_part c = true)
    (hS : StopsIdent S) (himp : at_import ((a :: t') ++ S) = false)
    (hattrs : (if !(skip_whitespace S).isEmpty && peek (skip_whitespace S) == '(' then
        parse_eml_attrs f (advance (skip_whitespace S)) else some ([], skip_whitespace S))
      = some (attrs, r4))
    (hbody : parse_eml_element_body (parse_eml_nodes f) (a :: t') attrs (skip_whitespace r4)
      = some (el, r5))
    (hmore : parse_eml_nodes f r5 = some more) :
    parse_eml_nodes (f + 1) ((a :: t') ++ S) = some (el :: more) := by
  obtain ⟨_, hsp, hsl⟩ := ident_start_facts ha
  have htw := takeWhile_ident_stops (a :: t') S hid hS
  have hdw := dropWhile_ident_stops (a :: t') S hid hS
  rw [parse_eml_nodes]
  simp only [List.cons_append] at htw hdw himp ⊢
  have hpk : peek (a :: (t' ++ S)) = a := rfl
  have hsl' : (a == '/') = false := by simpa using hsl
  simp only [List.isEmpty_cons, Bool.false_eq_true, if_false, List.takeWhile_cons,
    List.dropWhile_cons, hsp, hpk, hsl', Bool.false_and, himp, ha, Bool.not_true, htw, hdw,
    hattrs, hbody, hmore]
  rfl

theorem eml_attr_items_cons (first : Bool) (a : Attribute) (rest : List Attribute) :
    eml_attr_items first (a :: rest)
      = (if first then [] else ", ".toList) ++ eml_attr_item a ++ eml_attr_items false rest := by
  simp [eml_attr_items, eml_attr_item, List.append_assoc]

theorem parse_eml_attrs_close (f : Nat) (TAIL : Str) :
    parse_eml_attrs (f + 1) (')' :: TAIL) = some ([], TAIL) := by
  simp [parse_eml_attrs, peek, advance]

/-- One rendered attribute `key = "value"`, after an optional space, followed by `,` or
`)`, is read back as that key and value. -/
theorem parse_eml_attrs_one (f : Nat) (a : Attribute) (pad X : Str) (d : Char)
    (hok : markup_attr_ok a = true) (hpad : pad = [] ∨ pad = [' '])
    (hd : d = ',' ∨ d = ')') :
    parse_eml_attrs (f + 1) (pad ++ eml_attr_item a ++ d :: X)
      = (parse_eml_attrs f (if d = ',' then X else d :: X)).map
          (fun res => (⟨a.key, a.value, SEP⟩ :: res.1, res.2)) := by
  obtain ⟨key, value, sep⟩ := a
  simp only [markup_attr_ok, Bool.and_eq_true, List.all_eq_true, Bool.not_eq_true',
    List.contains_eq_any_beq, List.any_eq_false, beq_iff_eq] at hok
  obtain ⟨⟨hstart, hpart⟩, hval⟩ := hok
  obtain ⟨k, key', rfl⟩ : ∃ k key', key = k :: key' := by
    cases key with
    | nil => simp [peek, is_ident_start, isalpha] at hstart
    | cons k key' => exact ⟨k, key', rfl⟩
  have hk : is_ident_start k = true := by simpa [peek] using hstart
  obtain ⟨hkp, hks, _⟩ := ident_start_facts hk
  have hkc : k ≠ ')' := ne_of_is_ident_part hkp (by decide)
  have hq : DQUOTE ∉ value := fun hm => hval DQUOTE hm rfl
  have e : eml_attr_item ⟨k :: key', value, sep⟩ ++ d :: X
      = k :: (key' ++ ' ' :: '=' :: ' ' :: DQUOTE :: (value ++ DQUOTE :: d :: X)) := by
    simp [eml_attr_item, String.toList, DQUOTE]
  have hsp : is_ident_part ' ' = false := by decide
  have htw := takeWhile_ident_append (k :: key') ('=' :: ' ' :: DQUOTE :: (value ++ DQUOTE :: d :: X))
    ' ' hpart hsp
  have hdw := dropWhile_ident_append (k :: key') ('=' :: ' ' :: DQUOTE :: (value ++ DQUOTE :: d :: X))
    ' ' hpart hsp
  simp only [List.cons_append] at htw hdw
  have hes : isspace '=' = false := by decide
  have hval : read_attr_value ')' ',' (' ' :: DQUOTE :: (value ++ DQUOTE :: d :: X))
      = (value, d :: X) := by
    have hdq : isspace DQUOTE = false := by decide
    simp only [read_attr_value, skip_whitespace_space, skip_whitespace_of_not_space _ _ hdq, peek,
      List.headD_cons, beq_self_eq_true, Bool.true_or, if_true, advance, List.drop_succ_cons,
      List.drop_zero, takeWhile_ne_append _ _ _ hq, dropWhile_ne_append _ _ _ hq]
  have hds : isspace d = false := by rcases hd with rfl | rfl <;> decide
  have hmain : parse_eml_attrs (f + 1)
      (k :: (key' ++ ' ' :: '=' :: ' ' :: DQUOTE :: (value ++ DQUOTE :: d :: X)))
      = (parse_eml_attrs f (if d = ',' then X else d :: X)).map
          (fun res => (⟨k :: key', value, SEP⟩ :: res.1, res.2)) := by
    rw [parse_eml_attrs]
    have hkc' : (k == ')') = false := by simpa using hkc
    simp only [List.isEmpty_cons, peek, List.headD_cons, hkc', Bool.or_self, Bool.false_eq_true,
      if_false, skip_whitespace_of_not_space _ _ hks, htw, hdw, skip_whitespace_space,
      skip_whitespace_of_not_space _ _ hes, beq_self_eq_true, if_true, advance,
      List.drop_succ_cons, List.drop_zero, hval, skip_whitespace_of_not_space _ _ hds]
    rcases hd with rfl | rfl
    · simp only [beq_self_eq_true, if_true]
      cases parse_eml_attrs f X <;> rfl
    · have : (')' == ',') = false := by decide
      simp only [this, Bool.false_eq_true, if_false]
      have h2 : ¬ (')' = ',') := by decide
      simp only [h2, if_false]
      cases parse_eml_attrs f (')' :: X) <;> rfl
  rcases hpad with rfl | rfl
  · rw [List.nil_append, e]
    exact hmain
  · rw [List.append_assoc, e]
    rw [parse_eml_attrs] at hmain ⊢
    have hkc' : (k == ')') = false := by simpa using hkc
    have hsc : (' ' == ')') = false := by decide
    simp only [List.singleton_append, List.isEmpty_cons, peek, List.headD_cons, hkc', hsc,
      Bool.or_self, Bool.false_eq_true, if_false, skip_whitespace_space,
      skip_whitespace_of_not_space _ _ hks] at hmain ⊢
    exact hmain

/-- The rendered attribute list `key = "value", ...)` is read back in order. -/
theorem eml_attrs_parse_rendered (as : List Attribute) :
    ∀ (a : Attribute) (pad TAIL : Str), markup_attr_ok a = true →
      as.all markup_attr_ok = true → (pad = [] ∨ pad = [' ']) →
      EmlAttrsParse (pad ++ eml_attr_item a ++ (eml_attr_items false as ++ ')' :: TAIL))
        (with_sep (a :: as)) TAIL := by
  induction as with
  | nil =>
    intro a pad TAIL ha _ hpad fuel hf
    obtain ⟨f, rfl⟩ := fuel_succ hf
    have := parse_eml_attrs_one f a pad TAIL ')' ha hpad (Or.inr rfl)
    simp only [eml_attr_items, List.nil_append]
    rw [this]
    have h2 : ¬ (')' = ',') := by decide
    simp only [h2, if_false]
    obtain ⟨f', rfl⟩ : ∃ f', f = f' + 1 := ⟨f - 1, by
      simp only [List.length_append, List.length_cons, eml_attr_items, List.nil_append] at hf
      omega⟩
    rw [parse_eml_attrs_close]
    rfl
  | cons b bs ih =>
    intro a pad TAIL ha hall hpad fuel hf
    obtain ⟨f, rfl⟩ := fuel_succ hf
    simp only [List.all_cons, Bool.and_eq_true] at hall
    have e : eml_attr_items false (b :: bs) ++ ')' :: TAIL
        = ',' :: ([' '] ++ eml_attr_item b ++ (eml_attr_items false bs ++ ')' :: TAIL)) := by
      rw [eml_attr_items_cons]
      simp [String.toList, List.append_assoc]
    rw [e] at hf ⊢
    have := parse_eml_attrs_one f a pad
      ([' '] ++ eml_attr_item b ++ (eml_attr_items false bs ++ ')' :: TAIL)) ',' ha hpad (Or.inl rfl)
    rw [this]
    simp only [if_true]
    rw [ih b [' '] TAIL hall.1 hall.2 (Or.inr rfl) f (by
      simp only [List.length_append, List.length_cons] at hf ⊢
      omega)]
    rfl

theorem brace_scan_append (a b : Str) : ∀ d,
    brace_scan d (a ++ b) = (brace_scan d a).bind (fun d' => brace_scan d' b) := by
  induction a with
  | nil => intro d; simp [brace_scan]
  | cons c a ih =>
    intro d
    simp only [List.cons_append, brace_scan]
    split
    · exact ih _
    · split
      · split
        · rfl
        · exact ih _
      · exact ih _

theorem balanced_nil : Balanced [] := fun _ _ => rfl

theorem balanced_append {a b : Str} (ha : Balanced a) (hb : Balanced b) : Balanced (a ++ b) := by
  intro d hd
  rw [brace_scan_append, ha d hd]
  exact hb d hd

theorem balanced_of_no_brace (s : Str) (h1 : '\x7b' ∉ s) (h2 : '\x7d' ∉ s) : Balanced s := by
  induction s with
  | nil => exact balanced_nil
  | cons c s ih =>
    intro d hd
    have hc1 : c ≠ '\x7b' := fun e => h1 (by simp [e])
    have hc2 : c ≠ '\x7d' := fun e => h2 (by simp [e])
    have := ih (fun e => h1 (by simp [e])) (fun e => h2 (by simp [e])) d hd
    simp [brace_scan, hc1, hc2, this]

theorem balanced_wrap {s : Str} (h : Balanced s) : Balanced ('\x7b' :: (s ++ ['\x7d'])) := by
  intro d hd
  have hne : ('\x7d' == '\x7b') = false := by decide
  have hd1 : ¬ (d + 1 ≤ 1) := by omega
  rw [brace_scan]
  simp only [beq_self_eq_true, if_true]
  rw [brace_scan_append, h (d + 1) (by omega)]
  simp [brace_scan, hne, hd1]

theorem read_balanced_braces_loop_scan (s rest : Str) : ∀ (d d' : Nat) (acc : Str), 1 ≤ d →
    brace_scan d s = some d' →
    read_balanced_braces_loop d acc (s ++ rest) = read_balanced_braces_loop d' (acc ++ s) rest ∧
      1 ≤ d' := by
  induction s with
  | nil =>
    intro d d' acc hd h
    simp only [brace_scan, Option.some.injEq] at h
    subst h
    simp [hd]
  | cons c s ih =>
    intro d d' acc hd h
    simp only [brace_scan] at h
    have hd0 : d ≠ 0 := by omega
    by_cases hc1 : c = '\x7b'
    · subst hc1
      simp only [beq_self_eq_true, if_true] at h
      obtain ⟨h1, h2⟩ := ih (d + 1) d' (acc ++ ['\x7b']) (by omega) h
      refine ⟨?_, h2⟩
      have hne : ('\x7b' == '\x7d') = false := by decide
      simp only [List.cons_append, read_balanced_braces_loop, hd0, if_false, beq_self_eq_true,
        if_true, hne, Bool.false_eq_true]
      simpa using h1
    · have hc1' : (c == '\x7b') = false := by simpa using hc1
      simp only [hc1', Bool.false_eq_true, if_false] at h
      by_cases hc2 : c = '\x7d'
      · subst hc2
        simp only [beq_self_eq_true, if_true] at h
        split at h
        · exact absurd h (by simp)
        · rename_i hd1
          obtain ⟨h1, h2⟩ := ih (d - 1) d' (acc ++ ['\x7d']) (by omega) h
          refine ⟨?_, h2⟩
          have hz : ¬ (d - 1 = 0) := by omega
          simp only [List.cons_append, read_balanced_braces_loop, hd0, if_false, hc1',
            Bool.false_eq_true, beq_self_eq_true, if_true, hz]
          simpa using h1
      · have hc2' : (c == '\x7d') = false := by simpa using hc2
        simp only [hc2', Bool.false_eq_true, if_false] at h
        obtain ⟨h1, h2⟩ := ih d d' (acc ++ [c]) hd h
        refine ⟨?_, h2⟩
        simp only [List.cons_append, read_balanced_braces_loop, hd0, if_false, hc1', hc2',
          Bool.false_eq_true]
        simpa using h1

/-- A block with matching braces is read up to its closing brace. -/
theorem read_balanced_braces_balanced (s rest : Str) (h : Balanced s) :
    read_balanced_braces (s ++ '\x7d' :: rest) = (s, rest) := by
  unfold read_balanced_braces
  rw [(read_balanced_braces_loop_scan s ('\x7d' :: rest) 1 1 [] (le_refl _) (h 1 (le_refl _))).1]
  have hne : ('\x7d' == '\x7b') = false := by decide
  simp [read_balanced_braces_loop, hne]

theorem peek_mem_or_zero (r : Str) : peek r = Char.ofNat 0 ∨ peek r ∈ r := by
  cases r with
  | nil => exact Or.inl rfl
  | cons a r => exact Or.inr (by simp [peek])

theorem regex_match_here_false (s : Str) (h1 : '(' ∉ s) (h2 : '\x7b' ∉ s) :
    regex_match_here s = false := by
  cases s with
  | nil => rfl
  | cons c cs =>
    have hsuf : ((cs.dropWhile is_regex_ident_char).dropWhile isspace) <:+ c :: cs :=
      ((List.dropWhile_suffix _).trans (List.dropWhile_suffix _)).trans (List.suffix_cons c cs)
    have hp : ∀ x : Char, x ≠ Char.ofNat 0 → x ∉ c :: cs →
        (peek ((cs.dropWhile is_regex_ident_char).dropWhile isspace) == x) = false := by
      intro x hx0 hx
      rcases peek_mem_or_zero ((cs.dropWhile is_regex_ident_char).dropWhile isspace) with h | h
      · rw [h]; simpa using Ne.symm hx0
      · have hm := hsuf.subset h
        have : peek ((cs.dropWhile is_regex_ident_char).dropWhile isspace) ≠ x :=
          fun e => hx (e ▸ hm)
        simpa using this
    simp [regex_match_here, hp '(' (by decide) h1, hp '\x7b' (by decide) h2]

/-- A text without `(` and without an opening brace has no EML syntax. -/
theorem contains_eml_syntax_false (s : Str) (h1 : '(' ∉ s) (h2 : '\x7b' ∉ s) :
    contains_eml_syntax s = false := by
  unfold contains_eml_syntax
  have : ∀ b, regex_search_from b s = false := by
    induction s with
    | nil => intro b; rfl
    | cons c cs ih =>
      intro b
      have hm := regex_match_here_false (c :: cs) h1 h2
      simp [regex_search_from, hm, ih (fun e => h1 (by simp [e])) (fun e => h2 (by simp [e]))]
  exact this false

theorem at_import_false (tag S : Str) (d : Char) (hd : is_ident_part d = false)
    (hid : ∀ c ∈ tag, is_ident_part c = true) (hne : tag ≠ "import".toList) :
    at_import (tag ++ d :: S) = false := by
  have hsp : ∀ c : Char, is_ident_part c = true → isspace c = false :=
    fun c hc => isspace_eq_false_of_ident_part hc
  have hdne : ∀ c : Char, is_ident_part c = true → c ≠ d := fun c hc => ne_of_is_ident_part hc hd
  have hdi : d ≠ 'i' := fun e => by rw [e] at hd; exact absurd hd (by decide)
  have hdm : d ≠ 'm' := fun e => by rw [e] at hd; exact absurd hd (by decide)
  have hdp : d ≠ 'p' := fun e => by rw [e] at hd; exact absurd hd (by decide)
  have hdo : d ≠ 'o' := fun e => by rw [e] at hd; exact absurd hd (by decide)
  have hdr : d ≠ 'r' := fun e => by rw [e] at hd; exact absurd hd (by decide)
  have hdt : d ≠ 't' := fun e => by rw [e] at hd; exact absurd hd (by decide)
  rcases tag with _ | ⟨a, _ | ⟨b, _ | ⟨c, _ | ⟨e, _ | ⟨g, _ | ⟨h, _ | ⟨i, t⟩⟩⟩⟩⟩⟩⟩
  · simp [at_import, String.toList, hdi]
  · simp [at_import, String.toList, hdm]
  · simp [at_import, String.toList, hdp]
  · simp [at_import, String.toList, hdo]
  · simp [at_import, String.toList, hdr]
  · simp [at_import, String.toList, hdt]
  · simp only [String.toList] at hne
    simp only [at_import, String.toList, List.cons_append, List.nil_append, List.take_succ_cons,
      List.take_zero, List.drop_succ_cons, List.drop_zero, List.isEmpty_cons, peek,
      List.headD_cons, Bool.false_or, Bool.and_eq_false_iff]
    by_cases hq : [a, b, c, e, g, h] = "import".data
    · exact absurd hq hne
    · left
      simpa using hq
  · have hi : is_ident_part i = true := hid i (by simp)
    simp [at_import, peek, hsp i hi]

/-! ## Lemmas: EML round trip -/

/-! ### The content block of an element -/

theorem eml_mode_zero {tag : Str} (h : tag ∉ EML_RESERVED) :
    (if tag = "script".toList || tag = "style".toList then 1
      else if tag = "php".toList then 1
      else if tag = "pre".toList || tag = "code".toList then 2
      else 0) = 0 := by
  simp only [EML_RESERVED, List.mem_cons, List.mem_singleton, not_or, List.not_mem_nil,
    not_false_eq_true, and_true] at h
  obtain ⟨_, _, h3, h4, h5, h6, h7⟩ := h
  have e1 : ¬ ((tag = "script".toList || tag = "style".toList) = true) := by
    simp only [Bool.or_eq_true, decide_eq_true_eq, not_or]
    exact ⟨h6, h7⟩
  have e2 : ¬ ((tag = "pre".toList || tag = "code".toList) = true) := by
    simp only [Bool.or_eq_true, decide_eq_true_eq, not_or]
    exact ⟨h4, h5⟩
  rw [if_neg e1, if_neg h3, if_neg e2]

/-- No content block follows. -/
theorem eml_body_bare (sub : Str → Option (List Node)) (tag : Str) (attrs : List Attribute)
    (Y : Str) (hY : peek Y ≠ '\x7b') :
    parse_eml_element_body sub tag attrs Y = some (.mk .ELEMENT tag attrs [] [] false, Y) := by
  have : (peek Y == '\x7b') = false := by simpa using hY
  simp [parse_eml_element_body, this]

/-- A block whose text has no EML syntax is kept as one Text child, if it is not empty. -/
theorem eml_body_text (sub : Str → Option (List Node)) (tag : Str) (attrs : List Attribute)
    (inner rest : Str) (htag : tag ∉ EML_RESERVED) (hbal : Balanced inner)
    (hsyn : contains_eml_syntax inner = false) :
    parse_eml_element_body sub tag attrs ('\x7b' :: (inner ++ '\x7d' :: rest))
      = some (.mk .ELEMENT tag attrs []
          (if inner.isEmpty then [] else [Node.leaf .TEXT inner]) inner.isEmpty, rest) := by
  simp only [parse_eml_element_body, List.isEmpty_cons, Bool.not_false, peek, List.headD_cons,
    beq_self_eq_true, Bool.and_self, if_true, advance, List.drop_succ_cons, List.drop_zero,
    eml_mode_zero htag, parse_eml_block_content, read_balanced_braces_balanced inner rest hbal,
    hsyn, Bool.false_eq_true, if_false]
  cases inner with
  | nil => rfl
  | cons a b => rfl

/-- A block whose text has EML syntax is parsed by a nested parser. -/
theorem eml_body_block (sub : Str → Option (List Node)) (tag : Str) (attrs : List Attribute)
    (inner rest : Str) (ns : List Node) (htag : tag ∉ EML_RESERVED) (hbal : Balanced inner)
    (hsyn : contains_eml_syntax inner = true) (hsub : sub inner = some ns) :
    parse_eml_element_body sub tag attrs ('\x7b' :: (inner ++ '\x7d' :: rest))
      = some (.mk .ELEMENT tag attrs [] ns ns.isEmpty, rest) := by
  simp only [parse_eml_element_body, List.isEmpty_cons, Bool.not_false, peek, List.headD_cons,
    beq_self_eq_true, Bool.and_self, if_true, advance, List.drop_succ_cons, List.drop_zero,
    eml_mode_zero htag, parse_eml_block_content, read_balanced_braces_balanced inner rest hbal,
    hsyn, hsub]

/-! ### The shape of the rendering -/

theorem eml_format_element (tag : Str) (attrs : List Attribute) (content : Str)
    (children : List Node) (flag : Bool) (L : Nat) (hroot : tag ≠ ROOT) :
    EmlFormatter.format (.mk .ELEMENT tag attrs content children flag) L
      = get_indent L ++ (tag ++ (eml_attrs attrs ++ eml_block children flag L)) := by
  rw [EmlFormatter.format]
  cases children with
  | nil => cases flag <;> simp [EmlFormatter.format_node, hroot, eml_block]
  | cons c cs =>
    simp only [EmlFormatter.format_node, hroot, if_false, eml_block]
    by_cases h1 : (cs.isEmpty && decide (c.type = NodeType.TEXT)) = true
    · by_cases h2 : has_newline (trim c.content) = true
      · simp [h1, h2]
      · simp [h1, h2]
    · simp [h1]

theorem eml_format_children_append (l1 l2 : List Node) (L : Nat) :
    EmlFormatter.format_children (l1 ++ l2) L
      = EmlFormatter.format_children l1 L ++ EmlFormatter.format_children l2 L := by
  induction l1 with
  | nil => simp [EmlFormatter.format_children]
  | cons c cs ih => simp [EmlFormatter.format_children, ih]

theorem get_indent_space (L : Nat) : ∀ c ∈ get_indent L, c = ' ' := fun _ hc =>
  List.eq_of_mem_replicate hc

/-! ### One element -/

theorem eml_attrs_parse_list (attrs : List Attribute) (TAIL : Str)
    (hok : attrs.all markup_attr_ok = true) (hne : attrs ≠ []) :
    EmlAttrsParse (eml_attr_items true attrs ++ ')' :: TAIL) (with_sep attrs) TAIL := by
  cases attrs with
  | nil => exact absurd rfl hne
  | cons a as =>
    simp only [List.all_cons, Bool.and_eq_true] at hok
    have := eml_attrs_parse_rendered as a [] TAIL hok.1 hok.2 (Or.inl rfl)
    rw [eml_attr_items_cons]
    simpa [List.append_assoc] using this

/-! ### Facts used by the cases -/

theorem dropWhile_trim (s : Str) : List.dropWhile is_trim_char (trim s) = trim s := by
  have h := trim_idempotent s
  have h2 : (trim (trim s)).length ≤ (List.dropWhile is_trim_char (trim s)).length := by
    rw [trim_eq_rdropWhile (trim s)]
    exact (List.rdropWhile_prefix _ _).length_le
  rw [h] at h2
  have h3 := (List.dropWhile_suffix is_trim_char (l := trim s))
  exact h3.eq_of_length_le h2

theorem rdropWhile_trim (s : Str) : List.rdropWhile is_trim_char (trim s) = trim s := by
  rw [trim_eq_rdropWhile, List.rdropWhile_idempotent]

theorem trim_pad (s : Str) : trim (' ' :: (trim s ++ [' '])) = trim s := by
  have hsp : is_trim_char ' ' = true := by decide
  rw [trim_eq_rdropWhile]
  simp only [List.dropWhile_cons, hsp, if_true]
  cases hu : trim s with
  | nil => simp [List.dropWhile_cons, hsp, List.rdropWhile]
  | cons x u' =>
    have hd := dropWhile_trim s
    rw [hu] at hd
    have hx : is_trim_char x = false := by
      by_contra hne
      have hxt : is_trim_char x = true := by simpa using hne
      simp only [List.dropWhile_cons, hxt, if_true] at hd
      have := (List.dropWhile_suffix is_trim_char (l := u')).length_le
      rw [hd] at this
      simp at this
    have hr := rdropWhile_trim s
    rw [hu] at hr
    simp only [List.cons_append, List.dropWhile_cons, hx, Bool.false_eq_true, if_false]
    rw [← List.cons_append, List.rdropWhile_concat_pos _ _ _ hsp, hr]

theorem no_brace_of_ident {s : Str} (h : ∀ c ∈ s, is_ident_part c = true) :
    '\x7b' ∉ s ∧ '\x7d' ∉ s :=
  ⟨fun hm => absurd (h _ hm) (by decide), fun hm => absurd (h _ hm) (by decide)⟩

theorem balanced_indent (L : Nat) : Balanced (get_indent L) :=
  balanced_of_no_brace _ (fun hm => absurd (get_indent_space L _ hm) (by decide))
    (fun hm => absurd (get_indent_space L _ hm) (by decide))

/-- A block `{inner}` followed by a line break, after a space. -/
theorem balanced_block (inner : Str) (h : Balanced inner) :
    Balanced (' ' :: '\x7b' :: (inner ++ ['\x7d', '\n'])) := by
  have e : ' ' :: '\x7b' :: (inner ++ ['\x7d', '\n'])
      = [' '] ++ ('\x7b' :: (inner ++ ['\x7d'])) ++ ['\n'] := by simp
  rw [e]
  exact balanced_append (balanced_append (balanced_of_no_brace _ (by decide) (by decide))
    (balanced_wrap h)) (balanced_of_no_brace _ (by decide) (by decide))

/-! ### The cases of the EML round trip -/

theorem items_norm_attrs (attrs : List Attribute) :
    (attrs.map (fun a => Item.attr a.key a.value)).map Item.norm
      = attrs.map (fun a => Item.attr a.key a.value) := by
  induction attrs with
  | nil => rfl
  | cons a as ih => simp [Item.norm]

/-! ### Blocks of elements -/

theorem eml_block_starts (children : List Node) (flag : Bool) (L : Nat)
    (h : (!children.isEmpty || flag) = true) :
    ∃ S, eml_block children flag L = ' ' :: '\x7b' :: S := by
  cases children with
  | nil =>
    simp only [List.isEmpty_nil, Bool.not_true, Bool.false_or] at h
    subst h
    exact ⟨_, rfl⟩
  | cons c cs =>
    simp only [eml_block]
    split
    · exact ⟨_, rfl⟩
    · exact ⟨_, rfl⟩

theorem get_indent_succ (L : Nat) : get_indent (L + 1) = get_indent L ++ [' ', ' ', ' ', ' '] := by
  simp only [get_indent, Nat.add_mul, List.replicate_add]
  rfl

theorem balanced_format_children (cs : List Node) (L : Nat)
    (h : ∀ c ∈ cs, Balanced (EmlFormatter.format c L)) :
    Balanced (EmlFormatter.format_children cs L) := by
  induction cs with
  | nil => exact balanced_nil
  | cons c cs ih =>
    rw [EmlFormatter.format_children]
    exact balanced_append (h c (by simp)) (ih (fun x hx => h x (by simp [hx])))

/-! ## Lemmas: verbatim blocks -/

/-- The depth counter after a text in which no prefix closes more braces than the depth
allows. -/
theorem brace_scan_count (s : Str) : ∀ d,
    (∀ p, p <+: s → p.count '\x7d' < d + p.count '\x7b') →
    brace_scan d s = some (d + s.count '\x7b' - s.count '\x7d') := by
  induction s with
  | nil => intro d _; simp [brace_scan]
  | cons c s ih =>
    intro d h
    have hfull := h (c :: s) (List.prefix_refl _)
    have hone := h [c] (by simp)
    have htail : ∀ p, p <+: s → (c :: p).count '\x7d' < d + (c :: p).count '\x7b' :=
      fun p hp => h (c :: p) (by simpa using hp)
    rw [brace_scan]
    by_cases hc1 : c = '\x7b'
    · subst hc1
      have hne : ¬ ('\x7b' = '\x7d') := by decide
      simp only [beq_self_eq_true, if_true]
      rw [ih (d + 1) (fun p hp => by
        have := htail p hp
        simp only [List.count_cons, beq_self_eq_true, if_true] at this
        have e : ('\x7b' == '\x7d') = false := by decide
        simp only [e, Bool.false_eq_true, if_false] at this
        omega)]
      simp only [List.count_cons, beq_self_eq_true, if_true]
      have e : ('\x7b' == '\x7d') = false := by decide
      simp only [e, Bool.false_eq_true, if_false]
      congr 1
      omega
    · have hc1' : (c == '\x7b') = false := by simpa using hc1
      simp only [hc1', Bool.false_eq_true, if_false]
      by_cases hc2 : c = '\x7d'
      · subst hc2
        simp only [List.count_cons, List.count_nil, beq_self_eq_true, if_true, hc1',
          Bool.false_eq_true, if_false] at hone hfull htail ⊢
        have hd : ¬ (d ≤ 1) := by omega
        rw [if_neg hd, ih (d - 1) (fun p hp => by have := htail p hp; omega)]
        congr 1
        omega
      · have hc2' : (c == '\x7d') = false := by simpa using hc2
        simp only [List.count_cons, hc1', hc2', Bool.false_eq_true, if_false] at htail ⊢
        exact ih d htail

theorem balanced_of_brace_balanced {s : Str} (h : BraceBalanced s) : Balanced s := by
  intro d hd
  rw [brace_scan_count s d (fun p hp => by have := h.1 p hp; omega)]
  have := h.2
  have := h.1 s (List.prefix_refl _)
  congr 1
  omega

/-- A block that is read verbatim: the text up to the matching brace. -/
theorem eml_body_raw (sub : Str → Option (List Node)) (tag : Str) (attrs : List Attribute)
    (s rest : Str) (htag : tag ∈ "php".toList :: RAW_TAGS) (hbal : Balanced s) :
    parse_eml_element_body sub tag attrs ('\x7b' :: (s ++ '\x7d' :: rest))
      = some (if tag = "php".toList then .mk .PI "php".toList attrs s [] s.isEmpty
          else .mk .ELEMENT tag attrs [] [Node.leaf .TEXT s] false, rest) := by
  simp only [RAW_TAGS, List.mem_cons, List.mem_singleton, List.not_mem_nil, or_false] at htag
  rcases htag with h | h | h | h | h <;> subst h <;>
    simp [parse_eml_element_body, peek, advance, read_balanced_braces_balanced s rest hbal,
      String.toList]

/-- The EML text `tag {s}` of a tag whose block is read verbatim. -/
theorem eml_raw_element_parses (f : Nat) (a : Char) (t' s : Str)
    (htag : a :: t' ∈ "php".toList :: RAW_TAGS) (hbal : Balanced s) :
    parse_eml_nodes (f + 2) ((a :: t') ++ ' ' :: '\x7b' :: (s ++ ['\x7d']))
      = some [if a :: t' = "php".toList then .mk .PI "php".toList [] s [] s.isEmpty
          else .mk .ELEMENT (a :: t') [] [] [Node.leaf .TEXT s] false] := by
  have hfacts : is_ident_start a = true ∧ (∀ c ∈ a :: t', is_ident_part c = true) ∧
      a :: t' ≠ "import".toList := by
    have key : ∀ tag ∈ "php".toList :: RAW_TAGS, is_ident_start (tag.headD ' ') = true ∧
        (∀ c ∈ tag, is_ident_part c = true) ∧ tag ≠ "import".toList := by decide
    exact key (a :: t') htag
  obtain ⟨ha, hid, hne⟩ := hfacts
  have hS : StopsIdent (' ' :: '\x7b' :: (s ++ ['\x7d'])) := by
    intro c hc
    simp only [List.head?_cons, Option.mem_def, Option.some.injEq] at hc
    subst hc
    decide
  have hsk : skip_whitespace (' ' :: '\x7b' :: (s ++ ['\x7d'])) = '\x7b' :: (s ++ ['\x7d']) := by
    simp [skip_whitespace, List.dropWhile_cons, isspace]
  have hsk2 : skip_whitespace ('\x7b' :: (s ++ ['\x7d'])) = '\x7b' :: (s ++ ['\x7d']) := by
    simp [skip_whitespace, List.dropWhile_cons, isspace]
  refine parse_eml_nodes_element (f + 1) a t' _ [] ('\x7b' :: (s ++ ['\x7d'])) [] _ [] ha hid hS
    (at_import_false (a :: t') _ ' ' (by decide) hid hne) ?_ ?_ (parse_eml_nodes_nil f)
  · rw [hsk]
    simp [peek]
  · rw [hsk2]
    exact eml_body_raw _ (a :: t') [] s [] htag hbal

/-! ## Lemmas: the markup parser returns -/

theorem skip_whitespace_length (r : Str) : (skip_whitespace r).length ≤ r.length :=
  (List.dropWhile_suffix _).length_le

theorem advance_length (r : Str) : (advance r).length ≤ r.length := by
  simp [advance]

theorem read_attr_value_length (s1 s2 : Char) (r : Str) :
    (read_attr_value s1 s2 r).2.length ≤ r.length := by
  have h1 := skip_whitespace_length r
  unfold read_attr_value
  simp only []
  split
  · have h2 := (List.dropWhile_suffix (l := advance (skip_whitespace r))
      (fun c => c != peek (skip_whitespace r))).length_le
    have h3 := advance_length (skip_whitespace r)
    have h4 := advance_length (List.dropWhile (fun c => c != peek (skip_whitespace r))
      (advance (skip_whitespace r)))
    simp only []
    omega
  · have h2 := (List.dropWhile_suffix (l := skip_whitespace r)
      (fun c => !isspace c && c != s1 && c != s2)).length_le
    simp only []
    omega

theorem consume_closing_tag_length (t r : Str) : (consume_closing_tag t r).length ≤ r.length := by
  unfold consume_closing_tag
  simp only []
  split
  · split
    · have h1 := (List.dropWhile_suffix (l := List.drop 2 r) is_ident_part).length_le
      have h2 := (List.dropWhile_suffix (l := List.dropWhile is_ident_part (List.drop 2 r))
        (fun c => c != '>')).length_le
      have h3 := advance_length (List.dropWhile (fun c => c != '>')
        (List.dropWhile is_ident_part (List.drop 2 r)))
      simp only [List.length_drop] at h1
      omega
    · exact le_refl _
  · exact le_refl _

theorem parse_markup_comment_length (r : Str) :
    (parse_markup_comment r).2.length ≤ r.length - 1 := by
  unfold parse_markup_comment
  split
  · simp
  · simp only [List.length_drop]
    omega

theorem parse_markup_pi_length (r : Str) :
    (parse_markup_pi r).2.length ≤ r.length - 1 := by
  unfold parse_markup_pi
  split
  · simp
  · simp only [List.length_drop]
    omega

/-- The attribute loop of the markup parser returns on every input, and never moves the
read position backwards. -/
theorem markup_attrs_parse_total : ∀ (n : Nat) (rest : Str), rest.length ≤ n →
    ∃ attrs r, MarkupAttrsParse rest attrs r ∧ r.length ≤ rest.length := by
  intro n
  induction n with
  | zero =>
    intro rest h
    have : rest = [] := List.length_eq_zero.mp (by omega)
    subst this
    refine ⟨[], [], ?_, le_refl _⟩
    intro fuel hf
    obtain ⟨f, rfl⟩ := fuel_succ hf
    simp [parse_markup_attrs]
  | succ n ih =>
    intro rest h
    by_cases hstop : (rest.isEmpty || peek rest == '>' || peek rest == '/') = true
    · refine ⟨[], rest, ?_, le_refl _⟩
      intro fuel hf
      obtain ⟨f, rfl⟩ := fuel_succ hf
      rw [parse_markup_attrs, if_pos hstop]
    · have hne : rest ≠ [] := by
        intro e
        subst e
        simp at hstop
      have hpos : 0 < rest.length := List.length_pos.mpr hne
      have hsk := skip_whitespace_length rest
      by_cases hid : is_ident_start (peek (skip_whitespace rest)) = true
      · -- an attribute
        obtain ⟨a, r1', hr1⟩ : ∃ a r1', skip_whitespace rest = a :: r1' := by
          cases hsw : skip_whitespace rest with
          | nil => rw [hsw] at hid; exact absurd hid (by decide)
          | cons a r1' => exact ⟨a, r1', rfl⟩
        have ha : is_ident_part a = true := by
          rw [hr1] at hid
          exact (ident_start_facts hid).1
        have hdw : ((skip_whitespace rest).dropWhile is_ident_part).length < rest.length := by
          rw [hr1, List.dropWhile_cons_of_pos ha]
          have := (List.dropWhile_suffix (l := r1') is_ident_part).length_le
          rw [hr1] at hsk
          simp only [List.length_cons] at hsk
          omega
        have hr2 := skip_whitespace_length ((skip_whitespace rest).dropWhile is_ident_part)
        rcases hp : (if peek (skip_whitespace ((skip_whitespace rest).dropWhile is_ident_part)) == '='
            then read_attr_value '>' '/'
              (advance (skip_whitespace ((skip_whitespace rest).dropWhile is_ident_part)))
            else (([] : Str), skip_whitespace ((skip_whitespace rest).dropWhile is_ident_part)))
          with ⟨val, r3⟩
        have hr3 : r3.length < rest.length := by
          have e : r3 = (if peek (skip_whitespace ((skip_whitespace rest).dropWhile is_ident_part)) == '='
            then read_attr_value '>' '/'
              (advance (skip_whitespace ((skip_whitespace rest).dropWhile is_ident_part)))
            else (([] : Str), skip_whitespace ((skip_whitespace rest).dropWhile is_ident_part))).2 := by
            rw [hp]
          rw [e]
          split
          · have := read_attr_value_length '>' '/'
              (advance (skip_whitespace ((skip_whitespace rest).dropWhile is_ident_part)))
            have := advance_length (skip_whitespace ((skip_whitespace rest).dropWhile is_ident_part))
            omega
          · simp only []
            omega
        obtain ⟨attrs, r4, h4, hl4⟩ := ih r3 (by omega)
        refine ⟨⟨(skip_whitespace rest).takeWhile is_ident_part, val, SEP⟩ :: attrs, r4, ?_, by omega⟩
        intro fuel hf
        obtain ⟨f, rfl⟩ := fuel_succ hf
        rw [parse_markup_attrs, if_neg hstop]
        simp only [hid, Bool.not_true, Bool.false_eq_true, if_false, hp, h4 f (by omega)]
      · by_cases hend : (peek (skip_whitespace rest) == '>' || peek (skip_whitespace rest) == '/') = true
        · refine ⟨[], skip_whitespace rest, ?_, hsk⟩
          intro fuel hf
          obtain ⟨f, rfl⟩ := fuel_succ hf
          rw [parse_markup_attrs, if_neg hstop]
          simp only [hid, Bool.not_false, if_true, hend]
        · have hadv : (advance (skip_whitespace rest)).length < rest.length := by
            have : (advance (skip_whitespace rest)).length ≤ (skip_whitespace rest).length - 1 := by
              simp [advance]
            omega
          obtain ⟨attrs, r4, h4, hl4⟩ := ih (advance (skip_whitespace rest)) (by omega)
          refine ⟨attrs, r4, ?_, by omega⟩
          intro fuel hf
          obtain ⟨f, rfl⟩ := fuel_succ hf
          rw [parse_markup_attrs, if_neg hstop]
          simp only [hid, Bool.not_false, if_true, hend, Bool.false_eq_true, if_false]
          exact h4 f (by omega)
/-- A comment at the head of the input, then the rest of the siblings. -/
theorem markup_parses_comment (q : Str) (more : List Node) (r2 : Str)
    (hc : "<!--".toList.isPrefixOf ('<' :: q) = true)
    (hmore : MarkupParses (parse_markup_comment ('<' :: q)).2 more r2) :
    MarkupParses ('<' :: q) ((parse_markup_comment ('<' :: q)).1 :: more) r2 := by
  intro fuel hf
  obtain ⟨f, rfl⟩ := fuel_succ hf
  have hl := parse_markup_comment_length ('<' :: q)
  simp only [List.length_cons] at hl hf
  rw [parse_markup_nodes]
  simp only [List.isEmpty_cons, Bool.false_eq_true, if_false, find_char_cons_self, List.drop_zero,
    lt_irrefl, hc, if_true, hmore f (by omega), List.nil_append]

/-- A processing instruction at the head of the input, then the rest of the siblings. -/
theorem markup_parses_pi (q : Str) (more : List Node) (r2 : Str)
    (hc : "<!--".toList.isPrefixOf ('<' :: q) = false)
    (hp : "<?".toList.isPrefixOf ('<' :: q) = true)
    (hmore : MarkupParses (parse_markup_pi ('<' :: q)).2 more r2) :
    MarkupParses ('<' :: q) ((parse_markup_pi ('<' :: q)).1 :: more) r2 := by
  intro fuel hf
  obtain ⟨f, rfl⟩ := fuel_succ hf
  have hl := parse_markup_pi_length ('<' :: q)
  simp only [List.length_cons] at hl hf
  rw [parse_markup_nodes]
  simp only [List.isEmpty_cons, Bool.false_eq_true, if_false, find_char_cons_self, List.drop_zero,
    lt_irrefl, hc, hp, if_true, hmore f (by omega), List.nil_append]

/-- The suffix after the `/` and the `>` that may end a tag (lines 823-828). -/
theorem tag_end_length (r2 : Str) :
    (if peek (if peek r2 == '/' then advance r2 else r2) == '>'
      then advance (if peek r2 == '/' then advance r2 else r2)
      else (if peek r2 == '/' then advance r2 else r2)).length ≤ r2.length := by
  have h1 := advance_length r2
  have h2 := advance_length (advance r2)
  split <;> split <;> omega

/-- A tag that is neither self-closed nor void: its children are parsed by a nested
call, its closing tag is consumed if it is there, and the flag is set exactly when no
child was added. -/
theorem markup_parses_tag_open (q : Str) (attrs : List Attribute) (r2 r5 r6 : Str)
    (children more : List Node)
    (hc : "<!--".toList.isPrefixOf ('<' :: q) = false)
    (hp : "<?".toList.isPrefixOf ('<' :: q) = false)
    (hs : (1 < ('<' :: q).length && peek q == '/') = false)
    (hattrs : MarkupAttrsParse (q.dropWhile is_ident_part) attrs r2)
    (hl2 : r2.length ≤ q.length)
    (hself : (peek r2 == '/') = false)
    (hvoid : SELF_CLOSING_TAGS.contains (q.takeWhile is_ident_part) = false)
    (hchildren : MarkupParses (if peek r2 == '>' then advance r2 else r2) children r5)
    (hl5 : r5.length ≤ r2.length)
    (hmore : MarkupParses (consume_closing_tag (q.takeWhile is_ident_part) r5) more r6) :
    MarkupParses ('<' :: q)
      (.mk .ELEMENT (q.takeWhile is_ident_part) attrs [] children children.isEmpty :: more)
      r6 := by
  intro fuel hf
  obtain ⟨f, rfl⟩ := fuel_succ hf
  simp only [List.length_cons] at hf
  have hdw := (List.dropWhile_suffix (l := q) is_ident_part).length_le
  have h4 := tag_end_length r2
  have hct := consume_closing_tag_length (q.takeWhile is_ident_part) r5
  simp only [hself, Bool.false_eq_true, if_false] at h4
  rw [parse_markup_nodes]
  simp only [List.isEmpty_cons, Bool.false_eq_true, if_false, find_char_cons_self, List.drop_zero,
    lt_irrefl, hc, hp, List.drop_succ_cons, hs, hattrs f (by omega), hself, hvoid, Bool.not_false,
    Bool.and_self, if_true, hchildren f (by omega), hmore f (by omega), List.nil_append]

/-- A self-closed or void tag: no nested call, no closing tag, no flag. -/
theorem markup_parses_tag_leaf (q : Str) (attrs : List Attribute) (r2 r6 : Str)
    (more : List Node)
    (hc : "<!--".toList.isPrefixOf ('<' :: q) = false)
    (hp : "<?".toList.isPrefixOf ('<' :: q) = false)
    (hs : (1 < ('<' :: q).length && peek q == '/') = false)
    (hattrs : MarkupAttrsParse (q.dropWhile is_ident_part) attrs r2)
    (hl2 : r2.length ≤ q.length)
    (hleaf : (!(peek r2 == '/') && !SELF_CLOSING_TAGS.contains (q.takeWhile is_ident_part))
      = false)
    (hmore : MarkupParses (if peek (if peek r2 == '/' then advance r2 else r2) == '>'
      then advance (if peek r2 == '/' then advance r2 else r2)
      else (if peek r2 == '/' then advance r2 else r2)) more r6) :
    MarkupParses ('<' :: q) (.mk .ELEMENT (q.takeWhile is_ident_part) attrs [] [] false :: more)
      r6 := by
  intro fuel hf
  obtain ⟨f, rfl⟩ := fuel_succ hf
  simp only [List.length_cons] at hf
  have hdw := (List.dropWhile_suffix (l := q) is_ident_part).length_le
  have h4 := tag_end_length r2
  rw [parse_markup_nodes]
  simp only [List.isEmpty_cons, Bool.false_eq_true, if_false, find_char_cons_self, List.drop_zero,
    lt_irrefl, hc, hp, List.drop_succ_cons, hs, hattrs f (by omega), hleaf,
    hmore f (by omega), List.nil_append]

/-- The markup parser returns on every input: with any amount of fuel above the length
of the input it gives the same nodes and stops at the same suffix, which is not longer
than the input. The nodes have every property `P` that the steps of the parser keep:
text before a tag, a comment, a processing instruction, an element with its children,
an element without a nested call. -/
theorem markup_parses_induct (P : List Node → Prop) (hnil : P [])
    (htext : ∀ w ns, P ns → P (markup_text_nodes w ++ ns))
    (hcomment : ∀ r ns, P ns → P ((parse_markup_comment r).1 :: ns))
    (hpi : ∀ r ns, P ns → P ((parse_markup_pi r).1 :: ns))
    (hopen : ∀ tag attrs children more, P children → P more →
      P (.mk .ELEMENT tag attrs [] children children.isEmpty :: more))
    (hbare : ∀ tag attrs more, P more → P (.mk .ELEMENT tag attrs [] [] false :: more)) :
    ∀ (n : Nat) (input : Str), input.length ≤ n →
    ∃ nodes rest, MarkupParses input nodes rest ∧ rest.length ≤ input.length ∧ P nodes := by
  intro n
  induction n with
  | zero =>
    intro input h
    have : input = [] := List.length_eq_zero.mp (by omega)
    subst this
    exact ⟨_, _, markup_parses_text_eof [] (by simp), le_refl _, hnil⟩
  | succ n ih =>
    intro input h
    by_cases hlt : '<' ∈ input
    · obtain ⟨w, q, rfl, hw⟩ : ∃ w q, input = w ++ '<' :: q ∧ '<' ∉ w := by
        obtain ⟨w, q, e, hw⟩ := List.eq_append_cons_of_mem hlt
        exact ⟨w, q, e, hw⟩
      simp only [List.length_append, List.length_cons] at h
      suffices hq : ∃ nodes rest, MarkupParses ('<' :: q) nodes rest ∧
          rest.length ≤ ('<' :: q).length ∧ P nodes by
        obtain ⟨nodes, rest, hq1, hq2, hq3⟩ := hq
        refine ⟨_, rest, markup_parses_prefix w q nodes rest hw hq1, ?_, htext w nodes hq3⟩
        simp only [List.length_append]
        omega
      have hqn : q.length ≤ n := by omega
      by_cases hc : "<!--".toList.isPrefixOf ('<' :: q) = true
      · have hl := parse_markup_comment_length ('<' :: q)
        simp only [List.length_cons, Nat.add_sub_cancel] at hl
        obtain ⟨more, r2, hm, hl2, hP⟩ := ih (parse_markup_comment ('<' :: q)).2 (by omega)
        exact ⟨_, r2, markup_parses_comment q more r2 hc hm, by
          simp only [List.length_cons]; omega, hcomment _ _ hP⟩
      have hc' : "<!--".toList.isPrefixOf ('<' :: q) = false :=
        (Bool.not_eq_true _).mp hc
      by_cases hp : "<?".toList.isPrefixOf ('<' :: q) = true
      · have hl := parse_markup_pi_length ('<' :: q)
        simp only [List.length_cons, Nat.add_sub_cancel] at hl
        obtain ⟨more, r2, hm, hl2, hP⟩ := ih (parse_markup_pi ('<' :: q)).2 (by omega)
        exact ⟨_, r2, markup_parses_pi q more r2 hc' hp hm, by
          simp only [List.length_cons]; omega, hpi _ _ hP⟩
      have hp' : "<?".toList.isPrefixOf ('<' :: q) = false :=
        (Bool.not_eq_true _).mp hp
      by_cases hs : (1 < ('<' :: q).length && peek q == '/') = true
      · refine ⟨[], '<' :: q, ?_, le_refl _, hnil⟩
        intro fuel hf
        obtain ⟨f, rfl⟩ := fuel_succ hf
        rw [parse_markup_nodes]
        simp only [List.isEmpty_cons, Bool.false_eq_true, if_false, find_char_cons_self,
          List.drop_zero, lt_irrefl, hc', hp', List.drop_succ_cons, hs, if_true]
      have hs' : (1 < ('<' :: q).length && peek q == '/') = false :=
        (Bool.not_eq_true _).mp hs
      have hdw := (List.dropWhile_suffix (l := q) is_ident_part).length_le
      obtain ⟨attrs, r2, hattrs, hl2⟩ := markup_attrs_parse_total _ (q.dropWhile is_ident_part)
        (le_refl _)
      have h4 := tag_end_length r2
      by_cases hleaf : (!(peek r2 == '/') &&
          !SELF_CLOSING_TAGS.contains (q.takeWhile is_ident_part)) = true
      · simp only [Bool.and_eq_true, Bool.not_eq_true'] at hleaf
        obtain ⟨hself, hvoid⟩ := hleaf
        simp only [hself, Bool.false_eq_true, if_false] at h4
        obtain ⟨children, r5, hch, hl5, hPc⟩ := ih (if peek r2 == '>' then advance r2 else r2)
          (by omega)
        have hct := consume_closing_tag_length (q.takeWhile is_ident_part) r5
        obtain ⟨more, r6, hm, hl6, hPm⟩ := ih (consume_closing_tag (q.takeWhile is_ident_part) r5)
          (by omega)
        exact ⟨_, r6, markup_parses_tag_open q attrs r2 r5 r6 children more hc' hp' hs' hattrs
          (by omega) hself hvoid hch (by omega) hm, by simp only [List.length_cons]; omega,
          hopen _ _ _ _ hPc hPm⟩
      · have hleaf' : (!(peek r2 == '/') &&
            !SELF_CLOSING_TAGS.contains (q.takeWhile is_ident_part)) = false :=
          (Bool.not_eq_true _).mp hleaf
        obtain ⟨more, r6, hm, hl6, hPm⟩ := ih _ (le_trans h4 (by omega))
        exact ⟨_, r6, markup_parses_tag_leaf q attrs r2 r6 more hc' hp' hs' hattrs (by omega)
          hleaf' hm, by simp only [List.length_cons]; omega, hbare _ _ _ hPm⟩
    · refine ⟨_, _, markup_parses_text_eof input hlt, by simp, ?_⟩
      have := htext input [] hnil
      rwa [List.append_nil] at this

/-- The markup parser returns on every input. -/
theorem markup_parses_total (input : Str) :
    ∃ nodes rest, MarkupParses input nodes rest ∧ rest.length ≤ input.length := by
  obtain ⟨nodes, rest, h1, h2, _⟩ := markup_parses_induct (fun _ => True) trivial
    (fun _ _ _ => trivial) (fun _ _ _ => trivial) (fun _ _ _ => trivial)
    (fun _ _ _ _ _ _ => trivial) (fun _ _ _ _ => trivial) input.length input (le_refl _)
  exact ⟨nodes, rest, h1, h2⟩

/-- The result of `Parser::parse` on markup, from the result of the node loop. -/
theorem parse_markup_of_parses {input : Str} {nodes : List Node} {rest : Str}
    (h : MarkupParses input nodes rest) :
    Parser.parse input false = some (.mk .ELEMENT ROOT [] [] nodes false) := by
  rw [Parser.parse, Parser.parse_fuel, h (input.length + 1) (by omega)]
  rfl

/-! ## Lemmas: what the EML parser builds -/

theorem eml_mode_zero_of_not_raw {tag : Str} (h : tag ∉ "php".toList :: RAW_TAGS) :
    (if tag = "script".toList || tag = "style".toList then 1
      else if tag = "php".toList then 1
      else if tag = "pre".toList || tag = "code".toList then 2
      else 0) = 0 := by
  simp only [RAW_TAGS, List.mem_cons, List.mem_singleton, not_or, List.not_mem_nil,
    not_false_eq_true, and_true] at h
  obtain ⟨h3, h4, h5, h6, h7⟩ := h
  have e1 : ¬ ((tag = "script".toList || tag = "style".toList) = true) := by
    simp only [Bool.or_eq_true, decide_eq_true_eq, not_or]
    exact ⟨h6, h7⟩
  have e2 : ¬ ((tag = "pre".toList || tag = "code".toList) = true) := by
    simp only [Bool.or_eq_true, decide_eq_true_eq, not_or]
    exact ⟨h4, h5⟩
  rw [if_neg e1, if_neg h3, if_neg e2]

/-- The nodes that the content block of an element can give. -/
theorem eml_body_cases (sub : Str → Option (List Node)) (tag : Str) (attrs : List Attribute)
    (r : Str) (el : Node) (r' : Str)
    (h : parse_eml_element_body sub tag attrs r = some (el, r')) :
    (∃ children x, sub x = some children ∧
        el = .mk .ELEMENT tag attrs [] children children.isEmpty) ∨
    (∃ c, el = .mk .ELEMENT tag attrs [] [Node.leaf .TEXT c] false) ∨
    (∃ flag, el = .mk .ELEMENT tag attrs [] [] flag) ∨
    (∃ c, el = .mk .PI "php".toList attrs c [] c.isEmpty) := by
  unfold parse_eml_element_body at h
  by_cases hb : (!r.isEmpty && peek r == '\x7b') = true
  · rw [if_pos hb] at h
    by_cases hraw : tag ∈ "php".toList :: RAW_TAGS
    · have hm : (if tag = "script".toList || tag = "style".toList then 1
          else if tag = "php".toList then 1
          else if tag = "pre".toList || tag = "code".toList then 2
          else 0) ≠ 0 := by
        simp only [RAW_TAGS, List.mem_cons, List.mem_singleton, List.not_mem_nil, or_false] at hraw
        rcases hraw with e | e | e | e | e <;> subst e <;> decide
      simp only [hm, if_false] at h
      by_cases hphp : tag = "php".toList
      · subst hphp
        simp only [if_true, Option.some.injEq, Prod.mk.injEq] at h
        exact Or.inr (Or.inr (Or.inr ⟨_, h.1.symm⟩))
      · simp only [hphp, if_false, Option.some.injEq, Prod.mk.injEq] at h
        exact Or.inr (Or.inl ⟨_, h.1.symm⟩)
    · simp only [eml_mode_zero_of_not_raw hraw, if_true, parse_eml_block_content] at h
      by_cases hsyn : contains_eml_syntax (read_balanced_braces (advance r)).1 = true
      · simp only [hsyn, if_true] at h
        cases hs : sub (read_balanced_braces (advance r)).1 with
        | none => simp [hs] at h
        | some children =>
          simp only [hs, Option.some.injEq, Prod.mk.injEq] at h
          exact Or.inl ⟨children, _, hs, h.1.symm⟩
      · rw [if_neg hsyn] at h
        by_cases he : (!(read_balanced_braces (advance r)).1.isEmpty) = true
        · rw [if_pos he] at h
          simp only [Option.some.injEq, Prod.mk.injEq] at h
          exact Or.inr (Or.inl ⟨_, h.1.symm⟩)
        · rw [if_neg he] at h
          simp only [Option.some.injEq, Prod.mk.injEq] at h
          refine Or.inr (Or.inr (Or.inl ⟨_, h.1.symm⟩))
  · rw [if_neg hb] at h
    simp only [Option.some.injEq, Prod.mk.injEq] at h
    exact Or.inr (Or.inr (Or.inl ⟨_, h.1.symm⟩))

/-- Every property `P` that the steps of the EML parser keep holds of the nodes it
returns: a whitespace node, a comment or an import, an element with the nodes of a
nested parser, an element with one Text child, an element without children, a raw-code
node. -/
theorem parse_eml_nodes_induct (P : List Node → Prop) (hnil : P [])
    (hws : ∀ ws ns, P ns → P (eml_ws_nodes ws ++ ns))
    (hleaf : ∀ t c ns, (t = .COMMENT ∨ t = .COMMENT_BLOCK ∨ t = .IMPORT) → P ns →
      P (Node.leaf t c :: ns))
    (hsub : ∀ tag attrs children ns, P children → P ns →
      P (.mk .ELEMENT tag attrs [] children children.isEmpty :: ns))
    (htxt : ∀ tag attrs c ns, P ns →
      P (.mk .ELEMENT tag attrs [] [Node.leaf .TEXT c] false :: ns))
    (hempty : ∀ tag attrs flag ns, P ns → P (.mk .ELEMENT tag attrs [] [] flag :: ns))
    (hphp : ∀ attrs c ns, P ns → P (.mk .PI "php".toList attrs c [] c.isEmpty :: ns)) :
    ∀ (fuel : Nat) (input : Str) (nodes : List Node),
      parse_eml_nodes fuel input = some nodes → P nodes := by
  intro fuel
  induction fuel with
  | zero => intro input nodes h; simp [parse_eml_nodes] at h
  | succ f ih =>
    intro input nodes h
    have hcont : ∀ (step : List Node) (r : Str),
        (match parse_eml_nodes f r with
          | none => none
          | some more => some (eml_ws_nodes (input.takeWhile isspace) ++ step ++ more)) = some nodes →
        (∀ ns, P ns → P (step ++ ns)) → P nodes := by
      intro step r h hstep
      cases hm : parse_eml_nodes f r with
      | none => simp [hm] at h
      | some more =>
        simp only [hm, Option.some.injEq] at h
        rw [← h, List.append_assoc]
        exact hws _ _ (hstep _ (ih r more hm))
    rw [parse_eml_nodes] at h
    simp only [] at h
    by_cases h0 : input.isEmpty = true
    · rw [if_pos h0] at h
      simp only [Option.some.injEq] at h
      rw [← h]
      exact hnil
    rw [if_neg h0] at h
    by_cases h1 : (input.dropWhile isspace).isEmpty = true
    · rw [if_pos h1] at h
      simp only [Option.some.injEq] at h
      rw [← h]
      have := hws (input.takeWhile isspace) [] hnil
      rwa [List.append_nil] at this
    rw [if_neg h1] at h
    split at h
    · exact hcont _ _ h (fun ns hns => hleaf _ _ ns (Or.inl rfl) hns)
    split at h
    · split at h
      · exact hcont _ _ h (fun ns hns => hleaf _ _ ns (Or.inr (Or.inl rfl)) hns)
      · exact hcont _ _ h (fun ns hns => hleaf _ _ ns (Or.inr (Or.inl rfl)) hns)
    generalize (if at_import (input.dropWhile isspace) = true
      then List.drop 6 (input.dropWhile isspace) else input.dropWhile isspace) = r2 at h
    split at h
    · exact hcont _ _ h (fun ns hns => hleaf _ _ ns (Or.inr (Or.inr rfl)) hns)
    split at h
    · exact hcont _ _ h (fun ns hns => hns)
    split at h
    · exact absurd h (by simp)
    split at h
    · exact absurd h (by simp)
    rename_i el r5 hbody
    refine hcont _ _ h (fun ns hns => ?_)
    rcases eml_body_cases _ _ _ _ _ _ hbody with
      ⟨children, x, hx, rfl⟩ | ⟨c, rfl⟩ | ⟨flag, rfl⟩ | ⟨c, rfl⟩
    · exact hsub _ _ _ _ (ih x children hx) hns
    · exact htxt _ _ _ _ hns
    · exact hempty _ _ _ _ hns
    · exact hphp _ _ _ hns

/-! ## Lemmas: the line breaks of Whitespace nodes -/

theorem ws_breaks_ge_list_append (k : Nat) (a b : List Node) :
    ws_breaks_ge_list k (a ++ b) = (ws_breaks_ge_list k a && ws_breaks_ge_list k b) := by
  induction a with
  | nil => simp [ws_breaks_ge_list]
  | cons x xs ih => simp [ws_breaks_ge_list, ih, Bool.and_assoc]

theorem ws_breaks_ge_cons (k : Nat) (x : Node) (xs : List Node) :
    ws_breaks_ge_list k (x :: xs) = (ws_breaks_ge k x && ws_breaks_ge_list k xs) := by
  simp [ws_breaks_ge_list]

theorem ws_breaks_ge_eml_ws_nodes (ws : Str) : ws_breaks_ge_list 2 (eml_ws_nodes ws) = true := by
  unfold eml_ws_nodes
  split
  · rename_i h
    simp only [Bool.and_eq_true, decide_eq_true_eq] at h
    simp only [ws_breaks_ge_list, ws_breaks_ge, Node.leaf, Bool.and_true, Bool.or_eq_true,
      decide_eq_true_eq]
    right
    omega
  · rfl

/-- In the nodes that the EML parser returns, a Whitespace node has at least two line
breaks. -/
theorem eml_ws_breaks (fuel : Nat) (input : Str) (nodes : List Node)
    (h : parse_eml_nodes fuel input = some nodes) : ws_breaks_ge_list 2 nodes = true := by
  refine parse_eml_nodes_induct (fun ns => ws_breaks_ge_list 2 ns = true) rfl ?_ ?_ ?_ ?_ ?_ ?_
    fuel input nodes h
  · intro ws ns hns
    rw [ws_breaks_ge_list_append, ws_breaks_ge_eml_ws_nodes, hns]
    rfl
  · intro t c ns ht hns
    rw [ws_breaks_ge_cons, hns]
    rcases ht with rfl | rfl | rfl <;> rfl
  · intro tag attrs children ns hc hns
    rw [ws_breaks_ge_cons, hns, ws_breaks_ge, hc]
    rfl
  · intro tag attrs c ns hns
    rw [ws_breaks_ge_cons, hns]
    rfl
  · intro tag attrs flag ns hns
    rw [ws_breaks_ge_cons, hns]
    rfl
  · intro attrs c ns hns
    rw [ws_breaks_ge_cons, hns]
    rfl

/-! ## Lemmas: the attribute loop of the EML parser -/

/-- One iteration of the attribute loop of the EML parser at a character that is not a
space, not an identifier character and none of `)`, `=`, `,`: an attribute with an empty
key is pushed and the loop goes on at the same position. -/
theorem parse_eml_attrs_same_position (f : Nat) (c : Char) (rest : Str)
    (hsp : isspace c = false) (hid : is_ident_part c = false)
    (h1 : c ≠ ')') (h2 : c ≠ '=') (h3 : c ≠ ',') :
    parse_eml_attrs (f + 1) (c :: rest)
      = (parse_eml_attrs f (c :: rest)).map (fun p => (⟨[], [], SEP⟩ :: p.1, p.2)) := by
  have e1 : (c == ')') = false := by simpa using h1
  have e2 : (c == '=') = false := by simpa using h2
  have e3 : (c == ',') = false := by simpa using h3
  rw [parse_eml_attrs]
  simp only [List.isEmpty_cons, peek, List.headD_cons, e1, Bool.or_self, Bool.false_eq_true,
    if_false, skip_whitespace, List.dropWhile_cons, hsp, List.takeWhile_cons, hid, e2, e3]
  cases parse_eml_attrs f (c :: rest) with
  | none => rfl
  | some p => rfl

/-- The attribute loop of the EML parser never returns at such a character. -/
theorem parse_eml_attrs_stuck (c : Char) (rest : Str)
    (hsp : isspace c = false) (hid : is_ident_part c = false)
    (h1 : c ≠ ')') (h2 : c ≠ '=') (h3 : c ≠ ',') :
    ∀ fuel, parse_eml_attrs fuel (c :: rest) = none := by
  intro fuel
  induction fuel with
  | zero => rfl
  | succ f ih => rw [parse_eml_attrs_same_position f c rest hsp hid h1 h2 h3, ih]; rfl

/-- The EML parser never returns on a tag whose attribute list has such a character. -/
theorem parse_eml_nodes_attrs_stuck (a : Char) (t' : Str) (c : Char) (rest : Str)
    (ha : is_ident_start a = true) (hid : ∀ x ∈ a :: t', is_ident_part x = true)
    (himp : a :: t' ≠ "import".toList)
    (hsp : isspace c = false) (hc : is_ident_part c = false)
    (h1 : c ≠ ')') (h2 : c ≠ '=') (h3 : c ≠ ',') :
    ∀ fuel, parse_eml_nodes fuel ((a :: t') ++ '(' :: c :: rest) = none := by
  intro fuel
  cases fuel with
  | zero => rfl
  | succ f =>
    obtain ⟨_, hspa, hsl⟩ := ident_start_facts ha
    have hS : StopsIdent ('(' :: c :: rest) := by
      intro x hx
      simp only [List.head?_cons, Option.mem_def, Option.some.injEq] at hx
      subst hx
      decide
    have htw := takeWhile_ident_stops (a :: t') ('(' :: c :: rest) hid hS
    have hdw := dropWhile_ident_stops (a :: t') ('(' :: c :: rest) hid hS
    have himp' := at_import_false (a :: t') (c :: rest) '(' (by decide) hid himp
    rw [parse_eml_nodes]
    simp only [List.cons_append] at htw hdw himp' ⊢
    have hpk : peek (a :: (t' ++ '(' :: c :: rest)) = a := rfl
    have hsl' : (a == '/') = false := by simpa using hsl
    have hsk : skip_whitespace ('(' :: c :: rest) = '(' :: c :: rest := by
      simp [skip_whitespace, List.dropWhile_cons, isspace]
    simp only [List.isEmpty_cons, Bool.false_eq_true, if_false, List.takeWhile_cons,
      List.dropWhile_cons, hspa, hpk, hsl', Bool.false_and, himp', ha, Bool.not_true, htw, hdw,
      hsk, peek, List.headD_cons, beq_self_eq_true, Bool.not_false, Bool.and_self, if_true,
      advance, List.drop_succ_cons, List.drop_zero,
      parse_eml_attrs_stuck c rest hsp hc h1 h2 h3 f]

/-! ## Lemmas: bare tags and the root -/

theorem skip_whitespace_append (w r : Str) (hw : ∀ c ∈ w, isspace c = true) :
    skip_whitespace (w ++ r) = skip_whitespace r := by
  induction w with
  | nil => rfl
  | cons c w ih =>
    have hc : isspace c = true := hw c (by simp)
    have := ih (fun x hx => hw x (by simp [hx]))
    simp only [skip_whitespace] at this ⊢
    simp only [List.cons_append, List.dropWhile_cons, hc, if_true, this]

/-- Two bare tags `a` and `b` separated by whitespace only: the whitespace is consumed
while the parser looks for the attribute list of `a`, so no Whitespace node is made. -/
theorem eml_bare_siblings (f : Nat) (w : Str) (hne : w ≠ [])
    (hw : ∀ c ∈ w, isspace c = true) :
    parse_eml_nodes (f + 3) ('a' :: (w ++ ['b']))
      = some [.mk .ELEMENT ['a'] [] [] [] false, .mk .ELEMENT ['b'] [] [] [] false] := by
  obtain ⟨d, w', rfl⟩ : ∃ d w', w = d :: w' := by
    cases w with
    | nil => exact absurd rfl hne
    | cons d w' => exact ⟨d, w', rfl⟩
  have hd : isspace d = true := hw d (by simp)
  have hdi : is_ident_part d = false := by
    cases h : is_ident_part d with
    | false => rfl
    | true => rw [isspace_eq_false_of_ident_part h] at hd; exact absurd hd (by decide)
  have hsk : skip_whitespace ((d :: w') ++ ['b']) = ['b'] := by
    rw [skip_whitespace_append _ _ hw]
    simp [skip_whitespace, List.dropWhile_cons, isspace]
  have hb : parse_eml_nodes (f + 2) ['b'] = some [.mk .ELEMENT ['b'] [] [] [] false] :=
    parse_eml_nodes_element (f + 1) 'b' [] [] [] [] [] _ [] (by decide) (by decide)
      (by intro c hc; simp at hc) (by decide) (by simp [skip_whitespace])
      (eml_body_bare _ _ _ _ (by simp [skip_whitespace, peek]))
      (parse_eml_nodes_nil f)
  exact parse_eml_nodes_element (f + 2) 'a' [] ((d :: w') ++ ['b']) [] ['b'] ['b'] _ _
    (by decide) (by decide)
    (by
      intro c hc
      simp only [List.cons_append, List.head?_cons, Option.mem_def, Option.some.injEq] at hc
      subst hc
      exact hdi)
    (at_import_false ['a'] (w' ++ ['b']) d hdi (by decide) (by decide))
    (by rw [hsk]; simp [peek])
    (eml_body_bare _ _ _ _ (by simp [skip_whitespace, List.dropWhile_cons, isspace, peek]))
    hb

theorem eml_format_children_flatten (cs : List Node) (L : Nat) :
    EmlFormatter.format_children cs L = (cs.map (fun c => EmlFormatter.format c L)).flatten := by
  induction cs with
  | nil => simp [EmlFormatter.format_children]
  | cons c cs ih => simp [EmlFormatter.format_children, ih]

theorem markup_format_children_flatten (is_xml : Bool) (cs : List Node) (L : Nat) :
    MarkupFormatter.format_children is_xml cs L
      = (cs.map (fun c => MarkupFormatter.format is_xml c L)).flatten := by
  induction cs with
  | nil => simp [MarkupFormatter.format_children]
  | cons c cs ih => simp [MarkupFormatter.format_children, ih]

/-! ## Lemmas: the terminator of a markup comment -/

/-- The first position at which the pattern matches. -/
theorem find_str_first (pat : Str) : ∀ (s : Str) (i : Nat),
    (∀ j, j < i → pat.isPrefixOf (s.drop j) = false) → pat.isPrefixOf (s.drop i) = true →
    i ≤ s.length → find_str pat s = some i := by
  intro s
  induction s with
  | nil =>
    intro i _ hi hlen
    have : i = 0 := by simpa using hlen
    subst this
    cases pat with
    | nil => rfl
    | cons a p => simp [List.isPrefixOf] at hi
  | cons c cs ih =>
    intro i hlt hi hlen
    cases i with
    | zero =>
      simp only [List.drop_zero] at hi
      simp [find_str, hi]
    | succ k =>
      have h0 := hlt 0 (by omega)
      simp only [List.drop_zero] at h0
      have := ih k (fun j hj => by simpa using hlt (j + 1) (by omega)) (by simpa using hi)
        (by simpa using hlen)
      simp [find_str, h0, this]

/-- No match of `-->` starts inside a body that does not contain it, when the body is
followed by `-->`. -/
theorem no_terminator_in_body (rest : Str) : ∀ (body : Str),
    ¬ "-->".toList <:+: body → ∀ k, k < body.length →
    "-->".toList.isPrefixOf ((body ++ "-->".toList ++ rest).drop k) = false := by
  intro body
  induction body with
  | nil => intro _ k hk; simp at hk
  | cons x t ih =>
    intro hno k hk
    cases k with
    | succ k =>
      simp only [List.cons_append, List.drop_succ_cons]
      exact ih (fun h => hno (h.trans (List.infix_cons (List.infix_refl _)))) k
        (by simpa using hk)
    | zero =>
      simp only [List.drop_zero]
      rcases t with _ | ⟨y, _ | ⟨z, t'⟩⟩
      · simp [String.toList, List.isPrefixOf]
      · simp [String.toList, List.isPrefixOf]
      · have : ¬ "-->".toList <+: x :: y :: z :: t' := fun h => hno h.isInfix
        have e : "-->".toList.isPrefixOf (x :: y :: z :: t') = false := by
          cases hb : "-->".toList.isPrefixOf (x :: y :: z :: t') with
          | false => rfl
          | true => exact absurd (List.isPrefixOf_iff_prefix.mp hb) this
        simp only [String.toList, List.isPrefixOf, List.cons_append, Bool.and_eq_false_iff,
          beq_eq_false_iff_ne, ne_eq, Bool.and_true] at e ⊢
        exact e

/-- The terminator of the comment `<!--` + body + `-->` is found after the body, unless
the body starts with `>` or `->`. -/
theorem find_comment_end (body rest : Str) (hno : ¬ "-->".toList <:+: body)
    (h1 : ¬ ">".toList <+: body) (h2 : ¬ "->".toList <+: body) :
    find_str "-->".toList ('<' :: '!' :: '-' :: '-' :: (body ++ "-->".toList ++ rest))
      = some (body.length + 4) := by
  apply find_str_first
  · intro j hj
    rcases j with _ | _ | _ | _ | k
    · rfl
    · rfl
    · simp only [List.drop_succ_cons, List.drop_zero]
      rcases body with _ | ⟨x, t⟩
      · rfl
      · have hx : x ≠ '>' := fun e => h1 (by simp [e, String.toList])
        simp [String.toList, List.isPrefixOf, Ne.symm hx]
    · simp only [List.drop_succ_cons, List.drop_zero]
      rcases body with _ | ⟨x, _ | ⟨y, t⟩⟩
      · rfl
      · simp [String.toList, List.isPrefixOf]
      · have hxy : ¬ (x = '-' ∧ y = '>') := fun e => h2 (by simp [e.1, e.2, String.toList])
        simp only [String.toList, List.isPrefixOf, List.cons_append, Bool.and_eq_false_iff,
          beq_eq_false_iff_ne, ne_eq, Bool.and_true]
        by_cases hx : x = '-'
        · exact Or.inr (Or.inr (fun e => hxy ⟨hx, e.symm⟩))
        · exact Or.inr (Or.inl (fun e => hx e.symm))
    · simp only [List.drop_succ_cons]
      exact no_terminator_in_body rest body hno k (by omega)
  · have : List.drop (body.length + 4)
        ('<' :: '!' :: '-' :: '-' :: (body ++ "-->".toList ++ rest)) = "-->".toList ++ rest := by
      simp [List.append_assoc]
    rw [this]
    simp [String.toList, List.isPrefixOf]
  · simp

/-- The comment `<!--` + body + `-->` at the head of the input, when the body does not
contain `-->` and does not start with `>` or `->`: the payload is the trimmed body, and
the rest of the input is parsed next. -/
theorem markup_parses_comment_body (body rest : Str) (ns : List Node) (r : Str)
    (hno : ¬ "-->".toList <:+: body) (h1 : ¬ ">".toList <+: body)
    (h2 : ¬ "->".toList <+: body) (hrest : MarkupParses rest ns r) :
    MarkupParses ("<!--".toList ++ body ++ "-->".toList ++ rest)
      (Node.leaf .COMMENT (trim body) :: ns) r := by
  have e : "<!--".toList ++ body ++ "-->".toList ++ rest
      = '<' :: '!' :: '-' :: '-' :: (body ++ "-->".toList ++ rest) := by
    simp [String.toList]
  have hfind := find_comment_end body rest hno h1 h2
  have hc : parse_markup_comment ('<' :: '!' :: '-' :: '-' :: (body ++ "-->".toList ++ rest))
      = (Node.leaf .COMMENT (trim body), rest) := by
    have hsub : substr ('<' :: '!' :: '-' :: '-' :: (body ++ "-->".toList ++ rest)) 4
        (size_sub (body.length + 4) 4) = body := by
      simp [substr, size_sub, List.append_assoc]
    have hdrop : List.drop (body.length + 4 + 3)
        ('<' :: '!' :: '-' :: '-' :: (body ++ "-->".toList ++ rest)) = rest := by
      have : body.length + 4 + 3 = (body.length + 3) + 4 := by omega
      rw [this]
      simp only [List.drop_succ_cons, List.append_assoc]
      rw [List.drop_append_eq_append_drop]
      simp [String.toList]
    rw [parse_markup_comment, hfind]
    simp only [hsub, hdrop]
  rw [e]
  have := markup_parses_comment ('!' :: '-' :: '-' :: (body ++ "-->".toList ++ rest)) ns r
    (by simp [String.toList, List.isPrefixOf]) (by rw [hc]; exact hrest)
  rw [hc] at this
  exact this

/-! ## Lemmas: a block of plain text -/

/-- A block of a tag that is not read verbatim, whose text has no EML syntax and is not
empty, is kept as one Text child. -/
theorem eml_body_plain (sub : Str → Option (List Node)) (tag : Str) (attrs : List Attribute)
    (inner rest : Str) (htag : tag ∉ "php".toList :: RAW_TAGS) (hbal : Balanced inner)
    (hsyn : contains_eml_syntax inner = false) (hne : inner ≠ []) :
    parse_eml_element_body sub tag attrs ('\x7b' :: (inner ++ '\x7d' :: rest))
      = some (.mk .ELEMENT tag attrs [] [Node.leaf .TEXT inner] false, rest) := by
  simp only [parse_eml_element_body, List.isEmpty_cons, Bool.not_false, peek, List.headD_cons,
    beq_self_eq_true, Bool.and_self, if_true, advance, List.drop_succ_cons, List.drop_zero,
    eml_mode_zero_of_not_raw htag, parse_eml_block_content,
    read_balanced_braces_balanced inner rest hbal, hsyn, Bool.false_eq_true, if_false]
  cases inner with
  | nil => exact absurd rfl hne
  | cons a b => rfl

/-- The EML text `tag {s}` of a tag that is not read verbatim, with a plain text `s`. -/
theorem eml_plain_element_parses (f : Nat) (a : Char) (t' s : Str)
    (ha : is_ident_start a = true) (hid : ∀ c ∈ a :: t', is_ident_part c = true)
    (himp : a :: t' ≠ "import".toList) (htag : a :: t' ∉ "php".toList :: RAW_TAGS)
    (h1 : '(' ∉ s) (h2 : '\x7b' ∉ s) (h3 : '\x7d' ∉ s) (hne : s ≠ []) :
    parse_eml_nodes (f + 2) ((a :: t') ++ ' ' :: '\x7b' :: (s ++ ['\x7d']))
      = some [.mk .ELEMENT (a :: t') [] [] [Node.leaf .TEXT s] false] := by
  have hS : StopsIdent (' ' :: '\x7b' :: (s ++ ['\x7d'])) := by
    intro c hc
    simp only [List.head?_cons, Option.mem_def, Option.some.injEq] at hc
    subst hc
    decide
  have hsk : skip_whitespace (' ' :: '\x7b' :: (s ++ ['\x7d'])) = '\x7b' :: (s ++ ['\x7d']) := by
    simp [skip_whitespace, List.dropWhile_cons, isspace]
  have hsk2 : skip_whitespace ('\x7b' :: (s ++ ['\x7d'])) = '\x7b' :: (s ++ ['\x7d']) := by
    simp [skip_whitespace, List.dropWhile_cons, isspace]
  refine parse_eml_nodes_element (f + 1) a t' _ [] ('\x7b' :: (s ++ ['\x7d'])) [] _ [] ha hid hS
    (at_import_false (a :: t') _ ' ' (by decide) hid himp) ?_ ?_ (parse_eml_nodes_nil f)
  · rw [hsk]
    simp [peek]
  · rw [hsk2]
    exact eml_body_plain _ (a :: t') [] s [] htag (balanced_of_no_brace s h2 h3)
      (contains_eml_syntax_false s h1 h2) hne

/-! ## Lemmas: the payload of a raw-code block in markup -/

theorem getLast_ensure_newline (q : Str) :
    (q ++ (if q.getLast? = some '\n' then [] else ['\n'])).getLast? = some '\n' := by
  by_cases h : q.getLast? = some '\n'
  · rw [if_pos h, List.append_nil]
    exact h
  · rw [if_neg h]
    simp

/-- The normalised payload is the payload with a line break put before it unless it
starts with one, and a line break put after the result unless it ends with one. -/
theorem php_out_content_eq (p : Str) :
    php_out_content p
      = (if p.head? = some '\n' then p else '\n' :: p)
        ++ (if (if p.head? = some '\n' then p else '\n' :: p).getLast? = some '\n' then []
            else ['\n']) := by
  unfold php_out_content
  cases p with
  | nil => simp
  | cons a t =>
    by_cases ha : a = '\n'
    · subst ha
      by_cases hl : ('\n' :: t).getLast? = some '\n'
      · simp [hl]
      · simp [hl]
    · by_cases hl : (a :: t).getLast? = some '\n'
      · simp [ha, hl, List.getLast?_cons_cons]
      · simp [ha, hl, List.getLast?_cons_cons]

theorem php_out_content_head (p : Str) : (php_out_content p).head? = some '\n' := by
  rw [php_out_content_eq]
  cases p with
  | nil => simp
  | cons a t =>
    by_cases ha : a = '\n'
    · subst ha; simp
    · simp [ha]

theorem php_out_content_last (p : Str) : (php_out_content p).getLast? = some '\n' := by
  rw [php_out_content_eq]
  exact getLast_ensure_newline _

/-! ## Lemmas: a mismatched closing tag -/

/-- A closing tag with another name is not consumed. -/
theorem consume_closing_tag_mismatch (t u rest : Str) (hid : ∀ c ∈ u, is_ident_part c = true)
    (hne : u ≠ t) :
    consume_closing_tag t ('<' :: '/' :: (u ++ '>' :: rest)) = '<' :: '/' :: (u ++ '>' :: rest) := by
  have hgt : is_ident_part '>' = false := by decide
  simp [consume_closing_tag, List.isPrefixOf, takeWhile_ident_append u rest '>' hid hgt, hne]

/-- The markup text `<a><b></a>` for two different tag names that are not void: `b` is
left open, and the closing tag is consumed by `a`. -/
theorem markup_parses_mismatched (a b : Str) (ha : a ≠ []) (hb : b ≠ [])
    (hida : ∀ c ∈ a, is_ident_part c = true) (hidb : ∀ c ∈ b, is_ident_part c = true)
    (hva : a ∉ SELF_CLOSING_TAGS) (hvb : b ∉ SELF_CLOSING_TAGS) (hab : a ≠ b) :
    MarkupParses ('<' :: (a ++ '>' :: '<' :: (b ++ '>' :: '<' :: '/' :: (a ++ ['>']))))
      [.mk .ELEMENT a [] [] [.mk .ELEMENT b [] [] [] true] false] [] := by
  have hstop : ∀ r : Str, StopsIdent ('>' :: r) := by
    intro r c hc
    simp only [List.head?_cons, Option.mem_def, Option.some.injEq] at hc
    subst hc
    decide
  have hinner : MarkupParses ('<' :: (b ++ '>' :: '<' :: '/' :: (a ++ ['>'])))
      [.mk .ELEMENT b [] [] [] true] ('<' :: '/' :: (a ++ ['>'])) := by
    have hm := consume_closing_tag_mismatch b a [] hida hab
    exact markup_parses_open b ('>' :: '<' :: '/' :: (a ++ ['>'])) [] _ _ _ [] []
      hb hidb (hstop _) (markup_attrs_parse_stop_gt _) hvb (markup_parses_closing _)
      (by rw [hm]; exact markup_parses_closing _) (by simp) (by rw [hm]; simp)
  have hc := consume_closing_tag_match a [] hida
  exact markup_parses_open a ('>' :: '<' :: (b ++ '>' :: '<' :: '/' :: (a ++ ['>']))) [] _ _ _
    _ [] ha hida (hstop _) (markup_attrs_parse_stop_gt _) hva hinner
    (by rw [hc]; exact markup_parses_text_eof [] (by simp)) (by simp) (by rw [hc]; simp)

/-! ## Lemmas: a rendered childless element read back -/

theorem markup_text_nodes_indent (L : Nat) : markup_text_nodes (get_indent L) = [] := by
  have hc : count_newlines (get_indent L) = 0 := by
    simp only [count_newlines, List.count_eq_zero]
    intro hmem
    exact absurd (get_indent_space L _ hmem) (by decide)
  have ht : trim (get_indent L) = [] := by
    have hd : (get_indent L).dropWhile is_trim_char = [] := by
      rw [List.dropWhile_eq_nil_iff]
      intro x hx
      rw [get_indent_space L x hx]
      rfl
    simp [trim, hd]
  simp [markup_text_nodes, ht, hc]

/-- The text of a childless element, after its indentation and with the tail that the
renderer writes after the attributes, is read back as an element with the same tag and
the same attributes. -/
theorem markup_childless_read_back (L : Nat) (tag : Str) (attrs : List Attribute)
    (htag : markup_tag_ok tag = true) (hattrs : attrs.all markup_attr_ok = true) :
    (∃ more, MarkupParses (get_indent L ++ "<".toList ++ tag ++ markup_attrs attrs
        ++ " />\n".toList) (.mk .ELEMENT tag (with_sep attrs) [] [] false :: more) []) ∧
    (∃ flag more r, MarkupParses (get_indent L ++ "<".toList ++ tag ++ markup_attrs attrs
        ++ ">".toList ++ "</".toList ++ tag ++ ">\n".toList)
        (.mk .ELEMENT tag (with_sep attrs) [] [] flag :: more) r) ∧
    (tag ∈ SELF_CLOSING_TAGS →
      ∃ more, MarkupParses (get_indent L ++ "<".toList ++ tag ++ markup_attrs attrs
        ++ ">\n".toList) (.mk .ELEMENT tag (with_sep attrs) [] [] false :: more) []) := by
  obtain ⟨hne, hid, hroot⟩ := markup_tag_ok_facts htag
  have hind : '<' ∉ get_indent L := fun h => absurd (get_indent_space L _ h) (by decide)
  have hpre : ∀ (q : Str) (ns : List Node) (r : Str), MarkupParses ('<' :: q) ns r →
      MarkupParses (get_indent L ++ '<' :: q) ns r := by
    intro q ns r h
    have := markup_parses_prefix (get_indent L) q ns r hind h
    rwa [markup_text_nodes_indent, List.nil_append] at this
  have hnl : MarkupParses ['\n'] (markup_text_nodes ['\n']) [] :=
    markup_parses_text_eof ['\n'] (by decide)
  refine ⟨?_, ?_, ?_⟩
  · have hS : StopsIdent (markup_attrs attrs ++ ' ' :: '/' :: '>' :: ['\n']) :=
      markup_attrs_stops attrs _ (stops_space _)
    have hA := markup_attrs_parse_rendered attrs (' ' :: '/' :: '>' :: ['\n']) _ hattrs
      (markup_attrs_parse_stop_self_close ('>' :: ['\n']))
    have := hpre _ _ _ (markup_parses_self_closed tag _ (with_sep attrs) ['\n'] [] _ hne hid hS hA
      hnl (by simp only [List.length_cons, List.length_append, List.length_nil]; omega))
    exact ⟨_, by simpa [String.toList, List.append_assoc] using this⟩
  · by_cases hvoid : tag ∈ SELF_CLOSING_TAGS
    · have hS : StopsIdent (markup_attrs attrs ++ '>' :: '<' :: '/' :: (tag ++ ['>', '\n'])) :=
        markup_attrs_stops attrs _ (stops_gt _)
      have hA := markup_attrs_parse_rendered attrs ('>' :: '<' :: '/' :: (tag ++ ['>', '\n'])) _
        hattrs (markup_attrs_parse_stop_gt _)
      have := hpre _ _ _ (markup_parses_void tag _ (with_sep attrs) _ _ [] hne hid hS hA hvoid
        (markup_parses_closing _) (by simp only [List.length_cons, List.length_append, List.length_nil]; omega))
      exact ⟨false, [], _, by simpa [String.toList, List.append_assoc] using this⟩
    · have hS : StopsIdent (markup_attrs attrs ++ '>' :: '<' :: '/' :: (tag ++ ['>', '\n'])) :=
        markup_attrs_stops attrs _ (stops_gt _)
      have hA := markup_attrs_parse_rendered attrs ('>' :: '<' :: '/' :: (tag ++ ['>', '\n'])) _
        hattrs (markup_attrs_parse_stop_gt _)
      have hc := consume_closing_tag_match tag ['\n'] hid
      have := hpre _ _ _ (markup_parses_open tag _ (with_sep attrs) _ _ [] [] _ hne hid hS hA
        hvoid (markup_parses_closing _) (by rw [hc]; exact hnl) (by simp only [List.length_cons, List.length_append, List.length_nil]; omega)
        (by rw [hc]; simp only [List.length_cons, List.length_append, List.length_nil]; omega))
      exact ⟨true, _, _, by simpa [String.toList, List.append_assoc] using this⟩
  · intro hvoid
    have hS : StopsIdent (markup_attrs attrs ++ '>' :: ['\n']) :=
      markup_attrs_stops attrs _ (stops_gt _)
    have hA := markup_attrs_parse_rendered attrs ('>' :: ['\n']) _ hattrs
      (markup_attrs_parse_stop_gt _)
    have := hpre _ _ _ (markup_parses_void tag _ (with_sep attrs) _ _ _ hne hid hS hA hvoid
      hnl (by simp only [List.length_cons, List.length_append, List.length_nil]; omega))
    exact ⟨_, by simpa [String.toList, List.append_assoc] using this⟩

/-! ## Lemmas: the flag in parsed trees -/

theorem flag_means_empty_list_append (a b : List Node) :
    flag_means_empty_list (a ++ b) = (flag_means_empty_list a && flag_means_empty_list b) := by
  induction a with
  | nil => simp [flag_means_empty_list]
  | cons x xs ih => simp [flag_means_empty_list, ih, Bool.and_assoc]

theorem flag_means_empty_cons (x : Node) (xs : List Node) :
    flag_means_empty_list (x :: xs) = (flag_means_empty x && flag_means_empty_list xs) := by
  simp [flag_means_empty_list]

theorem flag_means_empty_open (type : NodeType) (tag : Str) (attrs : List Attribute)
    (children : List Node) (h : flag_means_empty_list children = true) :
    flag_means_empty (.mk type tag attrs [] children children.isEmpty) = true := by
  rw [flag_means_empty, h]
  cases children <;> rfl

/-- In the nodes that the EML parser returns, a node with the flag has no children and
an empty payload. -/
theorem eml_flag_means_empty (fuel : Nat) (input : Str) (nodes : List Node)
    (h : parse_eml_nodes fuel input = some nodes) : flag_means_empty_list nodes = true := by
  refine parse_eml_nodes_induct (fun ns => flag_means_empty_list ns = true) rfl ?_ ?_ ?_ ?_ ?_ ?_
    fuel input nodes h
  · intro ws ns hns
    rw [flag_means_empty_list_append, hns]
    unfold eml_ws_nodes
    split <;> rfl
  · intro t c ns _ hns
    rw [flag_means_empty_cons, hns]
    rfl
  · intro tag attrs children ns hc hns
    rw [flag_means_empty_cons, hns, flag_means_empty_open _ _ _ _ hc]
    rfl
  · intro tag attrs c ns hns
    rw [flag_means_empty_cons, hns]
    rfl
  · intro tag attrs flag ns hns
    rw [flag_means_empty_cons, hns]
    cases flag <;> rfl
  · intro attrs c ns hns
    rw [flag_means_empty_cons, hns]
    cases c <;> rfl

/-- The markup parser returns on every input, and in the nodes it returns a node with the
flag has no children and an empty payload. -/
theorem markup_flag_means_empty (input : Str) :
    ∃ nodes rest, MarkupParses input nodes rest ∧ flag_means_empty_list nodes = true := by
  have key : ∀ (n : Nat) (input : Str), input.length ≤ n →
      ∃ nodes rest, MarkupParses input nodes rest ∧ rest.length ≤ input.length ∧
        flag_means_empty_list nodes = true := by
    refine markup_parses_induct (fun ns => flag_means_empty_list ns = true) rfl ?_ ?_ ?_ ?_ ?_
    · intro w ns hns
      show flag_means_empty_list (markup_text_nodes w ++ ns) = true
      rw [flag_means_empty_list_append, hns]
      unfold markup_text_nodes
      split
      · split <;> rfl
      · rfl
    · intro r ns hns
      show flag_means_empty_list (_ :: ns) = true
      rw [flag_means_empty_cons, hns]
      unfold parse_markup_comment
      split <;> rfl
    · intro r ns hns
      show flag_means_empty_list (_ :: ns) = true
      rw [flag_means_empty_cons, hns]
      unfold parse_markup_pi markup_pi_node
      split <;> split <;> first | rfl | (split <;> rfl)
    · intro tag attrs children more hc hm
      show flag_means_empty_list (_ :: more) = true
      rw [flag_means_empty_cons, hm, flag_means_empty_open _ _ _ _ hc]
      rfl
    · intro tag attrs more hm
      show flag_means_empty_list (_ :: more) = true
      rw [flag_means_empty_cons, hm]
      rfl
  obtain ⟨nodes, rest, h1, _, h3⟩ := key input.length input (le_refl _)
  exact ⟨nodes, rest, h1, h3⟩

/-- The flag of the node that the content block of an element gives: true exactly when a
brace follows and the block leaves no child and no payload. -/
theorem eml_body_flag (sub : Str → Option (List Node)) (tag : Str) (attrs : List Attribute)
    (r : Str) (el : Node) (r' : Str)
    (h : parse_eml_element_body sub tag attrs r = some (el, r')) :
    el.explicit_empty_block = true ↔
      ((!r.isEmpty && peek r == '\x7b') = true ∧ el.children = [] ∧ el.content = []) := by
  unfold parse_eml_element_body at h
  by_cases hb : (!r.isEmpty && peek r == '\x7b') = true
  · rw [if_pos hb] at h
    by_cases hraw : tag ∈ "php".toList :: RAW_TAGS
    · have hm : (if tag = "script".toList || tag = "style".toList then 1
          else if tag = "php".toList then 1
          else if tag = "pre".toList || tag = "code".toList then 2
          else 0) ≠ 0 := by
        simp only [RAW_TAGS, List.mem_cons, List.mem_singleton, List.not_mem_nil, or_false] at hraw
        rcases hraw with e | e | e | e | e <;> subst e <;> decide
      simp only [hm, if_false] at h
      by_cases hphp : tag = "php".toList
      · subst hphp
        simp only [if_true, Option.some.injEq, Prod.mk.injEq] at h
        rw [← h.1]
        simp [Node.explicit_empty_block, Node.children, Node.content, hb]
      · simp only [hphp, if_false, Option.some.injEq, Prod.mk.injEq] at h
        rw [← h.1]
        simp [Node.explicit_empty_block, Node.children, Node.content]
    · simp only [eml_mode_zero_of_not_raw hraw, if_true, parse_eml_block_content] at h
      by_cases hsyn : contains_eml_syntax (read_balanced_braces (advance r)).1 = true
      · simp only [hsyn, if_true] at h
        cases hs : sub (read_balanced_braces (advance r)).1 with
        | none => simp [hs] at h
        | some children =>
          simp only [hs, Option.some.injEq, Prod.mk.injEq] at h
          rw [← h.1]
          simp [Node.explicit_empty_block, Node.children, Node.content, hb]
      · rw [if_neg hsyn] at h
        by_cases he : (!(read_balanced_braces (advance r)).1.isEmpty) = true
        · rw [if_pos he] at h
          simp only [Option.some.injEq, Prod.mk.injEq] at h
          rw [← h.1]
          simp [Node.explicit_empty_block, Node.children, Node.content]
        · rw [if_neg he] at h
          simp only [Option.some.injEq, Prod.mk.injEq] at h
          rw [← h.1]
          simp [Node.explicit_empty_block, Node.children, Node.content, hb]
  · rw [if_neg hb] at h
    simp only [Option.some.injEq, Prod.mk.injEq] at h
    rw [← h.1]
    simp [Node.explicit_empty_block, Node.children, Node.content, hb]

/-! ## Lemmas: the Text nodes of EML trees -/

theorem no_text_append (a b : List Node) : no_text (a ++ b) = (no_text a && no_text b) := by
  simp [no_text]

theorem text_only_child_list_append (a b : List Node) :
    text_only_child_list (a ++ b) = (text_only_child_list a && text_only_child_list b) := by
  induction a with
  | nil => simp [text_only_child_list]
  | cons x xs ih => simp [text_only_child_list, ih, Bool.and_assoc]

/-- In the nodes that the EML parser returns, none is a Text node, and in the trees under
them a Text node is the only child of its parent. -/
theorem eml_text_only_child (fuel : Nat) (input : Str) (nodes : List Node)
    (h : parse_eml_nodes fuel input = some nodes) :
    no_text nodes = true ∧ text_only_child_list nodes = true := by
  refine parse_eml_nodes_induct
    (fun ns => no_text ns = true ∧ text_only_child_list ns = true) ⟨rfl, rfl⟩ ?_ ?_ ?_ ?_ ?_ ?_
    fuel input nodes h
  · intro ws ns hns
    rw [no_text_append, text_only_child_list_append, hns.1, hns.2]
    unfold eml_ws_nodes
    split <;> exact ⟨rfl, rfl⟩
  · intro t c ns ht hns
    have e : Node.leaf t c :: ns = [Node.leaf t c] ++ ns := rfl
    rw [e, no_text_append, text_only_child_list_append, hns.1, hns.2]
    rcases ht with rfl | rfl | rfl <;> exact ⟨rfl, rfl⟩
  · intro tag attrs children ns hc hns
    have e : ∀ x : Node, x :: ns = [x] ++ ns := fun _ => rfl
    rw [e, no_text_append, text_only_child_list_append, hns.1, hns.2]
    refine ⟨rfl, ?_⟩
    simp only [text_only_child_list, text_only_child, hc.1, hc.2, Bool.true_or, Bool.and_self]
  · intro tag attrs c ns hns
    have e : ∀ x : Node, x :: ns = [x] ++ ns := fun _ => rfl
    rw [e, no_text_append, text_only_child_list_append, hns.1, hns.2]
    exact ⟨rfl, rfl⟩
  · intro tag attrs flag ns hns
    have e : ∀ x : Node, x :: ns = [x] ++ ns := fun _ => rfl
    rw [e, no_text_append, text_only_child_list_append, hns.1, hns.2]
    exact ⟨rfl, rfl⟩
  · intro attrs c ns hns
    have e : ∀ x : Node, x :: ns = [x] ++ ns := fun _ => rfl
    rw [e, no_text_append, text_only_child_list_append, hns.1, hns.2]
    exact ⟨rfl, rfl⟩

/-! ## Lemmas: the terminator of a processing instruction -/

/-- No match of `?>` starts inside a text that does not contain it, when the text is
followed by `?>`. -/
theorem no_pi_terminator_in_body (rest : Str) : ∀ (X : Str),
    ¬ "?>".toList <:+: X → ∀ k, k < X.length →
    "?>".toList.isPrefixOf ((X ++ "?>".toList ++ rest).drop k) = false := by
  intro X
  induction X with
  | nil => intro _ k hk; simp at hk
  | cons x t ih =>
    intro hno k hk
    cases k with
    | succ k =>
      simp only [List.cons_append, List.drop_succ_cons]
      exact ih (fun h => hno (h.trans (List.infix_cons (List.infix_refl _)))) k
        (by simpa using hk)
    | zero =>
      simp only [List.drop_zero]
      rcases t with _ | ⟨y, t'⟩
      · simp [String.toList, List.isPrefixOf]
      · have : ¬ "?>".toList <+: x :: y :: t' := fun h => hno h.isInfix
        have e : "?>".toList.isPrefixOf (x :: y :: t') = false := by
          cases hb : "?>".toList.isPrefixOf (x :: y :: t') with
          | false => rfl
          | true => exact absurd (List.isPrefixOf_iff_prefix.mp hb) this
        simp only [String.toList, List.isPrefixOf, List.cons_append, Bool.and_eq_false_iff,
          beq_eq_false_iff_ne, ne_eq, Bool.and_true] at e ⊢
        exact e

/-- The terminator of `<?` + X + `?>` is found after X, unless X starts with `>`. -/
theorem find_pi_end (X rest : Str) (hno : ¬ "?>".toList <:+: X) (h1 : ¬ ">".toList <+: X) :
    find_str "?>".toList ('<' :: '?' :: (X ++ "?>".toList ++ rest)) = some (X.length + 2) := by
  apply find_str_first
  · intro j hj
    rcases j with _ | _ | k
    · rfl
    · simp only [List.drop_succ_cons, List.drop_zero]
      rcases X with _ | ⟨x, t⟩
      · rfl
      · have hx : x ≠ '>' := fun e => h1 (by simp [e, String.toList])
        simp [String.toList, List.isPrefixOf, Ne.symm hx]
    · simp only [List.drop_succ_cons]
      exact no_pi_terminator_in_body rest X hno k (by omega)
  · have : List.drop (X.length + 2) ('<' :: '?' :: (X ++ "?>".toList ++ rest))
        = "?>".toList ++ rest := by
      simp [List.append_assoc]
    rw [this]
    simp [String.toList, List.isPrefixOf]
  · simp

/-- A text that starts with neither `php` nor `import ` gives a generic node. -/
theorem markup_pi_node_generic (X : Str) (h1 : ¬ "php".toList <+: X)
    (h2 : ¬ "import ".toList <+: X) :
    markup_pi_node X = .mk .PI "xml".toList [] X [] false := by
  have e1 : (X.take 3 == "php".toList) = false := by
    cases hb : X.take 3 == "php".toList with
    | false => rfl
    | true =>
      exfalso
      apply h1
      have : X.take 3 = "php".toList := by simpa using hb
      rw [← this]
      exact List.take_prefix _ _
  have e2 : (X.take 7 == "import ".toList) = false := by
    cases hb : X.take 7 == "import ".toList with
    | false => rfl
    | true =>
      exfalso
      apply h2
      have : X.take 7 = "import ".toList := by simpa using hb
      rw [← this]
      exact List.take_prefix _ _
  unfold markup_pi_node
  simp only [e1, e2, Bool.false_eq_true, if_false]

/-- The processing instruction `<?` + X + `?>` at the head of the input, when X does not
contain `?>` and does not start with `>`: the node is built from X, and the rest of the
input is parsed next. -/
theorem markup_parses_pi_body (X rest : Str) (ns : List Node) (r : Str)
    (hno : ¬ "?>".toList <:+: X) (h1 : ¬ ">".toList <+: X) (hrest : MarkupParses rest ns r) :
    MarkupParses ("<?".toList ++ X ++ "?>".toList ++ rest) (markup_pi_node X :: ns) r := by
  have e : "<?".toList ++ X ++ "?>".toList ++ rest
      = '<' :: '?' :: (X ++ "?>".toList ++ rest) := by
    simp [String.toList]
  have hfind := find_pi_end X rest hno h1
  have hc : parse_markup_pi ('<' :: '?' :: (X ++ "?>".toList ++ rest))
      = (markup_pi_node X, rest) := by
    have hsub : substr ('<' :: '?' :: (X ++ "?>".toList ++ rest)) 2
        (size_sub (X.length + 2) 2) = X := by
      simp [substr, size_sub, List.append_assoc]
    have hdrop : List.drop (X.length + 2 + 2)
        ('<' :: '?' :: (X ++ "?>".toList ++ rest)) = rest := by
      have : X.length + 2 + 2 = (X.length + 2) + 2 := by omega
      rw [this]
      simp only [List.drop_succ_cons, List.append_assoc]
      rw [List.drop_append_eq_append_drop]
      simp [String.toList]
    rw [parse_markup_pi, hfind]
    simp only [hsub, hdrop]
  rw [e]
  have := markup_parses_pi ('?' :: (X ++ "?>".toList ++ rest)) ns r
    (by simp [String.toList, List.isPrefixOf]) (by simp [String.toList, List.isPrefixOf])
    (by rw [hc]; exact hrest)
  rw [hc] at this
  exact this

/-- The text `<?` + X + `?>`, alone or followed by a line break, is converted to the line
`<?xml ` + X + `?>`. -/
theorem markup_to_markup_pi (is_xml : Bool) (X tail : Str) (hno : ¬ "?>".toList <:+: X)
    (h1 : ¬ ">".toList <+: X) (h2 : ¬ "php".toList <+: X) (h3 : ¬ "import ".toList <+: X)
    (htail : tail = [] ∨ tail = ['\n']) :
    markup_to_markup is_xml ("<?".toList ++ X ++ "?>".toList ++ tail)
      = some ("<?xml ".toList ++ X ++ "?>\n".toList) := by
  have hp := markup_parses_pi_body X tail (markup_text_nodes tail) [] hno h1
    (markup_parses_text_eof tail (by rcases htail with rfl | rfl <;> decide))
  rw [markup_pi_node_generic X h2 h3] at hp
  rw [markup_to_markup, parse_markup_of_parses hp]
  rcases htail with rfl | rfl
  · simp [MarkupFormatter.format, MarkupFormatter.format_node, MarkupFormatter.format_children,
      markup_text_nodes, get_indent, String.toList]
  · have : markup_text_nodes ['\n'] = [Node.leaf .WHITESPACE ['\n']] := rfl
    rw [this]
    simp [MarkupFormatter.format, MarkupFormatter.format_node, MarkupFormatter.format_children,
      get_indent, String.toList, Node.leaf, format_whitespace, count_newlines]

/-- The text X after `n` copies of the prefix `xml `. -/
theorem xml_prefix_ok (X : Str) (hno : ¬ "?>".toList <:+: X) :
    ¬ "?>".toList <:+: "xml ".toList ++ X ∧ ¬ ">".toList <+: "xml ".toList ++ X ∧
    ¬ "php".toList <+: "xml ".toList ++ X ∧ ¬ "import ".toList <+: "xml ".toList ++ X := by
  refine ⟨?_, ?_, ?_, ?_⟩
  · intro h
    apply hno
    simp only [String.toList, List.cons_append, List.nil_append] at h ⊢
    rcases List.infix_cons_iff.mp h with h | h
    · simp at h
    rcases List.infix_cons_iff.mp h with h | h
    · simp at h
    rcases List.infix_cons_iff.mp h with h | h
    · simp at h
    rcases List.infix_cons_iff.mp h with h | h
    · simp at h
    exact h
  · simp [String.toList]
  · simp [String.toList]
  · simp [String.toList]

theorem xml_copies_ok (X : Str) (hno : ¬ "?>".toList <:+: X) : ∀ n,
    ¬ "?>".toList <:+: (List.replicate n "xml ".toList).flatten ++ X := by
  intro n
  induction n with
  | zero => simpa using hno
  | succ n ih =>
    have := (xml_prefix_ok _ ih).1
    simpa [List.replicate_succ, List.append_assoc] using this

/-! ## Lemmas: text runs of the markup parser -/

theorem dropWhile_blank_append (w x : Str) (hw : Blank w) :
    (w ++ x).dropWhile is_trim_char = x.dropWhile is_trim_char := by
  induction w with
  | nil => rfl
  | cons c w ih =>
    have hc : is_trim_char c = true := hw c (by simp)
    simp only [List.cons_append, List.dropWhile_cons, hc, if_true]
    exact ih (fun d hd => hw d (by simp [hd]))

theorem rdropWhile_append_blank (y w : Str) (hw : Blank w) :
    (y ++ w).rdropWhile is_trim_char = y.rdropWhile is_trim_char := by
  unfold List.rdropWhile
  rw [List.reverse_append]
  rw [dropWhile_blank_append w.reverse y.reverse (fun c hc => hw c (List.mem_reverse.mp hc))]

theorem trim_blank (w : Str) (hw : Blank w) : trim w = [] := by
  simp only [trim, List.dropWhile_eq_nil_iff.mpr hw]
  rfl

theorem trim_blank_append (w x : Str) (hw : Blank w) : trim (w ++ x) = trim x := by
  rw [trim_eq_rdropWhile, trim_eq_rdropWhile, dropWhile_blank_append w x hw]

theorem trim_append_blank (x w : Str) (hw : Blank w) : trim (x ++ w) = trim x := by
  by_cases hx : Blank x
  · rw [trim_blank x hx, trim_blank]
    intro c hc
    rcases List.mem_append.mp hc with h | h
    · exact hx c h
    · exact hw c h
  · have hne : x.dropWhile is_trim_char ≠ [] := by
      intro h
      exact hx (List.dropWhile_eq_nil_iff.mp h)
    have : (x ++ w).dropWhile is_trim_char = x.dropWhile is_trim_char ++ w := by
      clear hw
      induction x with
      | nil => exact absurd rfl hne
      | cons c x ih =>
        simp only [List.cons_append, List.dropWhile_cons] at hne ⊢
        split
        · rename_i hc
          simp only [hc, if_true] at hne
          exact ih (fun hb => hne (List.dropWhile_eq_nil_iff.mpr hb)) hne
        · rfl
    rw [trim_eq_rdropWhile, trim_eq_rdropWhile, this, rdropWhile_append_blank _ _ hw]

theorem blank_append {a b : Str} (ha : Blank a) (hb : Blank b) : Blank (a ++ b) := by
  intro c hc
  rcases List.mem_append.mp hc with h | h
  · exact ha c h
  · exact hb c h

theorem blank_indent (L : Nat) : Blank (get_indent L) := by
  intro c hc
  rw [List.eq_of_mem_replicate hc]
  decide

theorem blank_newline : Blank ['\n'] := by
  intro c hc
  simp at hc
  subst hc
  decide

theorem blank_nil : Blank [] := by
  intro c hc
  simp at hc

theorem not_lt_of_blank {w : Str} (hw : Blank w) : '<' ∉ w := by
  intro h
  have := hw _ h
  simp [is_trim_char] at this

theorem run_items_blank (w : Str) (hw : Blank w) : run_items w = [] := by
  simp [run_items, trim_blank w hw]

theorem run_items_append_blank (x w : Str) (hw : Blank w) : run_items (x ++ w) = run_items x := by
  simp only [run_items, trim_append_blank x w hw]

theorem run_items_blank_append (w x : Str) (hw : Blank w) : run_items (w ++ x) = run_items x := by
  simp only [run_items, trim_blank_append w x hw]

theorem markup_rt_list_cons_other (is_xml prev : Bool) (n : Node) (ns : List Node)
    (h1 : n.type ≠ .TEXT) (h2 : n.type ≠ .WHITESPACE) :
    markup_rt_list is_xml prev (n :: ns)
      = (markup_rt is_xml n && markup_rt_list is_xml false ns) := by
  cases n with
  | mk ty tag attrs content children flag =>
    cases ty <;> simp_all [markup_rt_list, Node.type]

theorem markup_rt_list_cons_text (is_xml prev : Bool) (t : Str) (ns : List Node) :
    markup_rt_list is_xml prev (Node.leaf .TEXT t :: ns)
      = (markup_text_rt t && (!prev && markup_rt_list is_xml true ns)) := by
  simp [markup_rt_list, markup_rt, Node.leaf, Node.type]

theorem markup_rt_list_cons_ws (is_xml prev : Bool) (t : Str) (ns : List Node) :
    markup_rt_list is_xml prev (Node.leaf .WHITESPACE t :: ns)
      = markup_rt_list is_xml prev ns := by
  simp [markup_rt_list, markup_rt, Node.leaf, Node.type]

/-- A list in the class that does not start with a Text or Whitespace node is in the
class after a Text node too. -/
theorem markup_rt_list_after_text (is_xml : Bool) (ns : List Node)
    (hns : markup_rt_list is_xml false ns = true)
    (hhead : ∀ n ∈ ns.head?, n.type ≠ .TEXT ∧ n.type ≠ .WHITESPACE) :
    markup_rt_list is_xml true ns = true := by
  cases ns with
  | nil => rfl
  | cons n ns' =>
    obtain ⟨h1, h2⟩ := hhead n rfl
    rw [markup_rt_list_cons_other is_xml _ n ns' h1 h2] at hns ⊢
    exact hns

/-- The nodes of a text run: their items are those of the run, and they are in the class. -/
theorem markup_text_nodes_reads (is_xml : Bool) (w : Str) (hw : '<' ∉ w) :
    (items_list (markup_text_nodes w)).map Item.norm = run_items w ∧
      markup_rt_list is_xml false (markup_text_nodes w) = true ∧
      ∀ ns, markup_rt_list is_xml false ns = true →
        (∀ n ∈ ns.head?, n.type ≠ .TEXT ∧ n.type ≠ .WHITESPACE) →
        markup_rt_list is_xml false (markup_text_nodes w ++ ns) = true := by
  have hc : w.contains '<' = false := by
    simpa using hw
  unfold markup_text_nodes run_items
  by_cases ht : (trim w).isEmpty = true
  · simp only [ht, if_true]
    split
    · refine ⟨by simp [items_list, Node.items, Node.leaf], ?_, ?_⟩
      · rw [markup_rt_list_cons_ws]; rfl
      · intro ns hns _
        rw [List.singleton_append, markup_rt_list_cons_ws]
        exact hns
    · exact ⟨rfl, rfl, fun ns hns _ => hns⟩
  · simp only [ht, if_false, Bool.false_eq_true]
    have htx : markup_text_rt w = true := by
      simp only [markup_text_rt, hc, Bool.not_false, Bool.true_and, Bool.not_eq_true']
      simpa using ht
    refine ⟨by simp [items_list, Node.items, Node.leaf, Item.norm], ?_, ?_⟩
    · rw [markup_rt_list_cons_text, htx]; rfl
    · intro ns hns hhead
      rw [List.singleton_append, markup_rt_list_cons_text, htx,
        markup_rt_list_after_text is_xml ns hns hhead]
      rfl

/-! ## Lemmas: the markup round trip of a sibling list -/

theorem markup_reads_mono {is_xml prev : Bool} {I : Str} {its : List Item} {R : Str}
    (h : MarkupReads is_xml true I its R) : MarkupReads is_xml prev I its R :=
  fun w hw _ => h w hw (fun e => Bool.noConfusion e)

/-- The end of the input closes a sibling list. -/
theorem markup_reads_eof (is_xml : Bool) : MarkupReads is_xml true [] [] [] := by
  intro w hw _
  obtain ⟨h1, h2, _⟩ := markup_text_nodes_reads is_xml w hw
  refine ⟨markup_text_nodes w, ?_, ?_, h2⟩
  · simpa using markup_parses_text_eof w hw
  · simpa using h1

/-- A closing tag on its indented line closes a sibling list. -/
theorem markup_reads_closing (is_xml : Bool) (L : Nat) (r : Str) :
    MarkupReads is_xml true (get_indent L ++ '<' :: '/' :: r) [] ('<' :: '/' :: r) := by
  intro w hw _
  have hlt : '<' ∉ w ++ get_indent L := by
    intro h
    rcases List.mem_append.mp h with h | h
    · exact hw h
    · exact not_lt_of_blank (blank_indent L) h
  obtain ⟨h1, h2, _⟩ := markup_text_nodes_reads is_xml (w ++ get_indent L) hlt
  refine ⟨markup_text_nodes (w ++ get_indent L), ?_, ?_, h2⟩
  · have := markup_parses_prefix (w ++ get_indent L) ('/' :: r) [] _ hlt (markup_parses_closing r)
    simpa [List.append_assoc] using this
  · rw [h1, run_items_append_blank _ _ (blank_indent L)]
    simp

theorem blank_format_whitespace (content : Str) : Blank (format_whitespace content) := by
  intro c hc
  unfold format_whitespace at hc
  simp only at hc
  split at hc
  · rw [List.eq_of_mem_replicate hc]; decide
  · simp at hc

/-- A node rendered as a tag, a comment or a processing instruction, in front of its
later siblings. -/
theorem markup_reads_cons_other (is_xml prev : Bool) (c : Node) (cs : List Node) (L : Nat)
    (C : Str) (its : List Item) (R : Str)
    (hc : MarkupNodeReads is_xml c)
    (ih : MarkupReads is_xml false (MarkupFormatter.format_children is_xml cs L ++ C)
      ((items_list cs).map Item.norm ++ its) R) :
    MarkupReads is_xml prev (MarkupFormatter.format_children is_xml (c :: cs) L ++ C)
      ((items_list (c :: cs)).map Item.norm ++ its) R := by
  intro w hw _
  obtain ⟨X, hfmt, hread⟩ := hc L
  obtain ⟨ns, hns, hitems, hcls⟩ := ih ['\n'] (by simp) (fun _ => blank_newline)
  obtain ⟨node', hp, hi, hrt, ht1, ht2⟩ := hread _ ns R hns
  have hlt : '<' ∉ w ++ get_indent L := by
    intro h
    rcases List.mem_append.mp h with h | h
    · exact hw h
    · exact not_lt_of_blank (blank_indent L) h
  obtain ⟨h1, _, h3⟩ := markup_text_nodes_reads is_xml (w ++ get_indent L) hlt
  refine ⟨markup_text_nodes (w ++ get_indent L) ++ node' :: ns, ?_, ?_, ?_⟩
  · have := markup_parses_prefix (w ++ get_indent L) _ (node' :: ns) R hlt hp
    rw [MarkupFormatter.format_children, hfmt]
    simpa [List.append_assoc] using this
  · rw [items_list_append, List.map_append, h1, run_items_append_blank _ _ (blank_indent L)]
    rw [run_items_blank _ blank_newline] at hitems
    simp only [items_list, List.map_append, hi, hitems, List.nil_append, List.append_assoc]
  · apply h3
    · rw [markup_rt_list_cons_other is_xml _ node' ns ht1 ht2, hrt, hcls]; rfl
    · intro n hn
      simp at hn
      subst hn
      exact ⟨ht1, ht2⟩

/-- The markup round trip of a sibling list, given that of its nodes. -/
theorem markup_reads_list (is_xml : Bool) : ∀ (cs : List Node) (prev : Bool),
    markup_rt_list is_xml prev cs = true →
    (∀ c ∈ cs, c.type ≠ .TEXT → c.type ≠ .WHITESPACE → MarkupNodeReads is_xml c) →
    ∀ (L : Nat) (C : Str) (its : List Item) (R : Str), MarkupReads is_xml true C its R →
      MarkupReads is_xml prev (MarkupFormatter.format_children is_xml cs L ++ C)
        ((items_list cs).map Item.norm ++ its) R := by
  intro cs
  induction cs with
  | nil =>
    intro prev _ _ L C its R h
    simpa [MarkupFormatter.format_children, items_list] using markup_reads_mono h
  | cons c cs ih =>
    intro prev hcls hnodes L C its R hC
    have hnodes' : ∀ d ∈ cs, d.type ≠ .TEXT → d.type ≠ .WHITESPACE → MarkupNodeReads is_xml d :=
      fun d hd => hnodes d (by simp [hd])
    by_cases hT : c.type = .TEXT
    · cases c with
      | mk ty tag attrs content children flag =>
        simp only [Node.type] at hT
        subst hT
        simp only [markup_rt_list, markup_rt, Node.type, Bool.and_eq_true, Bool.not_eq_true',
          markup_text_rt] at hcls
        obtain ⟨⟨hlt, hne⟩, hprev, hrest⟩ := hcls
        have IH := ih true hrest hnodes' L C its R hC
        intro w hw hb
        have hbw : Blank w := hb hprev
        have hltc : '<' ∉ trim content := by
          intro h
          have := (trim_sublist content).subset h
          simp at hlt
          exact hlt this
        have hw2 : '<' ∉ (w ++ get_indent L ++ trim content ++ ['\n']) := by
          intro h
          simp only [List.mem_append, List.mem_singleton] at h
          rcases h with ((h | h) | h) | h
          · exact hw h
          · exact not_lt_of_blank (blank_indent L) h
          · exact hltc h
          · exact absurd h (by decide)
        obtain ⟨ns, hns, hitems, hc2⟩ := IH _ hw2 (fun e => Bool.noConfusion e)
        refine ⟨ns, ?_, ?_, hc2⟩
        · rw [MarkupFormatter.format_children, MarkupFormatter.format]
          simp only [MarkupFormatter.format_node]
          simpa [List.append_assoc] using hns
        · rw [hitems, run_items_append_blank _ _ blank_newline,
            run_items_blank_append _ _ (blank_append hbw (blank_indent L)), run_items_blank w hbw]
          have : run_items (trim content) = [Item.text (trim content)] := by
            simp only [run_items, trim_idempotent, hne]
            rfl
          rw [this]
          simp [items_list, Node.items, Item.norm]
    · by_cases hW : c.type = .WHITESPACE
      · cases c with
        | mk ty tag attrs content children flag =>
          simp only [Node.type] at hW
          subst hW
          simp only [markup_rt_list, markup_rt, Node.type, Bool.true_and] at hcls
          have IH := ih prev hcls hnodes' L C its R hC
          intro w hw hb
          have hws := blank_format_whitespace content
          have hw2 : '<' ∉ (w ++ format_whitespace content) := by
            intro h
            rcases List.mem_append.mp h with h | h
            · exact hw h
            · exact not_lt_of_blank hws h
          obtain ⟨ns, hns, hitems, hc2⟩ := IH _ hw2 (fun e => blank_append (hb e) hws)
          refine ⟨ns, ?_, ?_, hc2⟩
          · rw [MarkupFormatter.format_children, MarkupFormatter.format]
            simp only [MarkupFormatter.format_node]
            simpa [List.append_assoc] using hns
          · rw [hitems, run_items_append_blank _ _ hws]
            simp [items_list, Node.items]
      · rw [markup_rt_list_cons_other is_xml prev c cs hT hW, Bool.and_eq_true] at hcls
        exact markup_reads_cons_other is_xml prev c cs L C its R
          (hnodes c (by simp) hT hW) (ih false hcls.2 hnodes' L C its R hC)

/-! ## Lemmas: occurrences of a terminator in a padded text -/

theorem infix_strip_left (pat a X : Str) (hp : pat ≠ []) (ha : ∀ c ∈ a, c ∉ pat)
    (h : pat <:+: a ++ X) : pat <:+: X := by
  induction a with
  | nil => simpa using h
  | cons c a ih =>
    rcases List.infix_cons_iff.mp h with h | h
    · exfalso
      cases pat with
      | nil => exact hp rfl
      | cons p0 pt =>
        have : p0 = c := by
          obtain ⟨t, ht⟩ := h
          simp only [List.cons_append, List.cons.injEq] at ht
          exact ht.1
        exact ha c (by simp) (by simp [this])
    · exact ih (fun d hd => ha d (by simp [hd])) h

theorem infix_strip_right (pat X b : Str) (hp : pat ≠ []) (hb : ∀ c ∈ b, c ∉ pat)
    (h : pat <:+: X ++ b) : pat <:+: X := by
  have h' : pat.reverse <:+: b.reverse ++ X.reverse := by
    rw [← List.reverse_append]
    exact List.reverse_infix.mpr h
  have := infix_strip_left pat.reverse b.reverse X.reverse (by simpa using hp)
    (fun c hc hc' => hb c (List.mem_reverse.mp hc) (List.mem_reverse.mp hc')) h'
  exact List.reverse_infix.mp this

theorem trim_inside (s : Str) : trim s <:+: s := by
  rw [trim_eq_rdropWhile]
  exact (List.rdropWhile_prefix _ _).isInfix.trans (List.dropWhile_suffix _).isInfix

theorem occurs_in_false {pat s : Str} (h : (!occurs_in pat s) = true) : ¬ pat <:+: s := by
  simpa [occurs_in] using h

theorem not_occurs_in {pat s : Str} (h : ¬ pat <:+: s) : (!occurs_in pat s) = true := by
  simpa [occurs_in] using h

theorem not_prefix_of_bool {p s : Str} (h : (!p.isPrefixOf s) = true) : ¬ p <+: s := by
  intro hp
  rw [← List.isPrefixOf_iff_prefix] at hp
  rw [hp] at h
  exact Bool.noConfusion h

theorem blank_not_mem {w pat : Str} (hw : Blank w) (hp : ∀ c ∈ pat, is_trim_char c = false) :
    ∀ c ∈ w, c ∉ pat := by
  intro c hc hcp
  have := hw c hc
  rw [hp c hcp] at this
  exact Bool.noConfusion this

theorem php_out_content_pad (p : Str) :
    ∃ a b, Blank a ∧ Blank b ∧ php_out_content p = a ++ p ++ b := by
  rw [php_out_content_eq]
  by_cases h1 : p.head? = some '\n'
  · simp only [h1, if_true]
    split
    · exact ⟨[], [], blank_nil, blank_nil, by simp⟩
    · exact ⟨[], ['\n'], blank_nil, blank_newline, by simp⟩
  · simp only [h1, if_false]
    split
    · exact ⟨['\n'], [], blank_newline, blank_nil, by simp⟩
    · exact ⟨['\n'], ['\n'], blank_newline, blank_newline, by simp⟩

/-! ## Lemmas: the markup round trip of comments and processing instructions -/

theorem markup_node_reads_comment (is_xml : Bool) (tag : Str) (attrs : List Attribute)
    (content : Str) (children : List Node) (flag : Bool)
    (h : markup_rt is_xml (.mk .COMMENT tag attrs content children flag) = true) :
    MarkupNodeReads is_xml (.mk .COMMENT tag attrs content children flag) := by
  simp only [markup_rt] at h
  have hno := occurs_in_false h
  have hno' : ¬ "-->".toList <:+: trim content := fun hi => hno (hi.trans (trim_inside content))
  intro L
  refine ⟨"!-- ".toList ++ trim content ++ " -->".toList, ?_, ?_⟩
  · rw [MarkupFormatter.format]
    simp [MarkupFormatter.format_node, String.toList]
  · intro REST more R hmore
    have hbody : ¬ "-->".toList <:+: ' ' :: (trim content ++ [' ']) := by
      intro hi
      have h1 := infix_strip_left "-->".toList [' '] _ (by decide) (by decide) hi
      exact hno' (infix_strip_right "-->".toList _ [' '] (by decide) (by decide) h1)
    have := markup_parses_comment_body (' ' :: (trim content ++ [' '])) ('\n' :: REST) more R
      hbody (by simp [String.toList]) (by simp [String.toList]) hmore
    rw [trim_pad] at this
    refine ⟨Node.leaf .COMMENT (trim content), ?_, ?_, ?_, ?_, ?_⟩
    · simpa [String.toList, List.append_assoc] using this
    · simp [Node.items, Node.leaf]
    · simp only [markup_rt, Node.leaf]
      exact not_occurs_in hno'
    · simp [Node.leaf, Node.type]
    · simp [Node.leaf, Node.type]

theorem markup_node_reads_comment_block (is_xml : Bool) (tag : Str) (attrs : List Attribute)
    (content : Str) (children : List Node) (flag : Bool)
    (h : markup_rt is_xml (.mk .COMMENT_BLOCK tag attrs content children flag) = true) :
    MarkupNodeReads is_xml (.mk .COMMENT_BLOCK tag attrs content children flag) := by
  simp only [markup_rt, Bool.and_eq_true] at h
  obtain ⟨⟨h0, h1⟩, h2⟩ := h
  have hno := occurs_in_false h0
  have hno' : ¬ "-->".toList <:+: trim content := fun hi => hno (hi.trans (trim_inside content))
  intro L
  refine ⟨"!--".toList ++ content ++ "-->".toList, ?_, ?_⟩
  · rw [MarkupFormatter.format]
    simp [MarkupFormatter.format_node, String.toList]
  · intro REST more R hmore
    have := markup_parses_comment_body content ('\n' :: REST) more R hno
      (not_prefix_of_bool h1) (not_prefix_of_bool h2) hmore
    refine ⟨Node.leaf .COMMENT (trim content), ?_, ?_, ?_, ?_, ?_⟩
    · simpa [String.toList, List.append_assoc] using this
    · simp [Node.items, Node.leaf]
    · simp only [markup_rt, Node.leaf]
      exact not_occurs_in hno'
    · simp [Node.leaf, Node.type]
    · simp [Node.leaf, Node.type]

theorem markup_node_reads_import (is_xml : Bool) (tag : Str) (attrs : List Attribute)
    (content : Str) (children : List Node) (flag : Bool)
    (h : markup_rt is_xml (.mk .IMPORT tag attrs content children flag) = true) :
    MarkupNodeReads is_xml (.mk .IMPORT tag attrs content children flag) := by
  simp only [markup_rt] at h
  have hno := occurs_in_false h
  intro L
  refine ⟨"?import ".toList ++ content ++ "?>".toList, ?_, ?_⟩
  · rw [MarkupFormatter.format]
    simp [MarkupFormatter.format_node, String.toList]
  · intro REST more R hmore
    have hX : ¬ "?>".toList <:+: "import ".toList ++ content := fun hi =>
      hno (infix_strip_left "?>".toList "import ".toList content (by decide) (by decide) hi)
    have := markup_parses_pi_body ("import ".toList ++ content) ('\n' :: REST) more R hX
      (by simp [String.toList]) hmore
    have hnode : markup_pi_node ("import ".toList ++ content)
        = .mk .IMPORT [] [] content [] false := by
      simp [markup_pi_node, String.toList]
    rw [hnode] at this
    refine ⟨.mk .IMPORT [] [] content [] false, ?_, ?_, ?_, ?_, ?_⟩
    · simpa [String.toList, List.append_assoc] using this
    · simp [Node.items]
    · simp only [markup_rt]
      exact h
    · simp [Node.type]
    · simp [Node.type]

theorem markup_node_reads_pi (is_xml : Bool) (tag : Str) (attrs : List Attribute)
    (content : Str) (children : List Node) (flag : Bool)
    (h : markup_rt is_xml (.mk .PI tag attrs content children flag) = true) :
    MarkupNodeReads is_xml (.mk .PI tag attrs content children flag) := by
  simp only [markup_rt, Bool.and_eq_true, Bool.or_eq_true, beq_iff_eq] at h
  obtain ⟨htag, h0⟩ := h
  have hno := occurs_in_false h0
  intro L
  rcases htag with rfl | rfl
  · obtain ⟨a, b, ha, hb, hpad⟩ := php_out_content_pad content
    have hpat : ∀ c ∈ "?>".toList, is_trim_char c = false := by decide
    have hno2 : ¬ "?>".toList <:+: php_out_content content ++ get_indent L := by
      intro hi
      rw [hpad] at hi
      have h1 := infix_strip_right _ _ _ (by decide) (blank_not_mem (blank_indent L) hpat) hi
      have h2 := infix_strip_right _ _ _ (by decide) (blank_not_mem hb hpat) h1
      exact hno (infix_strip_left _ _ _ (by decide) (blank_not_mem ha hpat) h2)
    refine ⟨"?php".toList ++ php_out_content content ++ get_indent L ++ "?>".toList, ?_, ?_⟩
    · rw [MarkupFormatter.format]
      simp [MarkupFormatter.format_node, String.toList]
    · intro REST more R hmore
      have hX : ¬ "?>".toList <:+: "php".toList ++ (php_out_content content ++ get_indent L) :=
        fun hi => hno2 (infix_strip_left "?>".toList "php".toList _ (by decide) (by decide) hi)
      have := markup_parses_pi_body ("php".toList ++ (php_out_content content ++ get_indent L))
        ('\n' :: REST) more R hX (by simp [String.toList]) hmore
      have hnode : markup_pi_node ("php".toList ++ (php_out_content content ++ get_indent L))
          = .mk .PI "php".toList [] (php_out_content content ++ get_indent L) [] false := by
        simp [markup_pi_node, String.toList]
      rw [hnode] at this
      refine ⟨.mk .PI "php".toList [] (php_out_content content ++ get_indent L) [] false,
        ?_, ?_, ?_, ?_, ?_⟩
      · simpa [String.toList, List.append_assoc] using this
      · simp [Node.items]
      · simp only [markup_rt, Bool.and_eq_true, Bool.or_eq_true, beq_iff_eq]
        exact ⟨Or.inl trivial, not_occurs_in hno2⟩
      · simp [Node.type]
      · simp [Node.type]
  · obtain ⟨k1, k2, k3, k4⟩ := xml_prefix_ok content hno
    refine ⟨"?xml ".toList ++ content ++ "?>".toList, ?_, ?_⟩
    · rw [MarkupFormatter.format]
      simp [MarkupFormatter.format_node, String.toList]
    · intro REST more R hmore
      have := markup_parses_pi_body ("xml ".toList ++ content) ('\n' :: REST) more R k1 k2 hmore
      rw [markup_pi_node_generic _ k3 k4] at this
      refine ⟨.mk .PI "xml".toList [] ("xml ".toList ++ content) [] false, ?_, ?_, ?_, ?_, ?_⟩
      · simpa [String.toList, List.append_assoc] using this
      · simp [Node.items]
      · simp only [markup_rt, Bool.and_eq_true, Bool.or_eq_true, beq_iff_eq]
        exact ⟨Or.inr trivial, not_occurs_in k1⟩
      · simp [Node.type]
      · simp [Node.type]

/-! ## Lemmas: the markup parser on a rendered tag -/

theorem stops_tag_attrs (attrs : List Attribute) (S : Str) (hS : StopsTag S) :
    StopsTag (markup_attrs attrs ++ S) := by
  cases attrs with
  | nil => simpa [markup_attrs] using hS
  | cons a as =>
    exact ⟨a.key ++ '=' :: '\"' :: (a.value ++ '\"' :: (markup_attrs as ++ S)),
      Or.inl (by simp [markup_attrs, String.toList])⟩

theorem tag_start_facts (tag S : Str) (hid : ∀ c ∈ tag, is_ident_part c = true)
    (hS : StopsTag S) :
    "<!--".toList.isPrefixOf ('<' :: (tag ++ S)) = false ∧
    "<?".toList.isPrefixOf ('<' :: (tag ++ S)) = false ∧
    (1 < ('<' :: (tag ++ S)).length && peek (tag ++ S) == '/') = false ∧
    (tag ++ S).takeWhile is_ident_part = tag ∧ (tag ++ S).dropWhile is_ident_part = S := by
  have hSI : StopsIdent S := by
    obtain ⟨r, rfl | rfl⟩ := hS
    · exact stops_space r
    · exact stops_gt r
  have hhead : ∃ a q, tag ++ S = a :: q ∧ a ≠ '!' ∧ a ≠ '?' ∧ a ≠ '/' := by
    cases tag with
    | nil =>
      obtain ⟨r, rfl | rfl⟩ := hS
      · exact ⟨' ', r, rfl, by decide, by decide, by decide⟩
      · exact ⟨'>', r, rfl, by decide, by decide, by decide⟩
    | cons a t =>
      have ha : is_ident_part a = true := hid a (by simp)
      exact ⟨a, t ++ S, rfl, ne_of_is_ident_part ha (by decide),
        ne_of_is_ident_part ha (by decide), ne_of_is_ident_part ha (by decide)⟩
  obtain ⟨a, q, hq, h1, h2, h3⟩ := hhead
  refine ⟨?_, ?_, ?_, takeWhile_ident_stops tag S hid hSI, dropWhile_ident_stops tag S hid hSI⟩
  · rw [hq]
    simp [String.toList, List.isPrefixOf, Ne.symm h1]
  · rw [hq]
    simp [String.toList, List.isPrefixOf, Ne.symm h2]
  · rw [hq]
    simp [peek, h3]

/-- The rendered element `<tag attrs>`, a body, and the closing tag, for a tag that is
not void: the node has the children read from the body. -/
theorem markup_parses_open_rendered (tag : Str) (attrs : List Attribute) (B REST : Str)
    (children more : List Node) (R : Str)
    (hid : ∀ c ∈ tag, is_ident_part c = true) (hvoid : tag ∉ SELF_CLOSING_TAGS)
    (hattrs : attrs.all markup_attr_ok = true)
    (hB : MarkupParses (B ++ '<' :: '/' :: (tag ++ '>' :: '\n' :: REST)) children
      ('<' :: '/' :: (tag ++ '>' :: '\n' :: REST)))
    (hmore : MarkupParses ('\n' :: REST) more R) :
    MarkupParses
      ('<' :: (tag ++ (markup_attrs attrs ++ '>' :: (B ++ '<' :: '/' :: (tag ++ '>' :: '\n' :: REST)))))
      (.mk .ELEMENT tag (with_sep attrs) [] children children.isEmpty :: more) R := by
  obtain ⟨hc, hp, hs, htw, hdw⟩ := tag_start_facts tag
    (markup_attrs attrs ++ '>' :: (B ++ '<' :: '/' :: (tag ++ '>' :: '\n' :: REST))) hid
    (stops_tag_attrs attrs _ ⟨_, Or.inr rfl⟩)
  have hA := markup_attrs_parse_rendered attrs
    ('>' :: (B ++ '<' :: '/' :: (tag ++ '>' :: '\n' :: REST))) _ hattrs
    (markup_attrs_parse_stop_gt _)
  have := markup_parses_tag_open _ (with_sep attrs)
    ('>' :: (B ++ '<' :: '/' :: (tag ++ '>' :: '\n' :: REST)))
    ('<' :: '/' :: (tag ++ '>' :: '\n' :: REST)) R children more hc hp hs
    (by rw [hdw]; exact hA)
    (by simp only [List.length_cons, List.length_append]; omega)
    (by simp [peek])
    (by rw [htw]; simpa using hvoid)
    (by simpa [peek, advance] using hB)
    (by simp only [List.length_cons, List.length_append]; omega)
    (by rw [htw, consume_closing_tag_match _ _ hid]; exact hmore)
  rw [htw] at this
  exact this

/-- The rendered element `<tag attrs />`. -/
theorem markup_parses_self_closed_rendered (tag : Str) (attrs : List Attribute) (REST : Str)
    (more : List Node) (R : Str)
    (hid : ∀ c ∈ tag, is_ident_part c = true) (hattrs : attrs.all markup_attr_ok = true)
    (hmore : MarkupParses ('\n' :: REST) more R) :
    MarkupParses ('<' :: (tag ++ (markup_attrs attrs ++ ' ' :: '/' :: '>' :: '\n' :: REST)))
      (.mk .ELEMENT tag (with_sep attrs) [] [] false :: more) R := by
  obtain ⟨hc, hp, hs, htw, hdw⟩ := tag_start_facts tag
    (markup_attrs attrs ++ ' ' :: '/' :: '>' :: '\n' :: REST) hid
    (stops_tag_attrs attrs _ ⟨_, Or.inl rfl⟩)
  have hA := markup_attrs_parse_rendered attrs (' ' :: '/' :: '>' :: '\n' :: REST) _ hattrs
    (markup_attrs_parse_stop_self_close ('>' :: '\n' :: REST))
  have := markup_parses_tag_leaf _ (with_sep attrs) ('/' :: '>' :: '\n' :: REST) R more hc hp hs
    (by rw [hdw]; exact hA)
    (by simp only [List.length_cons, List.length_append]; omega)
    (by simp [peek])
    (by simpa [peek, advance] using hmore)
  rw [htw] at this
  exact this

/-- The rendered void element `<tag attrs>`. -/
theorem markup_parses_void_rendered (tag : Str) (attrs : List Attribute) (REST : Str)
    (more : List Node) (R : Str)
    (hid : ∀ c ∈ tag, is_ident_part c = true) (hvoid : tag ∈ SELF_CLOSING_TAGS)
    (hattrs : attrs.all markup_attr_ok = true)
    (hmore : MarkupParses ('\n' :: REST) more R) :
    MarkupParses ('<' :: (tag ++ (markup_attrs attrs ++ '>' :: '\n' :: REST)))
      (.mk .ELEMENT tag (with_sep attrs) [] [] false :: more) R := by
  obtain ⟨hc, hp, hs, htw, hdw⟩ := tag_start_facts tag
    (markup_attrs attrs ++ '>' :: '\n' :: REST) hid
    (stops_tag_attrs attrs _ ⟨_, Or.inr rfl⟩)
  have hA := markup_attrs_parse_rendered attrs ('>' :: '\n' :: REST) _ hattrs
    (markup_attrs_parse_stop_gt _)
  have := markup_parses_tag_leaf _ (with_sep attrs) ('>' :: '\n' :: REST) R more hc hp hs
    (by rw [hdw]; exact hA)
    (by simp only [List.length_cons, List.length_append]; omega)
    (by rw [htw]; simpa [peek] using hvoid)
    (by simpa [peek, advance] using hmore)
  rw [htw] at this
  exact this

theorem with_sep_attr_ok {attrs : List Attribute} (h : attrs.all markup_attr_ok = true) :
    (with_sep attrs).all markup_attr_ok = true := by
  simp only [List.all_eq_true, with_sep, List.mem_map] at h ⊢
  rintro x ⟨a, ha, rfl⟩
  have := h a ha
  simpa [markup_attr_ok] using this

/-! ## Lemmas: the markup round trip of an element -/

theorem items_norm_with_sep (attrs : List Attribute) :
    ((with_sep attrs).map (fun a => Item.attr a.key a.value)).map Item.norm
      = (attrs.map (fun a => Item.attr a.key a.value)).map Item.norm := by
  rw [items_with_sep]

/-- An element rendered with a closing tag: the node read back has the children read
from the text between the tags. -/
theorem markup_element_reads (is_xml : Bool) (tag : Str) (attrs : List Attribute)
    (content : Str) (children : List Node) (flag : Bool)
    (hid : ∀ c ∈ tag, is_ident_part c = true) (hroot : tag ≠ ROOT)
    (hvoid : tag ∉ SELF_CLOSING_TAGS) (hattrs : attrs.all markup_attr_ok = true)
    (hshape : ∀ L, ∃ B,
      MarkupFormatter.format is_xml (.mk .ELEMENT tag attrs content children flag) L
        = get_indent L ++ '<' :: (tag ++ (markup_attrs attrs ++
            '>' :: (B ++ '<' :: '/' :: (tag ++ ['>', '\n'])))) ∧
      ∀ r, ∃ children', MarkupParses (B ++ '<' :: '/' :: r) children' ('<' :: '/' :: r) ∧
        (items_list children').map Item.norm = (items_list children).map Item.norm ∧
        markup_rt_list is_xml false children' = true) :
    MarkupNodeReads is_xml (.mk .ELEMENT tag attrs content children flag) := by
  intro L
  obtain ⟨B, hfmt, hB⟩ := hshape L
  refine ⟨tag ++ (markup_attrs attrs ++ '>' :: (B ++ '<' :: '/' :: (tag ++ ['>']))), ?_, ?_⟩
  · rw [hfmt]
    simp [List.append_assoc]
  · intro REST more R hmore
    obtain ⟨children', hp, hi, hcls⟩ := hB (tag ++ '>' :: '\n' :: REST)
    have := markup_parses_open_rendered tag attrs B REST children' more R hid hvoid hattrs hp hmore
    refine ⟨.mk .ELEMENT tag (with_sep attrs) [] children' children'.isEmpty, ?_, ?_, ?_, ?_, ?_⟩
    · simpa [List.append_assoc] using this
    · simp only [Node.items, List.map_cons, List.map_append, hi, items_norm_with_sep]
    · have hv : SELF_CLOSING_TAGS.contains tag = false := by simpa using hvoid
      simp only [markup_rt, hv, Bool.false_eq_true, if_false, Bool.and_eq_true, hcls,
        with_sep_attr_ok hattrs, and_true, bne_iff_ne, ne_eq, List.all_eq_true]
      exact ⟨hid, hroot⟩
    · simp [Node.type]
    · simp [Node.type]

/-- An element rendered without a closing tag: self-closed in strict mode, or void in
loose mode. -/
theorem markup_leaf_reads (is_xml : Bool) (tag : Str) (attrs : List Attribute)
    (content : Str) (flag : Bool)
    (hid : ∀ c ∈ tag, is_ident_part c = true) (hroot : tag ≠ ROOT)
    (hattrs : attrs.all markup_attr_ok = true)
    (hmode : (is_xml = true ∧ flag = false) ∨ (is_xml = false ∧ tag ∈ SELF_CLOSING_TAGS)) :
    MarkupNodeReads is_xml (.mk .ELEMENT tag attrs content [] flag) := by
  intro L
  have hcls : markup_rt is_xml (.mk .ELEMENT tag (with_sep attrs) [] [] false) = true := by
    simp only [markup_rt, Bool.and_eq_true, with_sep_attr_ok hattrs, and_true, bne_iff_ne,
      ne_eq, List.all_eq_true]
    refine ⟨⟨hid, hroot⟩, ?_⟩
    split <;> simp [markup_rt_list]
  rcases hmode with ⟨rfl, rfl⟩ | ⟨rfl, hvoid⟩
  · refine ⟨tag ++ (markup_attrs attrs ++ " />".toList), ?_, ?_⟩
    · rw [MarkupFormatter.format]
      simp [MarkupFormatter.format_node, hroot, String.toList]
    · intro REST more R hmore
      have := markup_parses_self_closed_rendered tag attrs REST more R hid hattrs hmore
      refine ⟨.mk .ELEMENT tag (with_sep attrs) [] [] false, ?_, ?_, hcls, ?_, ?_⟩
      · simpa [String.toList, List.append_assoc] using this
      · simp only [Node.items, List.map_cons, List.map_append, items_norm_with_sep]
      · simp [Node.type]
      · simp [Node.type]
  · refine ⟨tag ++ (markup_attrs attrs ++ ">".toList), ?_, ?_⟩
    · rw [MarkupFormatter.format]
      simp [MarkupFormatter.format_node, hroot, String.toList, hvoid]
    · intro REST more R hmore
      have := markup_parses_void_rendered tag attrs REST more R hid hvoid hattrs hmore
      refine ⟨.mk .ELEMENT tag (with_sep attrs) [] [] false, ?_, ?_, hcls, ?_, ?_⟩
      · simpa [String.toList, List.append_assoc] using this
      · simp only [Node.items, List.map_cons, List.map_append, items_norm_with_sep]
      · simp [Node.type]
      · simp [Node.type]

/-- A text run between the tags of an element is read as the nodes of the run. -/
theorem markup_run_body (is_xml : Bool) (u : Str) (hu : '<' ∉ u) (r : Str) :
    ∃ children', MarkupParses (u ++ '<' :: '/' :: r) children' ('<' :: '/' :: r) ∧
      (items_list children').map Item.norm = run_items u ∧
      markup_rt_list is_xml false children' = true := by
  obtain ⟨h1, h2, _⟩ := markup_text_nodes_reads is_xml u hu
  refine ⟨markup_text_nodes u, ?_, h1, h2⟩
  simpa using markup_parses_prefix u ('/' :: r) [] _ hu (markup_parses_closing r)

theorem erase_trailing_blanks_pad (t : Str) :
    ∃ b, Blank b ∧ t = erase_trailing_blanks t ++ b := by
  refine ⟨(t.reverse.takeWhile (fun c => c == ' ' || c == '\t')).reverse, ?_, ?_⟩
  · intro c hc
    have := List.mem_takeWhile_imp (List.mem_reverse.mp hc)
    simp only [Bool.or_eq_true, beq_iff_eq] at this
    rcases this with rfl | rfl <;> decide
  · unfold erase_trailing_blanks
    rw [← List.reverse_append, List.takeWhile_append_dropWhile, List.reverse_reverse]

/-! ## Lemmas: the markup round trip of a tree -/

theorem markup_rt_list_mem (is_xml : Bool) : ∀ (l : List Node) (prev : Bool),
    markup_rt_list is_xml prev l = true → ∀ x ∈ l, markup_rt is_xml x = true := by
  intro l
  induction l with
  | nil => intro _ _ x hx; simp at hx
  | cons y ys ih =>
    intro prev h x hx
    rw [markup_rt_list, Bool.and_eq_true] at h
    rcases List.mem_cons.mp hx with rfl | hx'
    · exact h.1
    · obtain ⟨_, h2⟩ := h
      split at h2
      · rw [Bool.and_eq_true] at h2
        exact ih _ h2.2 x hx'
      · exact ih _ h2 x hx'
      · exact ih _ h2 x hx'

/-- The element with a single Text child: the text between the tags is a run without
`<` whose trimmed payload is that of the child. -/
theorem markup_text_child_shape (is_xml : Bool) (tag : Str) (attrs : List Attribute)
    (content : Str) (flag : Bool) (ctag : Str) (cattrs : List Attribute) (t : Str)
    (cchildren : List Node) (cflag : Bool) (hroot : tag ≠ ROOT)
    (hvoid : tag ∉ SELF_CLOSING_TAGS) (ht : markup_text_rt t = true) (L : Nat) :
    ∃ B, MarkupFormatter.format is_xml
        (.mk .ELEMENT tag attrs content [.mk .TEXT ctag cattrs t cchildren cflag] flag) L
        = get_indent L ++ '<' :: (tag ++ (markup_attrs attrs ++
            '>' :: (B ++ '<' :: '/' :: (tag ++ ['>', '\n'])))) ∧
      '<' ∉ B ∧ run_items B = [Item.text (trim t)] := by
  simp only [markup_text_rt, Bool.and_eq_true, Bool.not_eq_true', List.contains_eq_any_beq,
    List.any_eq_false, beq_iff_eq, List.isEmpty_eq_false] at ht
  obtain ⟨hlt, hne⟩ := ht
  have hlt' : '<' ∉ t := fun hm => hlt _ hm rfl
  have hri : ∀ u, trim u = trim t → run_items u = [Item.text (trim t)] := by
    intro u hu
    simp only [run_items, hu]
    simp [hne]
  by_cases hnl : has_newline t = true
  · obtain ⟨b, hb, htb⟩ := erase_trailing_blanks_pad t
    have ht1 : trim (erase_trailing_blanks t) = trim t := by
      conv_rhs => rw [htb]
      rw [trim_append_blank _ _ hb]
    have hlt1 : '<' ∉ erase_trailing_blanks t := by
      intro hm
      apply hlt'
      rw [htb]
      exact List.mem_append_left _ hm
    refine ⟨(if (!(!(erase_trailing_blanks t).isEmpty
          && (erase_trailing_blanks t).head? == some '\n')) then ['\n'] else [])
        ++ erase_trailing_blanks t
        ++ (if (!(erase_trailing_blanks t).isEmpty
          && (erase_trailing_blanks t).getLast? != some '\n') then ['\n'] else [])
        ++ get_indent L, ?_, ?_, ?_⟩
    · rw [MarkupFormatter.format]
      cases is_xml <;>
        simp [MarkupFormatter.format_node, hroot, hvoid, Node.type, Node.content, hnl,
          String.toList, List.append_assoc]
    · intro hm
      simp only [List.mem_append] at hm
      rcases hm with ((hm | hm) | hm) | hm
      · split at hm
        · simp at hm
        · simp at hm
      · exact hlt1 hm
      · split at hm
        · simp at hm
        · simp at hm
      · exact not_lt_of_blank (blank_indent L) hm
    · apply hri
      have hpre : Blank (if (!(!(erase_trailing_blanks t).isEmpty
          && (erase_trailing_blanks t).head? == some '\n')) then ['\n'] else []) := by
        split
        · exact blank_newline
        · exact blank_nil
      have hpost : Blank (if (!(erase_trailing_blanks t).isEmpty
          && (erase_trailing_blanks t).getLast? != some '\n') then ['\n'] else []) := by
        split
        · exact blank_newline
        · exact blank_nil
      rw [trim_append_blank _ _ (blank_indent L), trim_append_blank _ _ hpost,
        trim_blank_append _ _ hpre, ht1]
  · refine ⟨t, ?_, hlt', hri t rfl⟩
    rw [MarkupFormatter.format]
    have hnl' : has_newline t = false := by simpa using hnl
    have hne' : (trim t).isEmpty = false := by simpa using hne
    cases is_xml <;>
      simp [MarkupFormatter.format_node, hroot, hvoid, Node.type, Node.content, hnl', hne',
        String.toList, List.append_assoc]

/-- Every node of the class that is rendered as a tag, a comment or a processing
instruction is read back as one node of the class with the same items. -/
theorem markup_node_reads (is_xml : Bool) (n : Nat) :
    ∀ node : Node, sizeOf node ≤ n → markup_rt is_xml node = true →
      node.type ≠ .TEXT → node.type ≠ .WHITESPACE → MarkupNodeReads is_xml node := by
  induction n with
  | zero =>
    intro node hsz
    obtain ⟨ty, tg, at', ct, ch, fl⟩ := node
    simp at hsz
  | succ n ih =>
    intro node hsz hrt hT hW
    obtain ⟨ty, tag, attrs, content, children, flag⟩ := node
    have hchild : ∀ c ∈ children, sizeOf c ≤ n := by
      intro c hc
      have h1 := List.sizeOf_lt_of_mem hc
      simp only [Node.mk.sizeOf_spec] at hsz
      omega
    cases ty with
    | TEXT => exact absurd rfl hT
    | WHITESPACE => exact absurd rfl hW
    | COMMENT => exact markup_node_reads_comment is_xml tag attrs content children flag hrt
    | COMMENT_BLOCK =>
      exact markup_node_reads_comment_block is_xml tag attrs content children flag hrt
    | IMPORT => exact markup_node_reads_import is_xml tag attrs content children flag hrt
    | PI => exact markup_node_reads_pi is_xml tag attrs content children flag hrt
    | ELEMENT =>
      simp only [markup_rt, Bool.and_eq_true, List.all_eq_true, bne_iff_ne, ne_eq] at hrt
      obtain ⟨⟨⟨hid, hroot⟩, hattrs⟩, hch⟩ := hrt
      have hattrs' : attrs.all markup_attr_ok = true := by
        simpa [List.all_eq_true] using hattrs
      by_cases hvoid : tag ∈ SELF_CLOSING_TAGS
      · have hv : SELF_CLOSING_TAGS.contains tag = true := by simpa using hvoid
        simp only [hv, if_true, Bool.and_eq_true, Bool.not_eq_true', List.isEmpty_iff,
          Bool.and_eq_false_iff] at hch
        obtain ⟨rfl, hmode⟩ := hch
        apply markup_leaf_reads is_xml tag attrs content flag hid hroot hattrs'
        cases is_xml with
        | true =>
          rcases hmode with h | h
          · exact absurd h (by decide)
          · exact Or.inl ⟨rfl, h⟩
        | false => exact Or.inr ⟨rfl, hvoid⟩
      · have hv : SELF_CLOSING_TAGS.contains tag = false := by simpa using hvoid
        simp only [hv, Bool.false_eq_true, if_false] at hch
        by_cases hleaf : children = [] ∧ is_xml = true ∧ flag = false
        · obtain ⟨rfl, rfl, rfl⟩ := hleaf
          exact markup_leaf_reads true tag attrs content false hid hroot hattrs'
            (Or.inl ⟨rfl, rfl⟩)
        · apply markup_element_reads is_xml tag attrs content children flag hid hroot hvoid
            hattrs'
          intro L
          cases children with
          | nil =>
            refine ⟨[], ?_, ?_⟩
            · rw [MarkupFormatter.format]
              have hsc : (is_xml && !flag) = false := by
                cases is_xml with
                | false => rfl
                | true =>
                  cases flag with
                  | true => rfl
                  | false => exact absurd ⟨rfl, rfl, rfl⟩ hleaf
              cases is_xml <;> cases flag <;>
                simp_all [MarkupFormatter.format_node, String.toList, List.append_assoc]
            · intro r
              obtain ⟨ch', h1, h2, h3⟩ := markup_run_body is_xml [] (by simp) r
              refine ⟨ch', h1, ?_, h3⟩
              rw [h2]
              rfl
          | cons c cs =>
            by_cases hsingle : cs = [] ∧ c.type = .TEXT
            · obtain ⟨rfl, hcT⟩ := hsingle
              obtain ⟨cty, ctag, cattrs, t, cchildren, cflag⟩ := c
              simp only [Node.type] at hcT
              subst hcT
              have ht : markup_text_rt t = true := by
                have := markup_rt_list_mem is_xml _ _ hch _ (List.mem_singleton.mpr rfl)
                simpa [markup_rt] using this
              obtain ⟨B, hfmt, hB1, hB2⟩ := markup_text_child_shape is_xml tag attrs content flag
                ctag cattrs t cchildren cflag hroot hvoid ht L
              refine ⟨B, hfmt, ?_⟩
              intro r
              obtain ⟨ch', h1, h2, h3⟩ := markup_run_body is_xml B hB1 r
              refine ⟨ch', h1, ?_, h3⟩
              rw [h2, hB2]
              simp [items_list, Node.items, Item.norm]
            · refine ⟨'\n' :: (MarkupFormatter.format_children is_xml (c :: cs) (L + 1)
                ++ get_indent L), ?_, ?_⟩
              · rw [MarkupFormatter.format]
                have hcond : (cs.isEmpty && decide (c.type = NodeType.TEXT)) = false := by
                  cases hcs : cs.isEmpty with
                  | false => rfl
                  | true =>
                    have : cs = [] := List.isEmpty_iff.mp hcs
                    have hne : c.type ≠ .TEXT := fun h => hsingle ⟨this, h⟩
                    simp [hne]
                cases is_xml <;>
                  simp [MarkupFormatter.format_node, hroot, hvoid, hcond, String.toList,
                    List.append_assoc]
              · intro r
                have hnodes : ∀ d ∈ c :: cs, d.type ≠ .TEXT → d.type ≠ .WHITESPACE →
                    MarkupNodeReads is_xml d := fun d hd h1 h2 =>
                  ih d (hchild d hd) (markup_rt_list_mem is_xml _ _ hch d hd) h1 h2
                obtain ⟨ns, p1, p2, p3⟩ := markup_reads_list is_xml (c :: cs) false hch hnodes
                  (L + 1) (get_indent L ++ '<' :: '/' :: r) [] ('<' :: '/' :: r)
                  (markup_reads_closing is_xml L r) ['\n'] (by simp) (fun _ => blank_newline)
                refine ⟨ns, ?_, ?_, p3⟩
                · simpa [List.append_assoc] using p1
                · rw [p2, run_items_blank _ blank_newline]
                  simp

/-- A document whose top-level nodes are in the class of the markup round trip: rendering
it in markup and parsing the text gives a document in the class again, with the same
items up to the trimming of text payloads. -/
theorem markup_document_reads (is_xml : Bool) (cs : List Node)
    (h : markup_rt_list is_xml false cs = true) :
    ∃ cs', Parser.parse (MarkupFormatter.format is_xml (.mk .ELEMENT ROOT [] [] cs false) 0) false
        = some (.mk .ELEMENT ROOT [] [] cs' false) ∧
      (items_list cs').map Item.norm = (items_list cs).map Item.norm ∧
      markup_rt_list is_xml false cs' = true := by
  have hroot : MarkupFormatter.format is_xml (.mk .ELEMENT ROOT [] [] cs false) 0
      = MarkupFormatter.format_children is_xml cs 0 := by
    rw [MarkupFormatter.format]
    simp [MarkupFormatter.format_node]
  obtain ⟨ns, p1, p2, p3⟩ := markup_reads_list is_xml cs false h
    (fun d hd h1 h2 => markup_node_reads is_xml (sizeOf d) d (le_refl _)
      (markup_rt_list_mem is_xml _ _ h d hd) h1 h2)
    0 [] [] [] (markup_reads_eof is_xml) [] (by simp) (fun _ => blank_nil)
  refine ⟨ns, ?_, ?_, p3⟩
  · rw [hroot]
    simp only [List.nil_append, List.append_nil] at p1
    exact parse_markup_of_parses p1
  · rw [p2, run_items_blank _ blank_nil]
    simp

/-! ## Lemmas: whitespace in front of an EML node -/

/-- Whitespace in front of a node only adds its Whitespace node, if any, in front of
what is parsed from the node on. -/
theorem parse_eml_nodes_ws (fuel : Nat) (J : Str) (h : skip_whitespace J ≠ []) :
    parse_eml_nodes (fuel + 1) J
      = (parse_eml_nodes (fuel + 1) (skip_whitespace J)).map
          (fun ns => eml_ws_nodes (J.takeWhile isspace) ++ ns) := by
  have hJne : J ≠ [] := by
    rintro rfl
    exact h rfl
  rw [parse_eml_nodes, parse_eml_nodes]
  have h1 : (skip_whitespace J).isEmpty = false := by
    cases hq : skip_whitespace J with
    | nil => exact absurd hq h
    | cons _ _ => rfl
  have h2 : J.isEmpty = false := by
    cases J with
    | nil => exact absurd rfl hJne
    | cons _ _ => rfl
  have h3 : List.dropWhile isspace (skip_whitespace J) = skip_whitespace J := skip_whitespace_idem J
  have h4 : List.dropWhile isspace J = skip_whitespace J := rfl
  have h5 : eml_ws_nodes [] = [] := rfl
  simp only [h1, h2, h3, h4, takeWhile_isspace_skip, h5, Bool.false_eq_true, if_false,
    List.nil_append]
  generalize eml_ws_nodes (J.takeWhile isspace) = W
  generalize skip_whitespace J = r1
  repeat' split
  all_goals simp_all

/-! ## Lemmas: the EML round trip of a sibling list -/

theorem eml_parses_ws (J : Str) (ns : List Node) (h : skip_whitespace J ≠ [])
    (hp : EmlParses (skip_whitespace J) ns) :
    EmlParses J (eml_ws_nodes (J.takeWhile isspace) ++ ns) := by
  intro fuel hf
  obtain ⟨f, rfl⟩ := fuel_succ hf
  rw [parse_eml_nodes_ws f J h, hp (f + 1) (by
    have := (List.dropWhile_suffix isspace (l := J)).length_le
    unfold skip_whitespace
    omega)]
  rfl

theorem eml_rt_list_append (a b : List Node) :
    eml_rt_list (a ++ b) = (eml_rt_list a && eml_rt_list b) := by
  induction a with
  | nil => simp [eml_rt_list]
  | cons x xs ih => simp [eml_rt_list, ih, Bool.and_assoc]

theorem eml_ws_nodes_facts (ws : Str) :
    items_list (eml_ws_nodes ws) = [] ∧ eml_rt_list (eml_ws_nodes ws) = true := by
  unfold eml_ws_nodes
  split
  · simp [items_list, Node.items, Node.leaf, eml_rt_list, eml_rt]
  · simp [items_list, eml_rt_list]

theorem skip_whitespace_ws_append (w I : Str) (hw : ∀ c ∈ w, isspace c = true) :
    skip_whitespace (w ++ I) = skip_whitespace I := by
  unfold skip_whitespace
  exact List.dropWhile_append_of_pos hw

/-- Whitespace alone is read as no node or one Whitespace node. -/
theorem eml_reads_blank (C : Str) (hC : ∀ c ∈ C, isspace c = true) : EmlReads C [] false := by
  intro J hJ
  have hskip : skip_whitespace C = [] := List.dropWhile_eq_nil_iff.mpr hC
  rw [hskip] at hJ
  obtain ⟨h1, h2⟩ := eml_ws_nodes_facts (J.takeWhile isspace)
  refine ⟨eml_ws_nodes (J.takeWhile isspace), ?_, by rw [h1]; rfl, h2,
    fun e => Bool.noConfusion e⟩
  intro fuel hf
  obtain ⟨f, rfl⟩ := fuel_succ hf
  cases J with
  | nil => rfl
  | cons a J' =>
    rw [parse_eml_nodes]
    have hd : List.dropWhile isspace (a :: J') = [] := hJ
    simp [hd]

theorem eml_safe_blank (C : Str) (hC : ∀ c ∈ C, isspace c = true) : EmlSafe C := by
  have hskip : skip_whitespace C = [] := List.dropWhile_eq_nil_iff.mpr hC
  unfold EmlSafe
  rw [hskip]
  exact ⟨by decide, by decide⟩

theorem isspace_format_whitespace (content : Str) :
    ∀ c ∈ format_whitespace content, isspace c = true := by
  intro c hc
  unfold format_whitespace at hc
  simp only at hc
  split at hc
  · rw [List.eq_of_mem_replicate hc]; decide
  · simp at hc

/-- The EML round trip of a sibling list, given that of its nodes. -/
theorem eml_reads_list : ∀ (cs : List Node), eml_rt_list cs = true →
    (∀ c ∈ cs, c.type ≠ .WHITESPACE → EmlNodeReads c) →
    ∀ (L : Nat) (C : Str) (its : List Item) (b : Bool), EmlSafe C → EmlReads C its b →
      EmlSafe (EmlFormatter.format_children cs L ++ C) ∧
      EmlReads (EmlFormatter.format_children cs L ++ C)
        ((items_list cs).map Item.norm ++ its) (cs.any eml_opens || b) := by
  intro cs
  induction cs with
  | nil =>
    intro _ _ L C its b hS hR
    simpa [EmlFormatter.format_children, items_list] using And.intro hS hR
  | cons c cs ih =>
    intro hcls hnodes L C its b hS hR
    rw [eml_rt_list, Bool.and_eq_true] at hcls
    obtain ⟨IHS, IHR⟩ := ih hcls.2 (fun d hd => hnodes d (by simp [hd])) L C its b hS hR
    by_cases hW : c.type = .WHITESPACE
    · obtain ⟨ty, tag, attrs, content, children, flag⟩ := c
      simp only [Node.type] at hW
      subst hW
      have hfmt : EmlFormatter.format_children
          (Node.mk .WHITESPACE tag attrs content children flag :: cs) L ++ C
          = format_whitespace content ++ (EmlFormatter.format_children cs L ++ C) := by
        rw [EmlFormatter.format_children, EmlFormatter.format]
        simp [EmlFormatter.format_node]
      have hsk := skip_whitespace_ws_append (format_whitespace content)
        (EmlFormatter.format_children cs L ++ C) (isspace_format_whitespace content)
      rw [hfmt]
      refine ⟨?_, ?_⟩
      · unfold EmlSafe
        rw [hsk]
        exact IHS
      · intro J hJ
        rw [hsk] at hJ
        obtain ⟨ns, p1, p2, p3, p4⟩ := IHR J hJ
        refine ⟨ns, p1, ?_, p3, ?_⟩
        · rw [p2]
          simp [items_list, Node.items]
        · intro hb
          apply p4
          simpa [eml_opens, Node.type] using hb
    · obtain ⟨hbal, lead, a, X, hfmt, hlead, ha, ha1, ha2, hread⟩ := hnodes c (by simp) hW L
      have hfmt' : EmlFormatter.format_children (c :: cs) L ++ C
          = lead ++ (a :: (X ++ (EmlFormatter.format_children cs L ++ C))) := by
        rw [EmlFormatter.format_children, hfmt]
        simp [List.append_assoc]
      have hsk : skip_whitespace (EmlFormatter.format_children (c :: cs) L ++ C)
          = a :: (X ++ (EmlFormatter.format_children cs L ++ C)) := by
        rw [hfmt', skip_whitespace_ws_append _ _ hlead]
        exact skip_whitespace_of_not_space _ _ ha
      refine ⟨?_, ?_⟩
      · unfold EmlSafe
        rw [hsk]
        exact ⟨ha1, ha2⟩
      · intro J hJ
        rw [hsk] at hJ
        obtain ⟨ns, p1, p2, p3, p4⟩ := hread _ _ _ IHS IHR
        obtain ⟨w1, w2⟩ := eml_ws_nodes_facts (J.takeWhile isspace)
        refine ⟨eml_ws_nodes (J.takeWhile isspace) ++ ns, ?_, ?_, ?_, ?_⟩
        · apply eml_parses_ws J ns
          · rw [hJ]; simp
          · rw [hJ]; exact p1
        · rw [items_list_append, w1, List.nil_append, p2]
          simp [items_list]
        · rw [eml_rt_list_append, w2, p3]; rfl
        · intro hb
          rw [List.any_append, p4 (by simpa [Bool.or_assoc] using hb)]
          simp

/-! ## Lemmas: matching braces and trimming -/

theorem brace_scan_shift : ∀ (s : Str) (d e k : Nat), brace_scan d s = some e →
    brace_scan (d + k) s = some (e + k) := by
  intro s
  induction s with
  | nil =>
    intro d e k h
    simp only [brace_scan, Option.some.injEq] at h ⊢
    omega
  | cons c s ih =>
    intro d e k h
    rw [brace_scan] at h ⊢
    split
    · rename_i hc
      rw [if_pos hc] at h
      have := ih (d + 1) e k h
      rw [show d + k + 1 = d + 1 + k by omega]
      exact this
    · rename_i hc
      rw [if_neg hc] at h
      split
      · rename_i hc2
        rw [if_pos hc2] at h
        by_cases hd : d ≤ 1
        · rw [if_pos hd] at h
          exact absurd h (by simp)
        · rw [if_neg hd] at h
          rw [if_neg (by omega)]
          have := ih (d - 1) e k h
          rw [show d + k - 1 = d - 1 + k by omega]
          exact this
      · rename_i hc2
        rw [if_neg hc2] at h
        exact ih d e k h

theorem balanced_of_bool {s : Str} (h : brace_balanced s = true) : Balanced s := by
  intro d hd
  have h1 : brace_scan 1 s = some 1 := by simpa [brace_balanced] using h
  have := brace_scan_shift s 1 1 (d - 1) h1
  rw [show 1 + (d - 1) = d by omega] at this
  exact this

theorem bool_of_balanced {s : Str} (h : Balanced s) : brace_balanced s = true := by
  simp [brace_balanced, h 1 (le_refl 1)]

theorem blank_no_brace {w : Str} (hw : Blank w) : '\x7b' ∉ w ∧ '\x7d' ∉ w :=
  ⟨fun hm => absurd (hw _ hm) (by decide), fun hm => absurd (hw _ hm) (by decide)⟩

theorem brace_scan_no_brace (w : Str) (h1 : '\x7b' ∉ w) (h2 : '\x7d' ∉ w) (x : Str) (d : Nat) :
    brace_scan d (w ++ x) = brace_scan d x := by
  induction w with
  | nil => rfl
  | cons c w ih =>
    have hc1 : c ≠ '\x7b' := fun e => h1 (by simp [e])
    have hc2 : c ≠ '\x7d' := fun e => h2 (by simp [e])
    simp only [List.cons_append, brace_scan, beq_iff_eq, hc1, hc2, if_false]
    exact ih (fun e => h1 (by simp [e])) (fun e => h2 (by simp [e]))

theorem brace_scan_append_no_brace (x w : Str) (h1 : '\x7b' ∉ w) (h2 : '\x7d' ∉ w) (d : Nat) :
    brace_scan d (x ++ w) = brace_scan d x := by
  rw [brace_scan_append]
  cases h : brace_scan d x with
  | none => rfl
  | some e =>
    have := brace_scan_no_brace w h1 h2 [] e
    simp only [List.append_nil] at this
    simp [this, brace_scan]

theorem trim_decomp (s : Str) : ∃ a b, Blank a ∧ Blank b ∧ s = a ++ trim s ++ b := by
  refine ⟨s.takeWhile is_trim_char,
    (((s.dropWhile is_trim_char).reverse).takeWhile is_trim_char).reverse, ?_, ?_, ?_⟩
  · intro c hc
    exact List.mem_takeWhile_imp hc
  · intro c hc
    exact List.mem_takeWhile_imp (List.mem_reverse.mp hc)
  · have e : trim s ++ (((s.dropWhile is_trim_char).reverse).takeWhile is_trim_char).reverse
        = s.dropWhile is_trim_char := by
      unfold trim
      rw [← List.reverse_append, List.takeWhile_append_dropWhile, List.reverse_reverse]
    rw [List.append_assoc, e, List.takeWhile_append_dropWhile]

theorem brace_scan_trim (s : Str) (d : Nat) : brace_scan d (trim s) = brace_scan d s := by
  obtain ⟨a, b, ha, hb, hs⟩ := trim_decomp s
  conv_rhs => rw [hs]
  rw [brace_scan_append_no_brace _ _ (blank_no_brace hb).1 (blank_no_brace hb).2,
    brace_scan_no_brace _ (blank_no_brace ha).1 (blank_no_brace ha).2]

theorem brace_balanced_trim_pad (s : Str) (h : brace_balanced s = true) :
    brace_balanced (trim (' ' :: s)) = true := by
  unfold brace_balanced at h ⊢
  rw [brace_scan_trim]
  have := brace_scan_no_brace [' '] (by decide) (by decide) s 1
  simp only [List.singleton_append] at this
  rw [this]
  exact h

theorem eml_reads_after_newline {REST : Str} {its : List Item} {b : Bool}
    (h : EmlReads REST its b) :
    ∃ ns, EmlParses ('\n' :: REST) ns ∧ (items_list ns).map Item.norm = its ∧
      eml_rt_list ns = true ∧ (b = true → ns.any eml_opens = true) :=
  h ('\n' :: REST) (by simp [skip_whitespace, List.dropWhile_cons, show isspace '\n' = true by decide])

/-! ## Lemmas: the EML round trip of comments and import directives -/

theorem eml_node_reads_comment (tag : Str) (attrs : List Attribute) (content : Str)
    (children : List Node) (flag : Bool)
    (h : eml_rt (.mk .COMMENT tag attrs content children flag) = true) :
    EmlNodeReads (.mk .COMMENT tag attrs content children flag) := by
  simp only [eml_rt, Bool.and_eq_true, Bool.not_eq_true', List.contains_eq_any_beq,
    List.any_eq_false, beq_iff_eq] at h
  obtain ⟨hnl, hbal⟩ := h
  have hnl' : '\n' ∉ content := fun hm => hnl _ hm rfl
  intro L
  have hfmt : EmlFormatter.format (.mk .COMMENT tag attrs content children flag) L
      = get_indent L ++ '/' :: ('/' :: ' ' :: (content ++ ['\n'])) := by
    rw [EmlFormatter.format]
    simp [EmlFormatter.format_node, String.toList]
  refine ⟨?_, get_indent L, '/', '/' :: ' ' :: (content ++ ['\n']), hfmt, ?_, by decide,
    by decide, by decide, ?_⟩
  · rw [hfmt]
    have e : get_indent L ++ '/' :: ('/' :: ' ' :: (content ++ ['\n']))
        = get_indent L ++ ("// ".toList ++ (content ++ "\n".toList)) := by
      simp [String.toList]
    rw [e]
    exact balanced_append (balanced_indent L) (balanced_append
      (balanced_of_no_brace _ (by decide) (by decide))
      (balanced_append (balanced_of_bool hbal) (balanced_of_no_brace _ (by decide) (by decide))))
  · intro c hc
    rw [get_indent_space L c hc]
    decide
  · intro REST its b _ hR
    obtain ⟨more, p1, p2, p3, p4⟩ := eml_reads_after_newline hR
    have hnl2 : '\n' ∉ ' ' :: content := by
      intro hm
      rcases List.mem_cons.mp hm with h | h
      · exact absurd h (by decide)
      · exact hnl' h
    have htw := takeWhile_ne_append (' ' :: content) REST '\n' hnl2
    have hdw := dropWhile_ne_append (' ' :: content) REST '\n' hnl2
    refine ⟨Node.leaf .COMMENT (trim (' ' :: content)) :: more, ?_, ?_, ?_, ?_⟩
    · intro fuel hf
      obtain ⟨f, rfl⟩ := fuel_succ hf
      have := parse_eml_nodes_line_comment f (' ' :: content ++ '\n' :: REST) more (by
        rw [hdw]
        apply p1
        simp only [List.length_cons, List.length_append] at hf ⊢
        omega)
      rw [htw] at this
      simpa [List.append_assoc] using this
    · simp [items_list, Node.items, Node.leaf, p2]
    · rw [eml_rt_list, p3, Bool.and_true]
      simp only [eml_rt, Node.leaf, Bool.and_eq_true, Bool.not_eq_true',
        List.contains_eq_any_beq, List.any_eq_false, beq_iff_eq]
      refine ⟨?_, brace_balanced_trim_pad content hbal⟩
      intro x hx hxe
      subst hxe
      exact hnl2 ((trim_sublist _).subset hx)
    · intro hb
      have : b = true := by simpa [eml_opens, Node.type] using hb
      simp [p4 this]

theorem eml_node_reads_import (tag : Str) (attrs : List Attribute) (content : Str)
    (children : List Node) (flag : Bool)
    (h : eml_rt (.mk .IMPORT tag attrs content children flag) = true) :
    EmlNodeReads (.mk .IMPORT tag attrs content children flag) := by
  simp only [eml_rt, Bool.and_eq_true, Bool.not_eq_true', List.contains_eq_any_beq,
    List.any_eq_false, beq_iff_eq] at h
  obtain ⟨hsc, hbal⟩ := h
  have hsc' : ';' ∉ ' ' :: content := by
    intro hm
    rcases List.mem_cons.mp hm with h | h
    · exact absurd h (by decide)
    · exact hsc _ h rfl
  intro L
  have hfmt : EmlFormatter.format (.mk .IMPORT tag attrs content children flag) L
      = [] ++ 'i' :: ("mport ".toList ++ (content ++ ";\n".toList)) := by
    rw [EmlFormatter.format]
    simp [EmlFormatter.format_node, String.toList]
  refine ⟨?_, [], 'i', "mport ".toList ++ (content ++ ";\n".toList), hfmt, by simp, by decide,
    by decide, by decide, ?_⟩
  · rw [hfmt]
    have e : [] ++ 'i' :: ("mport ".toList ++ (content ++ ";\n".toList))
        = "import ".toList ++ (content ++ ";\n".toList) := by
      simp [String.toList]
    rw [e]
    exact balanced_append (balanced_of_no_brace _ (by decide) (by decide))
      (balanced_append (balanced_of_bool hbal) (balanced_of_no_brace _ (by decide) (by decide)))
  · intro REST its b _ hR
    obtain ⟨more, p1, p2, p3, p4⟩ := eml_reads_after_newline hR
    have hfind := find_char_append ';' (' ' :: content) ('\n' :: REST) hsc'
    refine ⟨Node.leaf .IMPORT (trim (' ' :: content)) :: more, ?_, ?_, ?_, ?_⟩
    · intro fuel hf
      obtain ⟨f, rfl⟩ := fuel_succ hf
      have := parse_eml_nodes_import f ' ' (content ++ ';' :: '\n' :: REST)
        ((' ' :: content).length) more (by decide) hfind (by
        have e : List.drop ((' ' :: content).length + 1) (' ' :: (content ++ ';' :: '\n' :: REST))
            = '\n' :: REST := by
          simp
        rw [e]
        apply p1
        simp only [List.length_cons, List.length_append, String.toList] at hf ⊢
        simp at hf
        omega)
      have e2 : substr (' ' :: (content ++ ';' :: '\n' :: REST)) 0 ((' ' :: content).length)
          = ' ' :: content := by
        simp [substr]
      rw [e2] at this
      simpa [String.toList, List.append_assoc] using this
    · simp [items_list, Node.items, Node.leaf, p2]
    · rw [eml_rt_list, p3, Bool.and_true]
      simp only [eml_rt, Node.leaf, Bool.and_eq_true, Bool.not_eq_true',
        List.contains_eq_any_beq, List.any_eq_false, beq_iff_eq]
      refine ⟨?_, brace_balanced_trim_pad content hbal⟩
      intro x hx hxe
      subst hxe
      exact hsc' ((trim_sublist _).subset hx)
    · intro hb
      have : b = true := by simpa [eml_opens, Node.type] using hb
      simp [p4 this]

/-! ## Lemmas: the pattern of EML syntax in a text between blanks -/

theorem trim_char_facts {w : Char} (hw : is_trim_char w = true) :
    is_ident_start w = false ∧ is_word_char w = false ∧ is_regex_ident_char w = false ∧
      isspace w = true := by
  simp only [is_trim_char, Bool.or_eq_true, beq_iff_eq] at hw
  rcases hw with ((rfl | rfl) | rfl) | rfl <;> decide

theorem regex_search_blank (q : Str) (hq : Blank q) : ∀ b, regex_search_from b q = false := by
  induction q with
  | nil => intro b; rfl
  | cons w q ih =>
    intro b
    obtain ⟨h1, h2, _, _⟩ := trim_char_facts (hq w (by simp))
    simp [regex_search_from, regex_match_here, h1, ih (fun c hc => hq c (by simp [hc]))]

theorem regex_search_blank_left (p s : Str) (hp : Blank p) :
    regex_search_from false (p ++ s) = regex_search_from false s := by
  induction p with
  | nil => rfl
  | cons w p ih =>
    obtain ⟨h1, h2, _, _⟩ := trim_char_facts (hp w (by simp))
    simp only [List.cons_append, regex_search_from, regex_match_here, h1, Bool.false_and,
      Bool.and_false, Bool.false_or, h2]
    exact ih (fun c hc => hp c (by simp [hc]))

theorem peek_dropWhile_append (P : Char → Bool) (l q : Str) (hq : ∀ c ∈ q, P c = true) :
    peek ((l ++ q).dropWhile P) = peek (l.dropWhile P) := by
  induction l with
  | nil =>
    simp only [List.nil_append, List.dropWhile_nil]
    rw [List.dropWhile_eq_nil_iff.mpr hq]
  | cons c l ih =>
    simp only [List.cons_append, List.dropWhile_cons]
    split
    · exact ih
    · rfl

theorem dropWhile_append_stop (P : Char → Bool) (l q : Str) (hq : ∀ c ∈ q, P c = false) :
    (l ++ q).dropWhile P = l.dropWhile P ++ q := by
  induction l with
  | nil =>
    cases q with
    | nil => rfl
    | cons c q => simp [List.dropWhile_cons, hq c (by simp)]
  | cons c l ih =>
    simp only [List.cons_append, List.dropWhile_cons]
    split
    · exact ih
    · rfl

theorem regex_match_here_append_blank (s q : Str) (hq : Blank q) :
    regex_match_here (s ++ q) = regex_match_here s := by
  cases s with
  | nil =>
    cases q with
    | nil => rfl
    | cons w q =>
      obtain ⟨h1, _, _, _⟩ := trim_char_facts (hq w (by simp))
      simp [regex_match_here, h1]
  | cons c cs =>
    simp only [List.cons_append, regex_match_here]
    rw [dropWhile_append_stop is_regex_ident_char cs q
        (fun x hx => (trim_char_facts (hq x hx)).2.2.1),
      peek_dropWhile_append isspace _ q (fun x hx => (trim_char_facts (hq x hx)).2.2.2)]

theorem regex_search_append_blank (s q : Str) (hq : Blank q) :
    ∀ b, regex_search_from b (s ++ q) = regex_search_from b s := by
  induction s with
  | nil =>
    intro b
    simp only [List.nil_append, regex_search_blank q hq b]
    rfl
  | cons c cs ih =>
    intro b
    have := regex_match_here_append_blank (c :: cs) q hq
    simp only [List.cons_append] at this
    rw [List.cons_append, regex_search_from, regex_search_from, this, ih]

/-- Blanks around a text change neither its EML syntax nor the depth of its braces. -/
theorem contains_eml_syntax_pad (p u q : Str) (hp : Blank p) (hq : Blank q) :
    contains_eml_syntax (p ++ u ++ q) = contains_eml_syntax u := by
  unfold contains_eml_syntax
  rw [regex_search_append_blank _ q hq, regex_search_blank_left p u hp]

theorem contains_eml_syntax_trim (t : Str) :
    contains_eml_syntax (trim t) = contains_eml_syntax t := by
  obtain ⟨a, b, ha, hb, ht⟩ := trim_decomp t
  conv_rhs => rw [ht]
  rw [contains_eml_syntax_pad _ _ _ ha hb]

theorem brace_scan_pad (p u q : Str) (hp : Blank p) (hq : Blank q) (d : Nat) :
    brace_scan d (p ++ u ++ q) = brace_scan d u := by
  rw [brace_scan_append_no_brace _ _ (blank_no_brace hq).1 (blank_no_brace hq).2,
    brace_scan_no_brace _ (blank_no_brace hp).1 (blank_no_brace hp).2]

/-! ## Lemmas: the EML round trip of a block comment -/

/-- A block comment at the head of the input, closed by the next `*/`. -/
theorem parse_eml_nodes_block_comment (fuel : Nat) (r : Str) (cend : Nat) (more : List Node)
    (hfind : find_str "*/".toList r = some cend)
    (h : parse_eml_nodes fuel (r.drop (cend + 2)) = some more) :
    parse_eml_nodes (fuel + 1) ('/' :: '*' :: r)
      = some (Node.leaf .COMMENT_BLOCK (substr r 0 cend) :: more) := by
  rw [parse_eml_nodes]
  have hsl : isspace '/' = false := by decide
  simp only [List.isEmpty_cons, Bool.false_eq_true, if_false, List.takeWhile_cons,
    List.dropWhile_cons, hsl]
  have hfind' : find_str ['*', '/'] r = some cend := hfind
  simp [peek, hfind', h, eml_ws_nodes]

/-- No match of `*/` starts inside a text that does not contain it, when the text is
followed by `*/`. -/
theorem no_block_terminator_in_body (rest : Str) : ∀ (X : Str),
    ¬ "*/".toList <:+: X → ∀ k, k < X.length →
    "*/".toList.isPrefixOf ((X ++ "*/".toList ++ rest).drop k) = false := by
  intro X
  induction X with
  | nil => intro _ k hk; simp at hk
  | cons x t ih =>
    intro hno k hk
    cases k with
    | succ k =>
      simp only [List.cons_append, List.drop_succ_cons]
      exact ih (fun h => hno (h.trans (List.infix_cons (List.infix_refl _)))) k
        (by simpa using hk)
    | zero =>
      simp only [List.drop_zero]
      rcases t with _ | ⟨y, t'⟩
      · simp [String.toList, List.isPrefixOf]
      · have : ¬ "*/".toList <+: x :: y :: t' := fun h => hno h.isInfix
        have e : "*/".toList.isPrefixOf (x :: y :: t') = false := by
          cases hb : "*/".toList.isPrefixOf (x :: y :: t') with
          | false => rfl
          | true => exact absurd (List.isPrefixOf_iff_prefix.mp hb) this
        simp only [String.toList, List.isPrefixOf, List.cons_append, Bool.and_eq_false_iff,
          beq_eq_false_iff_ne, ne_eq, Bool.and_true] at e ⊢
        exact e

theorem find_block_comment_end (X rest : Str) (hno : ¬ "*/".toList <:+: X) :
    find_str "*/".toList (X ++ "*/".toList ++ rest) = some X.length := by
  apply find_str_first
  · intro j hj
    exact no_block_terminator_in_body rest X hno j hj
  · have : List.drop X.length (X ++ "*/".toList ++ rest) = "*/".toList ++ rest := by
      simp [List.append_assoc]
    rw [this]
    simp [String.toList, List.isPrefixOf]
  · simp

theorem eml_node_reads_comment_block (tag : Str) (attrs : List Attribute) (content : Str)
    (children : List Node) (flag : Bool)
    (h : eml_rt (.mk .COMMENT_BLOCK tag attrs content children flag) = true) :
    EmlNodeReads (.mk .COMMENT_BLOCK tag attrs content children flag) := by
  simp only [eml_rt, Bool.and_eq_true] at h
  obtain ⟨hocc, hbal⟩ := h
  have hno := occurs_in_false hocc
  intro L
  have hfmt : EmlFormatter.format (.mk .COMMENT_BLOCK tag attrs content children flag) L
      = get_indent L ++ '/' :: ('*' :: (content ++ "*/\n".toList)) := by
    rw [EmlFormatter.format]
    simp [EmlFormatter.format_node, String.toList]
  refine ⟨?_, get_indent L, '/', '*' :: (content ++ "*/\n".toList), hfmt, ?_, by decide,
    by decide, by decide, ?_⟩
  · rw [hfmt]
    have e : get_indent L ++ '/' :: ('*' :: (content ++ "*/\n".toList))
        = get_indent L ++ ("/*".toList ++ (content ++ "*/\n".toList)) := by
      simp [String.toList]
    rw [e]
    exact balanced_append (balanced_indent L) (balanced_append
      (balanced_of_no_brace _ (by decide) (by decide))
      (balanced_append (balanced_of_bool hbal) (balanced_of_no_brace _ (by decide) (by decide))))
  · intro c hc
    rw [get_indent_space L c hc]
    decide
  · intro REST its b _ hR
    obtain ⟨more, p1, p2, p3, p4⟩ := eml_reads_after_newline hR
    have hfind := find_block_comment_end content ('\n' :: REST) hno
    refine ⟨Node.leaf .COMMENT_BLOCK content :: more, ?_, ?_, ?_, ?_⟩
    · intro fuel hf
      obtain ⟨f, rfl⟩ := fuel_succ hf
      have := parse_eml_nodes_block_comment f (content ++ "*/".toList ++ '\n' :: REST)
        content.length more hfind (by
        have e : List.drop (content.length + 2) (content ++ "*/".toList ++ '\n' :: REST)
            = '\n' :: REST := by
          rw [List.append_assoc, List.drop_append_eq_append_drop]
          simp [String.toList]
        rw [e]
        apply p1
        simp only [List.length_cons, List.length_append, String.toList] at hf ⊢
        simp at hf
        omega)
      have e2 : substr (content ++ "*/".toList ++ '\n' :: REST) 0 content.length = content := by
        simp [substr, List.append_assoc]
      rw [e2] at this
      simpa [String.toList, List.append_assoc] using this
    · simp [items_list, Node.items, Node.leaf, p2]
    · rw [eml_rt_list, p3, Bool.and_true]
      simp only [eml_rt, Node.leaf, Bool.and_eq_true]
      exact ⟨hocc, hbal⟩
    · intro hb
      have : b = true := by simpa [eml_opens, Node.type] using hb
      simp [p4 this]

/-! ## Lemmas: the EML round trip of an element -/

theorem eml_attr_rt_markup {attrs : List Attribute} (h : attrs.all eml_attr_rt = true) :
    attrs.all markup_attr_ok = true := by
  simp only [List.all_eq_true, eml_attr_rt, Bool.and_eq_true] at h ⊢
  exact fun a ha => (h a ha).1

theorem with_sep_eml_attr_rt {attrs : List Attribute} (h : attrs.all eml_attr_rt = true) :
    (with_sep attrs).all eml_attr_rt = true := by
  simp only [List.all_eq_true, with_sep, List.mem_map] at h ⊢
  rintro x ⟨a, ha, rfl⟩
  have := h a ha
  simpa [eml_attr_rt, markup_attr_ok] using this

theorem balanced_eml_attr_items_rt (attrs : List Attribute) (h : attrs.all eml_attr_rt = true) :
    ∀ b, Balanced (eml_attr_items b attrs) := by
  induction attrs with
  | nil => intro b; exact balanced_nil
  | cons a as ih =>
    intro b
    simp only [List.all_cons, Bool.and_eq_true] at h
    have ha := h.1
    simp only [eml_attr_rt, markup_attr_ok, Bool.and_eq_true, List.all_eq_true] at ha
    obtain ⟨⟨⟨_, hkey⟩, _⟩, hv⟩ := ha
    obtain ⟨hk1, hk2⟩ := no_brace_of_ident hkey
    rw [eml_attr_items]
    refine balanced_append (balanced_append (balanced_append (balanced_append
      (balanced_append ?_ ?_) ?_) ?_) ?_) (ih h.2 false)
    · cases b
      · exact balanced_of_no_brace _ (by decide) (by decide)
      · exact balanced_nil
    · exact balanced_of_no_brace _ hk1 hk2
    · exact balanced_of_no_brace _ (by decide) (by decide)
    · exact balanced_of_bool hv
    · exact balanced_of_no_brace _ (by decide) (by decide)

theorem balanced_eml_attrs_rt (attrs : List Attribute) (h : attrs.all eml_attr_rt = true) :
    Balanced (eml_attrs attrs) := by
  unfold eml_attrs
  split
  · exact balanced_nil
  · exact balanced_append (balanced_append (balanced_of_no_brace _ (by decide) (by decide))
      (balanced_eml_attr_items_rt attrs h true)) (balanced_of_no_brace _ (by decide) (by decide))

theorem eml_tag_rt_facts {tag : Str} (h : eml_tag_rt tag = true) :
    ∃ a t', tag = a :: t' ∧ is_ident_start a = true ∧ (∀ c ∈ tag, is_ident_part c = true) ∧
      tag ≠ ROOT ∧ tag ≠ "import".toList ∧ tag ≠ "php".toList := by
  simp only [eml_tag_rt, Bool.and_eq_true, Bool.not_eq_true', List.all_eq_true] at h
  obtain ⟨⟨hstart, hid⟩, hkw⟩ := h
  have hkw' : tag ∉ EML_KEYWORDS := by
    intro hm
    have : EML_KEYWORDS.contains tag = true := by simpa using hm
    rw [this] at hkw
    exact Bool.noConfusion hkw
  simp only [EML_KEYWORDS, List.mem_cons, List.mem_singleton, not_or, List.not_mem_nil,
    not_false_eq_true, and_true] at hkw'
  cases tag with
  | nil => simp [peek, is_ident_start, isalpha] at hstart
  | cons a t' =>
    exact ⟨a, t', rfl, by simpa [peek] using hstart, hid, hkw'.1, hkw'.2.1, hkw'.2.2⟩

theorem eml_not_reserved {tag : Str} (h : eml_tag_rt tag = true)
    (hraw : RAW_TAGS.contains tag = false) : tag ∉ EML_RESERVED := by
  obtain ⟨_, _, _, _, _, h1, h2, h3⟩ := eml_tag_rt_facts h
  have hraw' : tag ∉ RAW_TAGS := by simpa using hraw
  simp only [RAW_TAGS, List.mem_cons, List.mem_singleton, not_or, List.not_mem_nil,
    not_false_eq_true, and_true] at hraw'
  simp only [EML_RESERVED, List.mem_cons, List.mem_singleton, not_or, List.not_mem_nil,
    not_false_eq_true, and_true]
  exact ⟨h1, h2, h3, hraw'.1, hraw'.2.1, hraw'.2.2.1, hraw'.2.2.2⟩

/-- The parse of a rendered element from its tag on, for any tag that is an identifier
other than `import`. -/
theorem eml_element_parses_any (a : Char) (t' : Str) (attrs : List Attribute) (BR r5 : Str)
    (el : Node) (more : List Node) (ha : is_ident_start a = true)
    (hid : ∀ c ∈ a :: t', is_ident_part c = true) (himpne : (a :: t') ≠ "import".toList)
    (hattrs : attrs.all markup_attr_ok = true)
    (hBR : ∃ d S', BR = d :: S' ∧ isspace d = true)
    (hparen : peek (skip_whitespace BR) ≠ '(')
    (hbody : ∀ f, BR.length ≤ f →
      parse_eml_element_body (parse_eml_nodes f) (a :: t') (with_sep attrs) (skip_whitespace BR)
        = some (el, r5))
    (hmore : EmlParses r5 more) (hlen : r5.length ≤ BR.length) :
    EmlParses ((a :: t') ++ (eml_attrs attrs ++ BR)) (el :: more) := by
  obtain ⟨d, S', rfl, hd⟩ := hBR
  have hdp : is_ident_part d = false := by
    by_contra hne
    have := isspace_eq_false_of_ident_part (by simpa using hne : is_ident_part d = true)
    simp [hd] at this
  intro fuel hf
  obtain ⟨f, rfl⟩ := fuel_succ hf
  simp only [List.length_append, List.length_cons] at hf
  by_cases hat : attrs = []
  · subst hat
    simp only [eml_attrs, List.isEmpty_nil, if_true, List.nil_append]
    have hpar : (peek (skip_whitespace (d :: S')) == '(') = false := by simpa using hparen
    refine parse_eml_nodes_element f a t' (d :: S') [] (skip_whitespace (d :: S')) r5 el more ha hid
      (fun c hc => by simp at hc; subst hc; exact hdp)
      (at_import_false (a :: t') S' d hdp hid himpne) ?_ ?_ (hmore f (by
        simp only [List.length_cons] at hlen; omega))
    · simp [hpar]
    · rw [skip_whitespace_idem]
      have := hbody f (by simp only [List.length_cons]; omega)
      simpa [with_sep] using this
  · have hne : attrs.isEmpty = false := by
      cases attrs with
      | nil => exact absurd rfl hat
      | cons _ _ => rfl
    have e : eml_attrs attrs ++ d :: S'
        = ' ' :: '(' :: (eml_attr_items true attrs ++ ')' :: d :: S') := by
      simp [eml_attrs, hne, String.toList]
    have hl := congrArg List.length e
    simp only [List.length_append, List.length_cons] at hl
    rw [e]
    have hsp : is_ident_part ' ' = false := by decide
    refine parse_eml_nodes_element f a t' _ (with_sep attrs) (d :: S') r5 el more ha hid
      (fun c hc => by simp at hc; subst hc; exact hsp)
      (at_import_false (a :: t') _ ' ' hsp hid himpne) ?_ (hbody f (by
        simp only [List.length_cons]; omega)) (hmore f (by
        simp only [List.length_cons] at hlen; omega))
    have hnp : isspace '(' = false := by decide
    simp only [skip_whitespace_space, skip_whitespace_of_not_space _ _ hnp, List.isEmpty_cons,
      Bool.not_false, peek, List.headD_cons, beq_self_eq_true, Bool.and_self, if_true, advance,
      List.drop_succ_cons, List.drop_zero]
    apply eml_attrs_parse_list attrs (d :: S') hattrs hat
    simp only [List.length_cons, List.length_append] at hf ⊢
    omega

/-- The same, stated for a tag of the class. -/
theorem eml_element_parses_rt (tag : Str) (attrs : List Attribute) (BR r5 : Str)
    (el : Node) (more : List Node) (htag : eml_tag_rt tag = true)
    (hattrs : attrs.all eml_attr_rt = true)
    (hBR : ∃ d S', BR = d :: S' ∧ isspace d = true)
    (hparen : peek (skip_whitespace BR) ≠ '(')
    (hbody : ∀ f, BR.length ≤ f →
      parse_eml_element_body (parse_eml_nodes f) tag (with_sep attrs) (skip_whitespace BR)
        = some (el, r5))
    (hmore : EmlParses r5 more) (hlen : r5.length ≤ BR.length) :
    EmlParses (tag ++ (eml_attrs attrs ++ BR)) (el :: more) := by
  obtain ⟨a, t', rfl, ha, hid, _, himp, _⟩ := eml_tag_rt_facts htag
  exact eml_element_parses_any a t' attrs BR r5 el more ha hid himp (eml_attr_rt_markup hattrs)
    hBR hparen hbody hmore hlen

theorem eml_opens_element (tag : Str) (attrs : List Attribute) (content : Str)
    (children : List Node) (flag : Bool) :
    eml_opens (.mk .ELEMENT tag attrs content children flag)
      = (eml_tag_opens tag && (!attrs.isEmpty || !children.isEmpty || flag)) := rfl

/-- The element read back from a rendered element, in front of the nodes read from the
rest: items, class, and the attribute list or block. -/
theorem eml_element_result (tag : Str) (attrs : List Attribute) (content : Str)
    (children children' : List Node) (flag flag' : Bool) (more : List Node) (its : List Item)
    (b : Bool)
    (hi : (items_list children').map Item.norm = (items_list children).map Item.norm)
    (hrt : eml_rt (.mk .ELEMENT tag (with_sep attrs) [] children' flag') = true)
    (hopens : (!children.isEmpty || flag) = true → (!children'.isEmpty || flag') = true)
    (p2 : (items_list more).map Item.norm = its) (p3 : eml_rt_list more = true)
    (p4 : b = true → more.any eml_opens = true) :
    (items_list (Node.mk .ELEMENT tag (with_sep attrs) [] children' flag' :: more)).map Item.norm
        = (Node.mk .ELEMENT tag attrs content children flag).items.map Item.norm ++ its ∧
      eml_rt_list (Node.mk .ELEMENT tag (with_sep attrs) [] children' flag' :: more) = true ∧
      ((eml_opens (.mk .ELEMENT tag attrs content children flag) || b) = true →
        (Node.mk .ELEMENT tag (with_sep attrs) [] children' flag' :: more).any eml_opens
          = true) := by
  refine ⟨?_, ?_, ?_⟩
  · simp only [items_list, Node.items, List.map_cons, List.map_append, items_with_sep,
      items_norm_attrs, hi, Item.norm, p2, List.append_assoc, List.cons_append]
  · rw [eml_rt_list, p3, Bool.and_true]
    exact hrt
  · intro hb
    rw [List.any_cons]
    rcases Bool.or_eq_true_iff.mp hb with h | h
    · have hop : eml_opens (.mk .ELEMENT tag (with_sep attrs) [] children' flag') = true := by
        rw [eml_opens_element] at h ⊢
        simp only [Bool.and_eq_true, Bool.or_eq_true, Bool.not_eq_true',
          List.isEmpty_eq_false] at h ⊢
        refine ⟨h.1, ?_⟩
        rcases h.2 with (h | h) | h
        · left; left
          simpa [with_sep] using h
        · have := hopens (by simp [h])
          simp only [Bool.or_eq_true, Bool.not_eq_true', List.isEmpty_eq_false] at this
          rcases this with h' | h'
          · left; right; exact h'
          · right; exact h'
        · have := hopens (by simp [h])
          simp only [Bool.or_eq_true, Bool.not_eq_true', List.isEmpty_eq_false] at this
          rcases this with h' | h'
          · left; right; exact h'
          · right; exact h'
      rw [hop]
      rfl
    · rw [p4 h]
      simp

/-- An element without children and without the flag is in the class. -/
theorem eml_rt_childless (tag : Str) (attrs : List Attribute) (htag : eml_tag_rt tag = true)
    (hattrs : attrs.all eml_attr_rt = true) :
    eml_rt (.mk .ELEMENT tag (with_sep attrs) [] [] false) = true := by
  simp only [eml_rt, htag, with_sep_eml_attr_rt hattrs, Bool.and_self, Bool.true_and]
  split <;> simp [eml_rt_list]

/-- Case: a bare tag; the whitespace after it is skipped. -/
theorem eml_reads_bare (tag : Str) (attrs : List Attribute) (content : Str) (L : Nat)
    (REST : Str) (its : List Item) (b : Bool) (htag : eml_tag_rt tag = true)
    (hattrs : attrs.all eml_attr_rt = true) (hS : EmlSafe REST) (hR : EmlReads REST its b) :
    ∃ ns, EmlParses (tag ++ (eml_attrs attrs ++ (eml_block [] false L ++ REST))) ns ∧
      (items_list ns).map Item.norm
        = (Node.mk .ELEMENT tag attrs content [] false).items.map Item.norm ++ its ∧
      eml_rt_list ns = true ∧
      ((eml_opens (.mk .ELEMENT tag attrs content [] false) || b) = true →
        ns.any eml_opens = true) := by
  obtain ⟨more, p1, p2, p3, p4⟩ := hR (skip_whitespace REST) (skip_whitespace_idem REST)
  have hn : isspace '\n' = true := by decide
  have hsk : skip_whitespace ('\n' :: REST) = skip_whitespace REST := by
    simp [skip_whitespace, List.dropWhile_cons, hn]
  have := eml_element_parses_rt tag attrs ('\n' :: REST) (skip_whitespace REST)
    (.mk .ELEMENT tag (with_sep attrs) [] [] false) more htag hattrs
    ⟨'\n', REST, rfl, hn⟩ (by rw [hsk]; exact hS.1)
    (fun f _ => by rw [hsk]; exact eml_body_bare _ _ _ _ hS.2) p1
    (by
      have := (List.dropWhile_suffix isspace (l := REST)).length_le
      simp only [skip_whitespace, List.length_cons]
      omega)
  refine ⟨_, by simpa [eml_block, String.toList] using this, ?_⟩
  exact eml_element_result tag attrs content [] [] false false more its b rfl
    (eml_rt_childless tag attrs htag hattrs) (fun h => h) p2 p3 p4

/-- Case: a tag with an explicit empty block. -/
theorem eml_reads_flag (tag : Str) (attrs : List Attribute) (content : Str) (L : Nat)
    (REST : Str) (its : List Item) (b : Bool) (htag : eml_tag_rt tag = true)
    (hraw : RAW_TAGS.contains tag = false)
    (hattrs : attrs.all eml_attr_rt = true) (hR : EmlReads REST its b) :
    ∃ ns, EmlParses (tag ++ (eml_attrs attrs ++ (eml_block [] true L ++ REST))) ns ∧
      (items_list ns).map Item.norm
        = (Node.mk .ELEMENT tag attrs content [] true).items.map Item.norm ++ its ∧
      eml_rt_list ns = true ∧
      ((eml_opens (.mk .ELEMENT tag attrs content [] true) || b) = true →
        ns.any eml_opens = true) := by
  obtain ⟨more, p1, p2, p3, p4⟩ := eml_reads_after_newline hR
  have hres := eml_not_reserved htag hraw
  have hb : isspace '\x7b' = false := by decide
  have hsk : skip_whitespace (' ' :: '\x7b' :: '\x7d' :: '\n' :: REST)
      = '\x7b' :: ([] ++ '\x7d' :: ('\n' :: REST)) := by
    rw [skip_whitespace_space, skip_whitespace_of_not_space _ _ hb]
    rfl
  have := eml_element_parses_rt tag attrs (' ' :: '\x7b' :: '\x7d' :: '\n' :: REST) ('\n' :: REST)
    (.mk .ELEMENT tag (with_sep attrs) [] [] true) more htag hattrs
    ⟨' ', '\x7b' :: '\x7d' :: '\n' :: REST, rfl, by decide⟩
    (by rw [hsk]; show '\x7b' ≠ '('; decide)
    (fun f _ => by
      rw [hsk]
      exact eml_body_text _ _ _ [] _ hres balanced_nil rfl)
    p1 (by simp)
  refine ⟨_, by simpa [eml_block, String.toList] using this, ?_⟩
  refine eml_element_result tag attrs content [] [] true true more its b rfl ?_
    (fun h => h) p2 p3 p4
  simp only [eml_rt, htag, with_sep_eml_attr_rt hattrs, hraw, Bool.and_self, Bool.true_and,
    Bool.false_eq_true, if_false]
  simp [eml_rt_list]

/-! ## Lemmas: the EML round trip of an element with a Text child -/

/-- The block that the EML renderer writes for a single Text child: the text between the
braces is the payload, trimmed or not, between blanks. -/
theorem eml_text_block_shape (ctag : Str) (cattrs : List Attribute) (t : Str)
    (cchildren : List Node) (cflag : Bool) (flag : Bool) (L : Nat) :
    ∃ inner, eml_block [.mk .TEXT ctag cattrs t cchildren cflag] flag L
        = ' ' :: '\x7b' :: (inner ++ ['\x7d', '\n']) ∧
      trim inner = trim t ∧ (∀ d, brace_scan d inner = brace_scan d t) ∧
      contains_eml_syntax inner = contains_eml_syntax t ∧ inner ≠ [] := by
  by_cases hn : has_newline (trim t) = true
  · have hp : Blank ('\n' :: get_indent (L + 1)) :=
      blank_append blank_newline (blank_indent (L + 1))
    have hq : Blank ('\n' :: get_indent L) := blank_append blank_newline (blank_indent L)
    refine ⟨('\n' :: get_indent (L + 1)) ++ t ++ ('\n' :: get_indent L), ?_, ?_, ?_, ?_,
      by simp⟩
    · simp [eml_block, Node.type, Node.content, hn, String.toList,
        EmlFormatter.format_children, EmlFormatter.format, EmlFormatter.format_node,
        List.append_assoc]
    · rw [trim_append_blank _ _ hq, trim_blank_append _ _ hp]
    · intro d
      exact brace_scan_pad _ _ _ hp hq d
    · exact contains_eml_syntax_pad _ _ _ hp hq
  · have hn' : has_newline (trim t) = false := by simpa using hn
    have hp : Blank [' '] := by
      intro c hc
      simp at hc
      subst hc
      decide
    refine ⟨[' '] ++ trim t ++ [' '], ?_, ?_, ?_, ?_, by simp⟩
    · simp [eml_block, Node.type, Node.content, hn', String.toList]
    · rw [trim_append_blank _ _ hp, trim_blank_append _ _ hp, trim_idempotent]
    · intro d
      rw [brace_scan_pad _ _ _ hp hp d, brace_scan_trim]
    · rw [contains_eml_syntax_pad _ _ _ hp hp, contains_eml_syntax_trim]

theorem balanced_of_scan_eq {s t : Str} (h : ∀ d, brace_scan d s = brace_scan d t)
    (ht : brace_balanced t = true) : Balanced s ∧ brace_balanced s = true := by
  have hb : Balanced s := by
    intro d hd
    rw [h d]
    exact balanced_of_bool ht d hd
  exact ⟨hb, bool_of_balanced hb⟩

/-- Case: an element, of a tag that is not verbatim, whose only child is a Text node. -/
theorem eml_reads_text (tag : Str) (attrs : List Attribute) (content : Str) (flag : Bool)
    (ctag : Str) (cattrs : List Attribute) (t : Str) (cchildren : List Node) (cflag : Bool)
    (L : Nat) (REST : Str) (its : List Item) (b : Bool) (htag : eml_tag_rt tag = true)
    (hraw : RAW_TAGS.contains tag = false)
    (hattrs : attrs.all eml_attr_rt = true) (ht : eml_text_rt t = true)
    (hR : EmlReads REST its b) :
    Balanced (eml_block [.mk .TEXT ctag cattrs t cchildren cflag] flag L) ∧
    ∃ ns, EmlParses (tag ++ (eml_attrs attrs ++
        (eml_block [.mk .TEXT ctag cattrs t cchildren cflag] flag L ++ REST))) ns ∧
      (items_list ns).map Item.norm
        = (Node.mk .ELEMENT tag attrs content [.mk .TEXT ctag cattrs t cchildren cflag]
            flag).items.map Item.norm ++ its ∧
      eml_rt_list ns = true ∧
      ((eml_opens (.mk .ELEMENT tag attrs content [.mk .TEXT ctag cattrs t cchildren cflag]
          flag) || b) = true → ns.any eml_opens = true) := by
  obtain ⟨more, p1, p2, p3, p4⟩ := eml_reads_after_newline hR
  have hres := eml_not_reserved htag hraw
  obtain ⟨inner, hshape, htrim, hscan, hsynE, hne⟩ := eml_text_block_shape ctag cattrs t
    cchildren cflag flag L
  simp only [eml_text_rt, Bool.and_eq_true, Bool.not_eq_true'] at ht
  obtain ⟨hsyn, hbt⟩ := ht
  obtain ⟨hbal, hbb⟩ := balanced_of_scan_eq hscan hbt
  have hsyn' : contains_eml_syntax inner = false := by rw [hsynE]; exact hsyn
  have hie : inner.isEmpty = false := by
    cases inner with
    | nil => exact absurd rfl hne
    | cons _ _ => rfl
  refine ⟨by rw [hshape]; exact balanced_block inner hbal, ?_⟩
  have hb : isspace '\x7b' = false := by decide
  have hsk : skip_whitespace (' ' :: '\x7b' :: (inner ++ '\x7d' :: ('\n' :: REST)))
      = '\x7b' :: (inner ++ '\x7d' :: ('\n' :: REST)) := by
    rw [skip_whitespace_space, skip_whitespace_of_not_space _ _ hb]
  have := eml_element_parses_rt tag attrs
    (' ' :: '\x7b' :: (inner ++ '\x7d' :: ('\n' :: REST))) ('\n' :: REST)
    (.mk .ELEMENT tag (with_sep attrs) [] [Node.leaf .TEXT inner] false) more htag hattrs
    ⟨' ', _, rfl, rfl⟩
    (by rw [hsk]; show '\x7b' ≠ '('; decide)
    (fun f _ => by
      rw [hsk]
      have := eml_body_text (parse_eml_nodes f) tag (with_sep attrs) inner ('\n' :: REST) hres
        hbal hsyn'
      simpa [hie] using this)
    p1 (by simp; omega)
  refine ⟨_, by rw [hshape]; simpa [List.append_assoc] using this, ?_⟩
  refine eml_element_result tag attrs content _ [Node.leaf .TEXT inner] flag false more its b
    ?_ ?_ (fun _ => by simp) p2 p3 p4
  · simp [items_list, Node.items, Node.leaf, Item.norm, htrim]
  · have : eml_text_rt inner = true := by
      simp only [eml_text_rt, Bool.and_eq_true, Bool.not_eq_true']
      exact ⟨hsyn', hbb⟩
    simp only [eml_rt, htag, with_sep_eml_attr_rt hattrs, hraw, Bool.and_self, Bool.true_and,
      Bool.false_eq_true, if_false]
    simp [eml_sole_text, Node.leaf, Node.type, Node.content, this]

/-- Case: an element of a verbatim tag whose only child is a Text node. -/
theorem eml_reads_raw_text (tag : Str) (attrs : List Attribute) (content : Str) (flag : Bool)
    (ctag : Str) (cattrs : List Attribute) (t : Str) (cchildren : List Node) (cflag : Bool)
    (L : Nat) (REST : Str) (its : List Item) (b : Bool) (htag : eml_tag_rt tag = true)
    (hraw : RAW_TAGS.contains tag = true)
    (hattrs : attrs.all eml_attr_rt = true) (ht : brace_balanced t = true)
    (hR : EmlReads REST its b) :
    Balanced (eml_block [.mk .TEXT ctag cattrs t cchildren cflag] flag L) ∧
    ∃ ns, EmlParses (tag ++ (eml_attrs attrs ++
        (eml_block [.mk .TEXT ctag cattrs t cchildren cflag] flag L ++ REST))) ns ∧
      (items_list ns).map Item.norm
        = (Node.mk .ELEMENT tag attrs content [.mk .TEXT ctag cattrs t cchildren cflag]
            flag).items.map Item.norm ++ its ∧
      eml_rt_list ns = true ∧
      ((eml_opens (.mk .ELEMENT tag attrs content [.mk .TEXT ctag cattrs t cchildren cflag]
          flag) || b) = true → ns.any eml_opens = true) := by
  obtain ⟨more, p1, p2, p3, p4⟩ := eml_reads_after_newline hR
  obtain ⟨_, _, _, _, _, _, _, hphp⟩ := eml_tag_rt_facts htag
  have hmem : tag ∈ "php".toList :: RAW_TAGS := by
    have : tag ∈ RAW_TAGS := by simpa using hraw
    exact List.mem_cons_of_mem _ this
  obtain ⟨inner, hshape, htrim, hscan, _, hne⟩ := eml_text_block_shape ctag cattrs t
    cchildren cflag flag L
  obtain ⟨hbal, hbb⟩ := balanced_of_scan_eq hscan ht
  refine ⟨by rw [hshape]; exact balanced_block inner hbal, ?_⟩
  have hb : isspace '\x7b' = false := by decide
  have hsk : skip_whitespace (' ' :: '\x7b' :: (inner ++ '\x7d' :: ('\n' :: REST)))
      = '\x7b' :: (inner ++ '\x7d' :: ('\n' :: REST)) := by
    rw [skip_whitespace_space, skip_whitespace_of_not_space _ _ hb]
  have := eml_element_parses_rt tag attrs
    (' ' :: '\x7b' :: (inner ++ '\x7d' :: ('\n' :: REST))) ('\n' :: REST)
    (.mk .ELEMENT tag (with_sep attrs) [] [Node.leaf .TEXT inner] false) more htag hattrs
    ⟨' ', _, rfl, rfl⟩
    (by rw [hsk]; show '\x7b' ≠ '('; decide)
    (fun f _ => by
      rw [hsk]
      have := eml_body_raw (parse_eml_nodes f) tag (with_sep attrs) inner ('\n' :: REST) hmem
        hbal
      rw [if_neg hphp] at this
      exact this)
    p1 (by simp; omega)
  refine ⟨_, by rw [hshape]; simpa [List.append_assoc] using this, ?_⟩
  refine eml_element_result tag attrs content _ [Node.leaf .TEXT inner] flag false more its b
    ?_ ?_ (fun _ => by simp) p2 p3 p4
  · simp [items_list, Node.items, Node.leaf, Item.norm, htrim]
  · simp only [eml_rt, htag, with_sep_eml_attr_rt hattrs, hraw, Bool.and_self, Bool.true_and,
      if_true]
    simp [eml_raw_text, Node.leaf, Node.type, Node.content, hbb]

/-! ## Lemmas: the EML round trip of an element with a block of nodes -/

theorem eml_rt_list_mem {l : List Node} (h : eml_rt_list l = true) :
    ∀ x ∈ l, eml_rt x = true := by
  induction l with
  | nil => intro x hx; simp at hx
  | cons y ys ihl =>
    intro x hx
    simp only [eml_rt_list, Bool.and_eq_true] at h
    rcases List.mem_cons.mp hx with h' | h'
    · subst h'; exact h.1
    · exact ihl h.2 x h'

theorem eml_rt_not_text {x : Node} (h : eml_rt x = true) : x.type ≠ .TEXT := by
  obtain ⟨ty, tg, at', ct, ch, fl⟩ := x
  intro hT
  simp only [Node.type] at hT
  subst hT
  simp [eml_rt] at h

theorem eml_block_of_nodes (c : Node) (cs : List Node) (flag : Bool) (L : Nat)
    (hc : c.type ≠ .TEXT) :
    eml_block (c :: cs) flag L
      = ' ' :: '\x7b' :: (('\n' :: (EmlFormatter.format_children (c :: cs) (L + 1) ++ get_indent L))
          ++ ['\x7d', '\n']) := by
  simp [eml_block, hc, String.toList]

/-- A match of the pattern at the head of a tag followed by a blank and an opening brace
is a match when a blank and `(` or an opening brace follow the tag. -/
theorem regex_match_here_tag_tail (d : Char) (S : Str) (hd : d = '(' ∨ d = '\x7b') :
    ∀ (cs : Str), (∀ x ∈ cs, is_ident_part x = true) →
      (peek (((cs ++ [' ', '\x7b']).dropWhile is_regex_ident_char).dropWhile isspace) == '('
        || peek (((cs ++ [' ', '\x7b']).dropWhile is_regex_ident_char).dropWhile isspace)
          == '\x7b') = true →
      (peek (((cs ++ ' ' :: d :: S).dropWhile is_regex_ident_char).dropWhile isspace) == '('
        || peek (((cs ++ ' ' :: d :: S).dropWhile is_regex_ident_char).dropWhile isspace)
          == '\x7b') = true := by
  have hds : isspace d = false := by rcases hd with rfl | rfl <;> decide
  intro cs
  induction cs with
  | nil =>
    intro _ _
    simp only [List.nil_append, List.dropWhile_cons, show is_regex_ident_char ' ' = false by decide,
      show isspace ' ' = true by decide, hds, Bool.false_eq_true, if_false, if_true, peek,
      List.headD_cons]
    rcases hd with rfl | rfl <;> decide
  | cons x cs ih =>
    intro hid h
    have hx : isspace x = false := isspace_eq_false_of_ident_part (hid x (by simp))
    by_cases hr : is_regex_ident_char x = true
    · simp only [List.cons_append, List.dropWhile_cons, hr, if_true] at h ⊢
      exact ih (fun y hy => hid y (by simp [hy])) h
    · simp only [List.cons_append, List.dropWhile_cons, hr, hx, Bool.false_eq_true, if_false,
        peek, List.headD_cons] at h ⊢
      exact h

theorem regex_search_tag_tail (d : Char) (S : Str) (hd : d = '(' ∨ d = '\x7b') :
    ∀ (tag : Str), (∀ x ∈ tag, is_ident_part x = true) → ∀ b,
      regex_search_from b (tag ++ [' ', '\x7b']) = true →
      regex_search_from b (tag ++ ' ' :: d :: S) = true := by
  intro tag
  induction tag with
  | nil =>
    intro _ b h
    exfalso
    cases b <;> simp [regex_search_from, regex_match_here, is_ident_start, isalpha,
      is_word_char, isalnum] at h
  | cons c cs ih =>
    intro hid b h
    have hcs : ∀ x ∈ cs, is_ident_part x = true := fun y hy => hid y (by simp [hy])
    rw [List.cons_append, regex_search_from, Bool.or_eq_true] at h ⊢
    rcases h with h | h
    · left
      rw [Bool.and_eq_true] at h ⊢
      refine ⟨h.1, ?_⟩
      have h2 := h.2
      rw [regex_match_here, Bool.and_eq_true] at h2 ⊢
      exact ⟨h2.1, regex_match_here_tag_tail d S hd cs hcs h2.2⟩
    · right
      exact ih hcs _ h

/-- A match after a blank is found by the search. -/
theorem regex_search_after_blank (X Y : Str) (hY : regex_search_from false Y = true) :
    ∀ b, regex_search_from b (X ++ ' ' :: Y) = true := by
  induction X with
  | nil =>
    intro b
    simp [regex_search_from, is_word_char, isalnum, isalpha, hY]
  | cons c X ih =>
    intro b
    simp [regex_search_from, ih]

/-- The text that the EML renderer writes after the tag of an element with an attribute
list or a block starts with a blank and `(` or an opening brace. -/
theorem eml_tail_starts (attrs : List Attribute) (children : List Node) (flag : Bool) (L : Nat)
    (h : (!attrs.isEmpty || !children.isEmpty || flag) = true) :
    ∃ d S, (d = '(' ∨ d = '\x7b') ∧ eml_attrs attrs ++ eml_block children flag L = ' ' :: d :: S := by
  by_cases hat : attrs = []
  · subst hat
    have h2 : (!children.isEmpty || flag) = true := by simpa using h
    obtain ⟨S, hS⟩ := eml_block_starts children flag L h2
    exact ⟨'\x7b', S, Or.inr rfl, by simp [eml_attrs, hS]⟩
  · have hne : attrs.isEmpty = false := by
      cases attrs with
      | nil => exact absurd rfl hat
      | cons _ _ => rfl
    exact ⟨'(', eml_attr_items true attrs ++ ')' :: eml_block children flag L, Or.inl rfl,
      by simp [eml_attrs, hne, String.toList]⟩

/-- A block that holds a processing instruction, or an element written with an attribute
list or a block after a tag in which the pattern matches, has EML syntax. -/
theorem eml_block_has_pattern (cs : List Node) (L : Nat) (hrt : eml_rt_list cs = true)
    (hsyn : cs.any eml_opens = true) :
    contains_eml_syntax ('\n' :: (EmlFormatter.format_children cs (L + 1) ++ get_indent L))
      = true := by
  simp only [List.any_eq_true] at hsyn
  obtain ⟨c, hc, hcs⟩ := hsyn
  obtain ⟨P, Q, rfl⟩ := List.append_of_mem hc
  have hrtc := eml_rt_list_mem hrt c hc
  obtain ⟨ty, tag, attrs, content, children, flag⟩ := c
  have key : ∃ (d : Char) (S : Str), (d = '(' ∨ d = '\x7b') ∧
      (∀ x ∈ tag, is_ident_part x = true) ∧ eml_tag_opens tag = true ∧
      EmlFormatter.format (.mk ty tag attrs content children flag) (L + 1)
        = get_indent (L + 1) ++ (tag ++ ' ' :: d :: S) := by
    cases ty with
    | PI =>
      simp only [eml_rt, Bool.and_eq_true, beq_iff_eq] at hrtc
      obtain ⟨rfl, _⟩ := hrtc
      refine ⟨'\x7b', '\n' :: (format_children_raw content (L + 1 + 1) ++ get_indent (L + 1)
        ++ "\x7d\n".toList), Or.inr rfl, by decide, by decide, ?_⟩
      rw [EmlFormatter.format]
      simp [EmlFormatter.format_node, String.toList, List.append_assoc]
    | ELEMENT =>
      rw [eml_opens_element, Bool.and_eq_true] at hcs
      simp only [eml_rt, Bool.and_eq_true] at hrtc
      obtain ⟨_, _, _, _, hid, hroot, _, _⟩ := eml_tag_rt_facts hrtc.1.1
      obtain ⟨d, S, hd, hS⟩ := eml_tail_starts attrs children flag (L + 1) hcs.2
      refine ⟨d, S, hd, hid, hcs.1, ?_⟩
      rw [eml_format_element _ _ _ _ _ _ hroot, hS]
    | TEXT => simp [eml_rt] at hrtc
    | WHITESPACE => simp [eml_opens, Node.type] at hcs
    | COMMENT => simp [eml_opens, Node.type] at hcs
    | COMMENT_BLOCK => simp [eml_opens, Node.type] at hcs
    | IMPORT => simp [eml_opens, Node.type] at hcs
  obtain ⟨d, S, hd, hid, hopen, hfmt⟩ := key
  have hY : regex_search_from false (tag ++ ' ' :: d ::
      (S ++ (EmlFormatter.format_children Q (L + 1) ++ get_indent L))) = true :=
    regex_search_tag_tail d _ hd tag hid false hopen
  have e : '\n' :: (EmlFormatter.format_children
      (P ++ Node.mk ty tag attrs content children flag :: Q) (L + 1) ++ get_indent L)
      = ('\n' :: (EmlFormatter.format_children P (L + 1) ++ get_indent L ++ [' ', ' ', ' ']))
        ++ ' ' :: (tag ++ ' ' :: d ::
          (S ++ (EmlFormatter.format_children Q (L + 1) ++ get_indent L))) := by
    rw [eml_format_children_append, EmlFormatter.format_children, hfmt, get_indent_succ]
    simp [List.append_assoc]
  rw [e]
  exact regex_search_after_blank _ _ hY false

theorem balanced_format_whitespace (content : Str) : Balanced (format_whitespace content) := by
  have h := blank_format_whitespace content
  exact balanced_of_no_brace _ (blank_no_brace h).1 (blank_no_brace h).2

theorem balanced_children_of_reads (cs : List Node) (L : Nat)
    (hE : ∀ x ∈ cs, x.type ≠ .WHITESPACE → EmlNodeReads x) :
    Balanced (EmlFormatter.format_children cs L) := by
  apply balanced_format_children
  intro x hx
  by_cases hW : x.type = .WHITESPACE
  · obtain ⟨ty, tg, at', ct, ch, fl⟩ := x
    simp only [Node.type] at hW
    subst hW
    rw [EmlFormatter.format]
    simp only [EmlFormatter.format_node]
    exact balanced_format_whitespace ct
  · exact (hE x hx hW L).1

/-- Case: an element whose children are nodes of the class, rendered as an indented
block. -/
theorem eml_reads_block (tag : Str) (attrs : List Attribute) (content : Str) (flag : Bool)
    (c : Node) (cs : List Node) (L : Nat) (REST : Str) (its : List Item) (b : Bool)
    (htag : eml_tag_rt tag = true) (hraw : RAW_TAGS.contains tag = false)
    (hattrs : attrs.all eml_attr_rt = true)
    (hlist : eml_rt_list (c :: cs) = true) (hsyn : (c :: cs).any eml_opens = true)
    (hE : ∀ x ∈ c :: cs, x.type ≠ .WHITESPACE → EmlNodeReads x)
    (hR : EmlReads REST its b) :
    Balanced (eml_block (c :: cs) flag L) ∧
    ∃ ns, EmlParses (tag ++ (eml_attrs attrs ++ (eml_block (c :: cs) flag L ++ REST))) ns ∧
      (items_list ns).map Item.norm
        = (Node.mk .ELEMENT tag attrs content (c :: cs) flag).items.map Item.norm ++ its ∧
      eml_rt_list ns = true ∧
      ((eml_opens (.mk .ELEMENT tag attrs content (c :: cs) flag) || b) = true →
        ns.any eml_opens = true) := by
  obtain ⟨more, p1, p2, p3, p4⟩ := eml_reads_after_newline hR
  have hres := eml_not_reserved htag hraw
  have hcT : c.type ≠ .TEXT := eml_rt_not_text (eml_rt_list_mem hlist c (by simp))
  have hblank : ∀ x ∈ get_indent L, isspace x = true := by
    intro x hx
    rw [get_indent_space L x hx]
    decide
  obtain ⟨_, hreads⟩ := eml_reads_list (c :: cs) hlist hE (L + 1) (get_indent L) [] false
    (eml_safe_blank _ hblank) (eml_reads_blank _ hblank)
  obtain ⟨ns, q1, q2, q3, q4⟩ := hreads
    ('\n' :: (EmlFormatter.format_children (c :: cs) (L + 1) ++ get_indent L))
    (by simp [skip_whitespace, List.dropWhile_cons, show isspace '\n' = true by decide])
  have hany : ns.any eml_opens = true := q4 (by simp [hsyn])
  have hbal : Balanced ('\n' :: (EmlFormatter.format_children (c :: cs) (L + 1) ++ get_indent L)) := by
    have e : '\n' :: (EmlFormatter.format_children (c :: cs) (L + 1) ++ get_indent L)
        = ['\n'] ++ (EmlFormatter.format_children (c :: cs) (L + 1) ++ get_indent L) := rfl
    rw [e]
    exact balanced_append (balanced_of_no_brace _ (by decide) (by decide))
      (balanced_append (balanced_children_of_reads _ _ hE) (balanced_indent L))
  have hnse : ns.isEmpty = false := by
    cases ns with
    | nil => simp at hany
    | cons _ _ => rfl
  refine ⟨by rw [eml_block_of_nodes c cs flag L hcT]; exact balanced_block _ hbal, ?_⟩
  have hb : isspace '\x7b' = false := by decide
  have hsk : skip_whitespace (' ' :: '\x7b' ::
      (('\n' :: (EmlFormatter.format_children (c :: cs) (L + 1) ++ get_indent L))
        ++ '\x7d' :: ('\n' :: REST)))
      = '\x7b' :: (('\n' :: (EmlFormatter.format_children (c :: cs) (L + 1) ++ get_indent L))
        ++ '\x7d' :: ('\n' :: REST)) := by
    rw [skip_whitespace_space, skip_whitespace_of_not_space _ _ hb]
  have := eml_element_parses_rt tag attrs
    (' ' :: '\x7b' :: (('\n' :: (EmlFormatter.format_children (c :: cs) (L + 1) ++ get_indent L))
        ++ '\x7d' :: ('\n' :: REST)))
    ('\n' :: REST)
    (.mk .ELEMENT tag (with_sep attrs) [] ns ns.isEmpty) more htag hattrs
    ⟨' ', _, rfl, rfl⟩
    (by rw [hsk]; show '\x7b' ≠ '('; decide)
    (fun f hf => by
      rw [hsk]
      exact eml_body_block _ _ _ _ _ ns hres hbal
        (eml_block_has_pattern (c :: cs) L hlist hsyn)
        (q1 f (by
          simp only [List.length_cons, List.length_append] at hf ⊢
          omega)))
    p1 (by simp; omega)
  refine ⟨_, by rw [eml_block_of_nodes c cs flag L hcT]; simpa [List.append_assoc] using this, ?_⟩
  refine eml_element_result tag attrs content _ ns flag ns.isEmpty more its b
    ?_ ?_ (fun _ => by simp [hnse]) p2 p3 p4
  · simpa using q2
  · simp only [eml_rt, htag, with_sep_eml_attr_rt hattrs, hraw, Bool.and_self, Bool.true_and,
      Bool.false_eq_true, if_false]
    simp [q3, hany]

/-! ## Lemmas: the EML round trip of a raw-code block -/

/-- The lines that `format_children_raw` writes have the braces of the payload. -/
theorem brace_scan_getlines (L : Nat) : ∀ (s cur : Str) (d : Nat),
    brace_scan d ((getlines s cur).map
        (fun line => get_indent L ++ trim line ++ "\n".toList)).flatten
      = brace_scan d (cur ++ s) := by
  have hline : ∀ (line : Str) (d : Nat),
      brace_scan d (get_indent L ++ trim line ++ "\n".toList) = brace_scan d line := by
    intro line d
    have e : "\n".toList = ['\n'] := rfl
    rw [e, brace_scan_pad _ _ _ (blank_indent L) blank_newline, brace_scan_trim]
  intro s
  induction s with
  | nil =>
    intro cur d
    rw [getlines]
    split
    · rename_i h
      have : cur = [] := List.isEmpty_iff.mp h
      subst this
      rfl
    · simp only [List.map_cons, List.map_nil, List.flatten_cons, List.flatten_nil,
        List.append_nil]
      exact hline cur d
  | cons c s ih =>
    intro cur d
    rw [getlines]
    split
    · rename_i hc
      have hc' : c = '\n' := by simpa using hc
      subst hc'
      simp only [List.map_cons, List.flatten_cons]
      rw [brace_scan_append, hline, brace_scan_append]
      congr 1
      funext d'
      rw [ih [] d']
      simp [brace_scan]
    · rw [ih (cur ++ [c]) d]
      simp [List.append_assoc]

theorem eml_node_reads_pi (tag : Str) (attrs : List Attribute) (content : Str)
    (children : List Node) (flag : Bool)
    (h : eml_rt (.mk .PI tag attrs content children flag) = true) :
    EmlNodeReads (.mk .PI tag attrs content children flag) := by
  simp only [eml_rt, Bool.and_eq_true, beq_iff_eq] at h
  obtain ⟨rfl, hbt⟩ := h
  intro L
  have hscan : ∀ d, brace_scan d
      ('\n' :: (format_children_raw content (L + 1) ++ get_indent L)) = brace_scan d content := by
    intro d
    have e : '\n' :: (format_children_raw content (L + 1) ++ get_indent L)
        = ['\n'] ++ format_children_raw content (L + 1) ++ get_indent L := by simp
    rw [e, brace_scan_pad _ _ _ blank_newline (blank_indent L)]
    have := brace_scan_getlines (L + 1) content [] d
    simpa [format_children_raw] using this
  obtain ⟨hbal, hbb⟩ := balanced_of_scan_eq hscan hbt
  have hfmt : EmlFormatter.format (.mk .PI "php".toList attrs content children flag) L
      = get_indent L ++ 'p' :: ("hp".toList ++ (' ' :: '\x7b' ::
          (('\n' :: (format_children_raw content (L + 1) ++ get_indent L)) ++ ['\x7d', '\n']))) := by
    rw [EmlFormatter.format]
    simp [EmlFormatter.format_node, String.toList, List.append_assoc]
  refine ⟨?_, get_indent L, 'p', _, hfmt, ?_, by decide, by decide, by decide, ?_⟩
  · rw [hfmt]
    have e : get_indent L ++ 'p' :: ("hp".toList ++ (' ' :: '\x7b' ::
          (('\n' :: (format_children_raw content (L + 1) ++ get_indent L)) ++ ['\x7d', '\n'])))
        = get_indent L ++ ("php".toList ++ (' ' :: '\x7b' ::
          (('\n' :: (format_children_raw content (L + 1) ++ get_indent L)) ++ ['\x7d', '\n']))) := by
      simp [String.toList]
    rw [e]
    exact balanced_append (balanced_indent L) (balanced_append
      (balanced_of_no_brace _ (by decide) (by decide)) (balanced_block _ hbal))
  · intro c hc
    rw [get_indent_space L c hc]
    decide
  · intro REST its b _ hR
    obtain ⟨more, p1, p2, p3, p4⟩ := eml_reads_after_newline hR
    have hb : isspace '\x7b' = false := by decide
    have hsk : skip_whitespace (' ' :: '\x7b' ::
        (('\n' :: (format_children_raw content (L + 1) ++ get_indent L))
          ++ '\x7d' :: ('\n' :: REST)))
        = '\x7b' :: (('\n' :: (format_children_raw content (L + 1) ++ get_indent L))
          ++ '\x7d' :: ('\n' :: REST)) := by
      rw [skip_whitespace_space, skip_whitespace_of_not_space _ _ hb]
    have := eml_element_parses_any 'p' "hp".toList []
      (' ' :: '\x7b' :: (('\n' :: (format_children_raw content (L + 1) ++ get_indent L))
          ++ '\x7d' :: ('\n' :: REST)))
      ('\n' :: REST)
      (.mk .PI "php".toList [] ('\n' :: (format_children_raw content (L + 1) ++ get_indent L))
        [] false) more (by decide) (by decide) (by decide) rfl
      ⟨' ', _, rfl, rfl⟩
      (by rw [hsk]; show '\x7b' ≠ '('; decide)
      (fun f _ => by
        rw [hsk]
        have := eml_body_raw (parse_eml_nodes f) "php".toList (with_sep [])
          ('\n' :: (format_children_raw content (L + 1) ++ get_indent L)) ('\n' :: REST)
          (by simp) hbal
        simpa [with_sep] using this)
      p1 (by simp; omega)
    refine ⟨_, by simpa [eml_attrs, String.toList, List.append_assoc] using this, ?_, ?_, ?_⟩
    · simp [items_list, Node.items, p2]
    · rw [eml_rt_list, p3, Bool.and_true]
      simp only [eml_rt, Bool.and_eq_true, beq_iff_eq]
      exact ⟨rfl, hbb⟩
    · intro _
      simp [eml_opens, Node.type]

/-! ## Lemmas: the EML round trip of a tree -/

theorem sole_text_cases {P : Node → Bool} {children : List Node}
    (h : (match children with
      | [c] => c.type == NodeType.TEXT && P c
      | _ => false) = true) :
    ∃ ctag cattrs t cchildren cflag, children = [.mk .TEXT ctag cattrs t cchildren cflag] ∧
      P (.mk .TEXT ctag cattrs t cchildren cflag) = true := by
  cases children with
  | nil => simp at h
  | cons c cs =>
    cases cs with
    | nil =>
      simp only [Bool.and_eq_true, beq_iff_eq] at h
      obtain ⟨cty, ctag, cattrs, t, cchildren, cflag⟩ := c
      obtain ⟨hc, hP⟩ := h
      simp only [Node.type] at hc
      subst hc
      exact ⟨ctag, cattrs, t, cchildren, cflag, rfl, hP⟩
    | cons _ _ => simp at h

/-- Every node of the class other than a Whitespace node is read back as nodes of the
class with the same items. -/
theorem eml_node_reads (n : Nat) :
    ∀ node : Node, sizeOf node ≤ n → eml_rt node = true → node.type ≠ .WHITESPACE →
      EmlNodeReads node := by
  induction n with
  | zero =>
    intro node hsz
    obtain ⟨ty, tg, at', ct, ch, fl⟩ := node
    simp at hsz
  | succ n ih =>
    intro node hsz hrt hW
    obtain ⟨ty, tag, attrs, content, children, flag⟩ := node
    have hchild : ∀ c ∈ children, sizeOf c ≤ n := by
      intro c hc
      have h1 := List.sizeOf_lt_of_mem hc
      simp only [Node.mk.sizeOf_spec] at hsz
      omega
    cases ty with
    | WHITESPACE => exact absurd rfl hW
    | TEXT => simp [eml_rt] at hrt
    | PI => exact eml_node_reads_pi tag attrs content children flag hrt
    | COMMENT => exact eml_node_reads_comment tag attrs content children flag hrt
    | COMMENT_BLOCK => exact eml_node_reads_comment_block tag attrs content children flag hrt
    | IMPORT => exact eml_node_reads_import tag attrs content children flag hrt
    | ELEMENT =>
      simp only [eml_rt, Bool.and_eq_true] at hrt
      obtain ⟨⟨htag, hattrs⟩, hch⟩ := hrt
      obtain ⟨a, t', htagE, ha, hid, hroot, _, _⟩ := eml_tag_rt_facts htag
      obtain ⟨hk1, hk2⟩ := no_brace_of_ident hid
      obtain ⟨hpa, hspa, _⟩ := ident_start_facts ha
      have hbalHead : ∀ L, Balanced (get_indent L ++ (tag ++ eml_attrs attrs)) := fun L =>
        balanced_append (balanced_indent L)
          (balanced_append (balanced_of_no_brace _ hk1 hk2) (balanced_eml_attrs_rt attrs hattrs))
      have key : ∀ L, Balanced (eml_block children flag L) ∧
          ∀ (REST : Str) (its : List Item) (b : Bool), EmlSafe REST → EmlReads REST its b →
          ∃ ns, EmlParses (tag ++ (eml_attrs attrs ++ (eml_block children flag L ++ REST))) ns ∧
            (items_list ns).map Item.norm
              = (Node.mk .ELEMENT tag attrs content children flag).items.map Item.norm ++ its ∧
            eml_rt_list ns = true ∧
            ((eml_opens (.mk .ELEMENT tag attrs content children flag) || b) = true →
              ns.any eml_opens = true) := by
        intro L
        have hbare : children = [] → flag = false →
            Balanced (eml_block children flag L) ∧
            ∀ (REST : Str) (its : List Item) (b : Bool), EmlSafe REST → EmlReads REST its b →
            ∃ ns, EmlParses (tag ++ (eml_attrs attrs ++ (eml_block children flag L ++ REST))) ns ∧
              (items_list ns).map Item.norm
                = (Node.mk .ELEMENT tag attrs content children flag).items.map Item.norm ++ its ∧
              eml_rt_list ns = true ∧
              ((eml_opens (.mk .ELEMENT tag attrs content children flag) || b) = true →
                ns.any eml_opens = true) := by
          rintro rfl rfl
          exact ⟨balanced_of_no_brace "\n".toList (by decide) (by decide),
            fun REST its b hS hR =>
              eml_reads_bare tag attrs content L REST its b htag hattrs hS hR⟩
        by_cases hraw : RAW_TAGS.contains tag = true
        · rw [if_pos hraw, Bool.or_eq_true] at hch
          rcases hch with hemp | htext
          · simp only [Bool.and_eq_true, List.isEmpty_iff, Bool.not_eq_true'] at hemp
            exact hbare hemp.1 hemp.2
          · obtain ⟨ctag, cattrs, t, cchildren, cflag, rfl, ht⟩ := sole_text_cases htext
            simp only [Node.content] at ht
            refine ⟨?_, fun REST its b _ hR => ?_⟩
            · exact (eml_reads_raw_text tag attrs content flag ctag cattrs t cchildren cflag L
                [] [] false htag hraw hattrs ht (eml_reads_blank [] (by simp))).1
            · exact (eml_reads_raw_text tag attrs content flag ctag cattrs t cchildren cflag L
                REST its b htag hraw hattrs ht hR).2
        · have hraw' : RAW_TAGS.contains tag = false := by simpa using hraw
          rw [if_neg hraw, Bool.or_eq_true] at hch
          rcases hch with hsole | hlist
          · obtain ⟨ctag, cattrs, t, cchildren, cflag, rfl, ht⟩ := sole_text_cases hsole
            simp only [Node.content] at ht
            refine ⟨?_, fun REST its b _ hR => ?_⟩
            · exact (eml_reads_text tag attrs content flag ctag cattrs t cchildren cflag L []
                [] false htag hraw' hattrs ht (eml_reads_blank [] (by simp))).1
            · exact (eml_reads_text tag attrs content flag ctag cattrs t cchildren cflag L REST
                its b htag hraw' hattrs ht hR).2
          · simp only [Bool.and_eq_true, Bool.or_eq_true, List.isEmpty_iff] at hlist
            obtain ⟨hlist, hsyn⟩ := hlist
            cases children with
            | nil =>
              cases flag with
              | false => exact hbare rfl rfl
              | true =>
                exact ⟨balanced_block [] balanced_nil, fun REST its b _ hR =>
                  eml_reads_flag tag attrs content L REST its b htag hraw' hattrs hR⟩
            | cons c cs =>
              have hE : ∀ x ∈ c :: cs, x.type ≠ .WHITESPACE → EmlNodeReads x :=
                fun x hx hxW => ih x (hchild x hx) (eml_rt_list_mem hlist x hx) hxW
              have hsyn' : (c :: cs).any eml_opens = true := by
                rcases hsyn with h | h
                · exact absurd h (by simp)
                · exact h
              refine ⟨?_, fun REST its b _ hR => ?_⟩
              · exact (eml_reads_block tag attrs content flag c cs L [] [] false htag hraw'
                  hattrs hlist hsyn' hE (eml_reads_blank [] (by simp))).1
              · exact (eml_reads_block tag attrs content flag c cs L REST its b htag hraw'
                  hattrs hlist hsyn' hE hR).2
      intro L
      obtain ⟨hbal, hread⟩ := key L
      have hfmt := eml_format_element tag attrs content children flag L hroot
      refine ⟨?_, get_indent L, a, t' ++ (eml_attrs attrs ++ eml_block children flag L), ?_, ?_,
        hspa, ne_of_is_ident_part hpa (by decide), ne_of_is_ident_part hpa (by decide), ?_⟩
      · rw [hfmt]
        have := balanced_append (hbalHead L) hbal
        simpa [List.append_assoc] using this
      · rw [hfmt, htagE]
        simp
      · intro c hc
        rw [get_indent_space L c hc]
        decide
      · intro REST its b hS hR
        obtain ⟨ns, q1, q2⟩ := hread REST its b hS hR
        refine ⟨ns, ?_, q2⟩
        rw [htagE] at q1
        simpa [List.append_assoc] using q1

/-- A document whose top-level nodes are in the class of the EML round trip: rendering it
in EML and parsing the text gives a document in the class again, with the same items up
to the trimming of text payloads. -/
theorem eml_document_reads (cs : List Node) (h : eml_rt_list cs = true) :
    ∃ cs', Parser.parse (EmlFormatter.format (.mk .ELEMENT ROOT [] [] cs false) 0) true
        = some (.mk .ELEMENT ROOT [] [] cs' false) ∧
      (items_list cs').map Item.norm = (items_list cs).map Item.norm ∧
      eml_rt_list cs' = true := by
  have hroot : EmlFormatter.format (.mk .ELEMENT ROOT [] [] cs false) 0
      = EmlFormatter.format_children cs 0 := by
    rw [EmlFormatter.format]
    simp [EmlFormatter.format_node]
  obtain ⟨_, hreads⟩ := eml_reads_list cs h
    (fun x hx hxW => eml_node_reads (sizeOf x) x (le_refl _) (eml_rt_list_mem h x hx) hxW)
    0 [] [] false (eml_safe_blank [] (by simp)) (eml_reads_blank [] (by simp))
  obtain ⟨ns, q1, q2, q3, _⟩ := hreads (EmlFormatter.format_children cs 0) (by simp)
  refine ⟨ns, ?_, by simpa using q2, q3⟩
  rw [hroot, Parser.parse, Parser.parse_fuel]
  simp only [if_true]
  rw [q1 _ (Nat.lt_succ_self _)]

/-! ## Claims -/

/-- C1 (as stated, refuted): parsing the EML text `div (class="a", id="b") { span { Hi } }`
and rendering it in strict markup does not give the three lines `<div class="a" id="b">`,
`    <span>Hi</span>`, `</div>`, whether or not the last line is terminated. -/
theorem C1_counterexample :
    (Parser.parse "div (class=\"a\", id=\"b\") \x7b span \x7b Hi \x7d \x7d".toList true).map
        (fun n => MarkupFormatter.format true n 0)
      ≠ some "<div class=\"a\" id=\"b\">\n    <span>Hi</span>\n</div>\n".toList ∧
    (Parser.parse "div (class=\"a\", id=\"b\") \x7b span \x7b Hi \x7d \x7d".toList true).map
        (fun n => MarkupFormatter.format true n 0)
      ≠ some "<div class=\"a\" id=\"b\">\n    <span>Hi</span>\n</div>".toList := by
  decide

/-- C1 (amended): parsing the EML text `div (class="a", id="b") { span { Hi } }` and
rendering it in strict markup gives exactly the three lines `<div class="a" id="b">`,
`    <span> Hi </span>` (the text keeps the spaces written inside the braces), `</div>`,
each ended by a line break. -/
theorem C1_example1_strict :
    (Parser.parse "div (class=\"a\", id=\"b\") \x7b span \x7b Hi \x7d \x7d".toList true).map
        (fun n => MarkupFormatter.format true n 0)
      = some "<div class=\"a\" id=\"b\">\n    <span> Hi </span>\n</div>\n".toList := by
  decide

/-- C2: for every non-empty tag name `t` made of identifier characters, not a void tag and
not `ROOT`, the markup text `<t></t>` is rendered in EML as the line `t {}` and the
markup text `<t/>` as the line `t`. -/
theorem C2_markup_empty_forms_to_eml (t : Str) (hne : t ≠ [])
    (hid : ∀ c ∈ t, is_ident_part c = true) (hvoid : t ∉ SELF_CLOSING_TAGS) (hroot : t ≠ ROOT) :
    (Parser.parse ("<".toList ++ t ++ "></".toList ++ t ++ ">".toList) false).map
        (fun n => EmlFormatter.format n 0) = some (t ++ " \x7b\x7d\n".toList) ∧
    (Parser.parse ("<".toList ++ t ++ "/>".toList) false).map
        (fun n => EmlFormatter.format n 0) = some (t ++ "\n".toList) := by
  obtain ⟨a, t', rfl⟩ : ∃ a t', t = a :: t' := by
    cases t with
    | nil => exact absurd rfl hne
    | cons a t' => exact ⟨a, t', rfl⟩
  have ha : is_ident_part a = true := hid a (by simp)
  have h1 : a ≠ '!' := ne_of_is_ident_part ha (by decide)
  have h2 : a ≠ '?' := ne_of_is_ident_part ha (by decide)
  have h3 : a ≠ '/' := ne_of_is_ident_part ha (by decide)
  have hgt : is_ident_part '>' = false := by decide
  have hsl : is_ident_part '/' = false := by decide
  constructor
  · have e : "<".toList ++ (a :: t') ++ "></".toList ++ (a :: t') ++ ">".toList
        = '<' :: ((a :: t') ++ '>' :: '<' :: '/' :: ((a :: t') ++ '>' :: [])) := by
      simp [String.toList]
    have hlen : List.length ("<".toList ++ (a :: t') ++ "></".toList ++ (a :: t') ++ ">".toList)
        + 1 = (2 * t'.length + 7) + 1 := by
      simp [String.toList]; omega
    have hp := parse_markup_nodes_open (2 * t'.length + 7) a
      (t' ++ '>' :: '<' :: '/' :: ((a :: t') ++ '>' :: [])) []
      ('<' :: '/' :: ((a :: t') ++ '>' :: []))
      ('<' :: '/' :: ((a :: t') ++ '>' :: [])) [] [] [] h1 h2 h3
      (by
        rw [← List.cons_append, dropWhile_ident_append _ _ _ hid hgt]
        exact parse_markup_attrs_stop_gt _ _)
      (by rw [← List.cons_append, takeWhile_ident_append _ _ _ hid hgt]; exact hvoid)
      (parse_markup_nodes_closing _ _)
      (by
        rw [← List.cons_append, takeWhile_ident_append _ _ _ hid hgt,
          consume_closing_tag_match _ _ hid]
        exact parse_markup_nodes_nil _)
    rw [← List.cons_append, takeWhile_ident_append _ _ _ hid hgt] at hp
    rw [Parser.parse, Parser.parse_fuel, hlen, e]
    simp only [Bool.false_eq_true, if_false]
    rw [List.cons_append] at hp
    rw [List.cons_append, hp]
    simp [EmlFormatter.format, EmlFormatter.format_node, EmlFormatter.format_children, hroot,
      get_indent, eml_attrs]
  · have e : "<".toList ++ (a :: t') ++ "/>".toList = '<' :: ((a :: t') ++ '/' :: '>' :: []) := by
      simp [String.toList]
    have hlen : List.length ("<".toList ++ (a :: t') ++ "/>".toList) + 1
        = (t'.length + 4) + 1 := by
      simp [String.toList]
    have hp := parse_markup_nodes_self_closed (t'.length + 4) a (t' ++ '/' :: '>' :: []) []
      [] [] [] h1 h2 h3
      (by
        rw [← List.cons_append, dropWhile_ident_append _ _ _ hid hsl]
        exact parse_markup_attrs_stop_slash _ _)
      (parse_markup_nodes_nil _)
    rw [← List.cons_append, takeWhile_ident_append _ _ _ hid hsl] at hp
    rw [Parser.parse, Parser.parse_fuel, hlen, e]
    simp only [Bool.false_eq_true, if_false]
    rw [List.cons_append] at hp
    rw [List.cons_append, hp]
    simp [EmlFormatter.format, EmlFormatter.format_node, EmlFormatter.format_children, hroot,
      get_indent, eml_attrs]

/-- C2 (witness): `<foo></foo>` gives `foo {}` and `<foo/>` gives `foo`. -/
theorem C2_witness :
    (Parser.parse "<foo></foo>".toList false).map (fun n => EmlFormatter.format n 0)
        = some "foo \x7b\x7d\n".toList ∧
    (Parser.parse "<foo/>".toList false).map (fun n => EmlFormatter.format n 0)
        = some "foo\n".toList :=
  C2_markup_empty_forms_to_eml "foo".toList (by decide) (by decide) (by decide) (by decide)

/-- C3: for every string `s` that begins with a whitespace character and contains no `;`,
the EML text `import` + `s` + `;` parses to a root whose only child is an Import node with
payload `trim s`, and the markup renderer (strict or loose) turns that tree into the line
`<?import ` + `trim s` + `?>`. -/
theorem C3_import_directive (s : Str) (c : Char) (hhead : s.head? = some c)
    (hspace : isspace c = true) (hsemi : ';' ∉ s) (is_xml : Bool) :
    Parser.parse ("import".toList ++ s ++ ";".toList) true
        = some (.mk .ELEMENT ROOT [] [] [Node.leaf .IMPORT (trim s)] false) ∧
    (Parser.parse ("import".toList ++ s ++ ";".toList) true).map
        (fun n => MarkupFormatter.format is_xml n 0)
      = some ("<?import ".toList ++ trim s ++ "?>\n".toList) := by
  obtain ⟨s', rfl⟩ : ∃ s', s = c :: s' := by
    cases s with
    | nil => simp at hhead
    | cons a s' => simp at hhead; exact ⟨s', by rw [hhead]⟩
  have e : "import".toList ++ (c :: s') ++ ";".toList
      = 'i' :: 'm' :: 'p' :: 'o' :: 'r' :: 't' :: c :: (s' ++ [';']) := by
    simp [String.toList]
  have hlen : List.length ("import".toList ++ (c :: s') ++ ";".toList) + 1
      = (s'.length + 8) + 1 := by
    simp [String.toList]
  have hfind : find_char ';' (c :: (s' ++ [';'])) = some (c :: s').length := by
    rw [← List.cons_append]
    exact find_char_append ';' (c :: s') [] hsemi
  have hp := parse_eml_nodes_import (s'.length + 8) c (s' ++ [';']) (c :: s').length [] hspace
    hfind (by simp [parse_eml_nodes])
  have hsub : substr (c :: (s' ++ [';'])) 0 (c :: s').length = c :: s' := by
    simp [substr]
  rw [hsub] at hp
  have hparse : Parser.parse ("import".toList ++ (c :: s') ++ ";".toList) true
      = some (.mk .ELEMENT ROOT [] [] [Node.leaf .IMPORT (trim (c :: s'))] false) := by
    rw [Parser.parse, Parser.parse_fuel, hlen, e]
    simp only [if_true]
    rw [hp]
  refine ⟨hparse, ?_⟩
  rw [hparse]
  simp [MarkupFormatter.format, MarkupFormatter.format_node, MarkupFormatter.format_children,
    Node.leaf, get_indent]

/-- C3 (witness): `import com.example.Foo;` gives `<?import com.example.Foo?>`. -/
theorem C3_witness :
    (Parser.parse "import com.example.Foo;".toList true).map
        (fun n => MarkupFormatter.format true n 0)
      = some "<?import com.example.Foo?>\n".toList :=
  (C3_import_directive " com.example.Foo".toList ' ' (by decide) (by decide) (by decide) true).2

/-- C4: for every string `s` without a line break, the EML text `//` + `s` parses to a root
whose only child is a Comment node with payload `trim s`, and the markup renderer (strict
or loose) turns that tree into the line `<!-- ` + `trim s` + ` -->`. -/
theorem C4_line_comment (s : Str) (hnl : '\n' ∉ s) (is_xml : Bool) :
    Parser.parse ("//".toList ++ s) true
        = some (.mk .ELEMENT ROOT [] [] [Node.leaf .COMMENT (trim s)] false) ∧
    (Parser.parse ("//".toList ++ s) true).map (fun n => MarkupFormatter.format is_xml n 0)
      = some ("<!-- ".toList ++ trim s ++ " -->\n".toList) := by
  have e : "//".toList ++ s = '/' :: '/' :: s := by simp [String.toList]
  have hlen : List.length ("//".toList ++ s) + 1 = (s.length + 2) + 1 := by
    simp [String.toList]
  have htw : s.takeWhile (fun c => c != '\n') = s := by
    rw [List.takeWhile_eq_self_iff]
    intro x hx
    have : x ≠ '\n' := fun e => hnl (e ▸ hx)
    simpa using this
  have hdw : s.dropWhile (fun c => c != '\n') = [] := by
    rw [List.dropWhile_eq_nil_iff]
    intro x hx
    have : x ≠ '\n' := fun e => hnl (e ▸ hx)
    simpa using this
  have hp := parse_eml_nodes_line_comment (s.length + 2) s []
    (by rw [hdw]; exact parse_eml_nodes_nil _)
  rw [htw] at hp
  have hparse : Parser.parse ("//".toList ++ s) true
      = some (.mk .ELEMENT ROOT [] [] [Node.leaf .COMMENT (trim s)] false) := by
    rw [Parser.parse, Parser.parse_fuel, hlen, e]
    simp only [if_true]
    rw [hp]
  refine ⟨hparse, ?_⟩
  rw [hparse]
  simp [MarkupFormatter.format, MarkupFormatter.format_node, MarkupFormatter.format_children,
    Node.leaf, get_indent, trim_idempotent]

/-- C4 (witness): `// hi` gives `<!-- hi -->`. -/
theorem C4_witness :
    (Parser.parse "// hi".toList true).map (fun n => MarkupFormatter.format false n 0)
      = some "<!-- hi -->\n".toList :=
  (C4_line_comment " hi".toList (by decide) false).2

/-- C5: in loose mode a childless element other than the root is rendered, at any
indentation and whatever its explicit-empty-block flag, as the indentation, `<tag`, each
attribute as ` key="value"`, and then `>` and a line break when the tag is a void tag,
`></tag>` and a line break otherwise. -/
theorem C5_loose_childless (tag : Str) (attrs : List Attribute) (content : Str) (flag : Bool)
    (L : Nat) (hroot : tag ≠ ROOT) :
    MarkupFormatter.format false (.mk .ELEMENT tag attrs content [] flag) L =
      if tag ∈ SELF_CLOSING_TAGS then
        get_indent L ++ "<".toList ++ tag
          ++ (attrs.map
            (fun a => " ".toList ++ a.key ++ "=\"".toList ++ a.value ++ "\"".toList)).flatten
          ++ ">\n".toList
      else
        get_indent L ++ "<".toList ++ tag
          ++ (attrs.map
            (fun a => " ".toList ++ a.key ++ "=\"".toList ++ a.value ++ "\"".toList)).flatten
          ++ "></".toList ++ tag ++ ">\n".toList := by
  rw [MarkupFormatter.format, ← markup_attrs_eq_flatten]
  by_cases hv : tag ∈ SELF_CLOSING_TAGS <;>
  simp [MarkupFormatter.format_node, hroot, hv]

/-- C5 (witness): a void `br` and a non-void `div`, both flagged, at indentation 1. -/
theorem C5_witness :
    MarkupFormatter.format false
        (.mk .ELEMENT "br".toList [⟨"id".toList, "x".toList, SEP⟩] [] [] true) 1
      = "    <br id=\"x\">\n".toList ∧
    MarkupFormatter.format false
        (.mk .ELEMENT "div".toList [⟨"id".toList, "x".toList, SEP⟩] [] [] true) 1
      = "    <div id=\"x\"></div>\n".toList :=
  ⟨(C5_loose_childless "br".toList [⟨"id".toList, "x".toList, SEP⟩] [] true 1
      (by decide)).trans (by decide),
   (C5_loose_childless "div".toList [⟨"id".toList, "x".toList, SEP⟩] [] true 1
      (by decide)).trans (by decide)⟩

/-- C6 (as stated, refuted): in strict mode the childless unflagged element `br` is not
rendered as the indentation, `<`, the tag name, the attributes, then `/>` and a line
break. -/
theorem C6_counterexample :
    MarkupFormatter.format true (.mk .ELEMENT "br".toList [] [] [] false) 0
      ≠ get_indent 0 ++ "<".toList ++ "br".toList ++ "/>\n".toList := by
  decide

/-- C6 (amended): in strict mode a childless element other than the root whose
explicit-empty-block flag is false is rendered as the indentation, `<`, the tag name, each
attribute as ` key="value"`, then a space, `/>` and a line break. -/
theorem C6_strict_childless_self_closed (tag : Str) (attrs : List Attribute) (content : Str)
    (L : Nat) (hroot : tag ≠ ROOT) :
    MarkupFormatter.format true (.mk .ELEMENT tag attrs content [] false) L =
      get_indent L ++ "<".toList ++ tag
        ++ (attrs.map
          (fun a => " ".toList ++ a.key ++ "=\"".toList ++ a.value ++ "\"".toList)).flatten
        ++ " />\n".toList := by
  rw [MarkupFormatter.format, ← markup_attrs_eq_flatten]
  simp [MarkupFormatter.format_node, hroot]

/-- C6 (witness): `br` with one attribute at indentation 1. -/
theorem C6_witness :
    MarkupFormatter.format true
        (.mk .ELEMENT "br".toList [⟨"id".toList, "x".toList, SEP⟩] [] [] false) 1
      = "    <br id=\"x\" />\n".toList :=
  (C6_strict_childless_self_closed "br".toList [⟨"id".toList, "x".toList, SEP⟩] [] 1
    (by decide)).trans (by decide)

/-- C7: in strict mode a childless element other than the root whose explicit-empty-block
flag is true is never self-closed: it is rendered as the indentation, `<tag`, the
attributes, `></tag>` and a line break. -/
theorem C7_strict_explicit_empty (tag : Str) (attrs : List Attribute) (content : Str)
    (L : Nat) (hroot : tag ≠ ROOT) :
    MarkupFormatter.format true (.mk .ELEMENT tag attrs content [] true) L =
      get_indent L ++ "<".toList ++ tag
        ++ (attrs.map
          (fun a => " ".toList ++ a.key ++ "=\"".toList ++ a.value ++ "\"".toList)).flatten
        ++ "></".toList ++ tag ++ ">\n".toList := by
  rw [MarkupFormatter.format, ← markup_attrs_eq_flatten]
  simp [MarkupFormatter.format_node, hroot]

/-- C7 (witness): a flagged `foo` with one attribute at indentation 2. -/
theorem C7_witness :
    MarkupFormatter.format true
        (.mk .ELEMENT "foo".toList [⟨"id".toList, "x".toList, SEP⟩] [] [] true) 2
      = "        <foo id=\"x\"></foo>\n".toList :=
  (C7_strict_explicit_empty "foo".toList [⟨"id".toList, "x".toList, SEP⟩] [] 2
    (by decide)).trans (by decide)

/-- C8 (as stated, refuted): the element `p` whose only child is a Text node with payload
` ` (one space, no line break) is rendered in strict mode on two lines, `<p>` and `</p>`,
not inline. -/
theorem C8_counterexample :
    MarkupFormatter.format true
        (.mk .ELEMENT "p".toList [] [] [Node.leaf .TEXT " ".toList] false) 0
      = "<p>\n</p>\n".toList ∧
    MarkupFormatter.format true
        (.mk .ELEMENT "p".toList [] [] [Node.leaf .TEXT " ".toList] false) 0
      ≠ get_indent 0 ++ "<p>".toList ++ " ".toList ++ "</p>\n".toList := by
  decide

/-- C8 (amended): an element (not the root, and not a void tag in loose mode) whose only
child is a Text node whose payload has no line break and is not blank (its `trim` is not
empty) is rendered by the markup renderer inline: the indentation, the opening tag with
its attributes, the payload as it is, the closing tag and a line break. -/
theorem C8_markup_inline_text (is_xml : Bool) (tag : Str) (attrs : List Attribute)
    (content : Str) (flag : Bool) (L : Nat) (c : Node) (hroot : tag ≠ ROOT)
    (hvoid : is_xml = false → tag ∉ SELF_CLOSING_TAGS) (htext : c.type = .TEXT)
    (hnl : '\n' ∉ c.content) (hblank : trim c.content ≠ []) :
    MarkupFormatter.format is_xml (.mk .ELEMENT tag attrs content [c] flag) L =
      get_indent L ++ "<".toList ++ tag
        ++ (attrs.map
          (fun a => " ".toList ++ a.key ++ "=\"".toList ++ a.value ++ "\"".toList)).flatten
        ++ ">".toList ++ c.content ++ "</".toList ++ tag ++ ">\n".toList := by
  rw [MarkupFormatter.format, ← markup_attrs_eq_flatten]
  have hn : has_newline c.content = false := by simpa [has_newline] using hnl
  cases is_xml with
  | true => simp [MarkupFormatter.format_node, hroot, htext, hn, hblank]
  | false => simp [MarkupFormatter.format_node, hroot, htext, hn, hblank, hvoid rfl]

/-- C8 (witness): `h1` with the text `Hello`, in loose mode. -/
theorem C8_witness :
    MarkupFormatter.format false
        (.mk .ELEMENT "h1".toList [] [] [Node.leaf .TEXT "Hello".toList] false) 0
      = "<h1>Hello</h1>\n".toList :=
  (C8_markup_inline_text false "h1".toList [] [] false 0 (Node.leaf .TEXT "Hello".toList)
    (by decide) (by decide) (by decide) (by decide) (by decide)).trans (by decide)

/-- C9: an element other than the root whose only child is a Text node whose payload has no
line break is rendered by the EML renderer inline: the indentation, the tag name, the
attribute list if any, ` { `, the trimmed payload, ` }` and a line break. -/
theorem C9_eml_inline_text (tag : Str) (attrs : List Attribute) (content : Str) (flag : Bool)
    (L : Nat) (c : Node) (hroot : tag ≠ ROOT) (htext : c.type = .TEXT)
    (hnl : '\n' ∉ c.content) :
    EmlFormatter.format (.mk .ELEMENT tag attrs content [c] flag) L =
      get_indent L ++ tag ++ eml_attrs attrs ++ " \x7b ".toList ++ trim c.content
        ++ " \x7d\n".toList := by
  rw [EmlFormatter.format]
  have hn : has_newline c.content = false := by simpa [has_newline] using hnl
  simp [EmlFormatter.format_node, hroot, htext, has_newline_trim _ hn]

/-- C9 (witness): the element `h1` with the text `Hello` renders as `h1 { Hello }`. -/
theorem C9_witness :
    EmlFormatter.format
        (.mk .ELEMENT "h1".toList [] [] [Node.leaf .TEXT "Hello".toList] false) 0
      = "h1 \x7b Hello \x7d\n".toList :=
  (C9_eml_inline_text "h1".toList [] [] false 0 (Node.leaf .TEXT "Hello".toList)
    (by decide) (by decide) (by decide)).trans (by decide)

/-- C10 (as stated, refuted): seven trees that a parser produces and that do not keep
their sequence of tag names, attribute pairs and text payloads. The markup text `hello`
gives the Text payload `hello`, read back from the strict rendering with a line break
after it. The six others lose more than blanks, their sequences differ also when text
payloads are trimmed. The markup text `<a x=...>` with the value `"` in single quotes is
read back with an empty value; the markup text `<ROOT a="1"/>` is rendered as the empty
text; the EML text `a { b () }` is read back with the text `b` in the place of the
element `b`. The tree of the EML text `br { x }`, rendered in loose markup, is read back
without the text; the tree of the EML text `p { a<b }`, rendered in strict markup, is
read back with an element `b`; the tree of the markup text `<p>f(x)</p>`, rendered in
EML, is read back with an element `f` in the place of the text. -/
theorem C10_counterexample :
    (∃ T T', Parser.parse "hello".toList false = some T ∧
      Parser.parse (MarkupFormatter.format true T 0) false = some T' ∧ T'.items ≠ T.items) ∧
    (∃ T T', Parser.parse "<a x=\x27\"\x27/>".toList false = some T ∧
      Parser.parse (MarkupFormatter.format true T 0) false = some T' ∧
      T'.items ≠ T.items ∧ T'.items.map Item.norm ≠ T.items.map Item.norm) ∧
    (∃ T T', Parser.parse "<ROOT a=\"1\"/>".toList false = some T ∧
      Parser.parse (MarkupFormatter.format true T 0) false = some T' ∧
      T'.items ≠ T.items ∧ T'.items.map Item.norm ≠ T.items.map Item.norm) ∧
    (∃ T T', Parser.parse "a \x7b b () \x7d".toList true = some T ∧
      Parser.parse (EmlFormatter.format T 0) true = some T' ∧
      T'.items ≠ T.items ∧ T'.items.map Item.norm ≠ T.items.map Item.norm) ∧
    (∃ T T', Parser.parse "br \x7b x \x7d".toList true = some T ∧
      Parser.parse (MarkupFormatter.format false T 0) false = some T' ∧
      T'.items ≠ T.items ∧ T'.items.map Item.norm ≠ T.items.map Item.norm) ∧
    (∃ T T', Parser.parse "p \x7b a<b \x7d".toList true = some T ∧
      Parser.parse (MarkupFormatter.format true T 0) false = some T' ∧
      T'.items ≠ T.items ∧ T'.items.map Item.norm ≠ T.items.map Item.norm) ∧
    (∃ T T', Parser.parse "<p>f(x)</p>".toList false = some T ∧
      Parser.parse (EmlFormatter.format T 0) true = some T' ∧
      T'.items ≠ T.items ∧ T'.items.map Item.norm ≠ T.items.map Item.norm) :=
  ⟨⟨.mk .ELEMENT ROOT [] [] [Node.leaf .TEXT "hello".toList] false,
    .mk .ELEMENT ROOT [] [] [Node.leaf .TEXT "hello\n".toList] false, rfl, rfl, by decide⟩,
   ⟨.mk .ELEMENT ROOT [] []
      [.mk .ELEMENT "a".toList [⟨"x".toList, "\"".toList, SEP⟩] [] [] false] false,
    .mk .ELEMENT ROOT [] []
      [.mk .ELEMENT "a".toList [⟨"x".toList, [], SEP⟩] [] [] false,
       Node.leaf .WHITESPACE "\n".toList] false,
    rfl, rfl, by decide, by decide⟩,
   ⟨.mk .ELEMENT ROOT [] []
      [.mk .ELEMENT ROOT [⟨"a".toList, "1".toList, SEP⟩] [] [] false] false,
    .mk .ELEMENT ROOT [] [] [] false,
    rfl, rfl, by decide, by decide⟩,
   ⟨.mk .ELEMENT ROOT [] []
      [.mk .ELEMENT "a".toList [] [] [.mk .ELEMENT "b".toList [] [] [] false] false] false,
    .mk .ELEMENT ROOT [] []
      [.mk .ELEMENT "a".toList [] [] [Node.leaf .TEXT "\n    b\n".toList] false] false,
    rfl, rfl, by decide, by decide⟩,
   ⟨.mk .ELEMENT ROOT [] []
      [.mk .ELEMENT "br".toList [] [] [Node.leaf .TEXT " x ".toList] false] false,
    .mk .ELEMENT ROOT [] []
      [.mk .ELEMENT "br".toList [] [] [] false, Node.leaf .WHITESPACE "\n".toList] false,
    rfl, rfl, by decide, by decide⟩,
   ⟨.mk .ELEMENT ROOT [] []
      [.mk .ELEMENT "p".toList [] [] [Node.leaf .TEXT " a<b ".toList] false] false,
    .mk .ELEMENT ROOT [] []
      [.mk .ELEMENT "p".toList [] []
        [Node.leaf .TEXT " a".toList, .mk .ELEMENT "b".toList [] [] [] false,
         Node.leaf .TEXT "p>\n".toList] false] false,
    rfl, rfl, by decide, by decide⟩,
   ⟨.mk .ELEMENT ROOT [] []
      [.mk .ELEMENT "p".toList [] [] [Node.leaf .TEXT "f(x)".toList] false] false,
    .mk .ELEMENT ROOT [] []
      [.mk .ELEMENT "p".toList [] []
        [.mk .ELEMENT "f".toList [⟨"x".toList, [], SEP⟩] [] [] false] false] false,
    rfl, rfl, by decide, by decide⟩⟩

/-- C10 (amended): round trip up to the trimming of text payloads, on the classes
`markup_rt` and `eml_rt`. For a document whose top-level nodes are in the class of the
markup renderer in strict or in loose mode, rendering it in that mode and parsing the
text with the markup parser returns a document of the same class, with the same
document-order sequence of tag names, attribute key/value pairs and trimmed text
payloads; rendering and parsing that document again returns a document with that
sequence too. For a document whose top-level nodes are in the class of the EML renderer,
the same holds of the EML renderer and the EML parser. -/
theorem C10_round_trip_up_to_trimming (cs : List Node) :
    (∀ is_xml : Bool, markup_rt_list is_xml false cs = true →
      ∃ cs' cs'',
        Parser.parse (MarkupFormatter.format is_xml (.mk .ELEMENT ROOT [] [] cs false) 0) false
          = some (.mk .ELEMENT ROOT [] [] cs' false) ∧
        Parser.parse (MarkupFormatter.format is_xml (.mk .ELEMENT ROOT [] [] cs' false) 0) false
          = some (.mk .ELEMENT ROOT [] [] cs'' false) ∧
        markup_rt_list is_xml false cs' = true ∧
        (Node.mk .ELEMENT ROOT [] [] cs' false).items.map Item.norm
          = (Node.mk .ELEMENT ROOT [] [] cs false).items.map Item.norm ∧
        (Node.mk .ELEMENT ROOT [] [] cs'' false).items.map Item.norm
          = (Node.mk .ELEMENT ROOT [] [] cs false).items.map Item.norm) ∧
    (eml_rt_list cs = true →
      ∃ cs' cs'',
        Parser.parse (EmlFormatter.format (.mk .ELEMENT ROOT [] [] cs false) 0) true
          = some (.mk .ELEMENT ROOT [] [] cs' false) ∧
        Parser.parse (EmlFormatter.format (.mk .ELEMENT ROOT [] [] cs' false) 0) true
          = some (.mk .ELEMENT ROOT [] [] cs'' false) ∧
        eml_rt_list cs' = true ∧
        (Node.mk .ELEMENT ROOT [] [] cs' false).items.map Item.norm
          = (Node.mk .ELEMENT ROOT [] [] cs false).items.map Item.norm ∧
        (Node.mk .ELEMENT ROOT [] [] cs'' false).items.map Item.norm
          = (Node.mk .ELEMENT ROOT [] [] cs false).items.map Item.norm) := by
  have hitems : ∀ a b : List Node,
      (items_list a).map Item.norm = (items_list b).map Item.norm →
      (Node.mk .ELEMENT ROOT [] [] a false).items.map Item.norm
        = (Node.mk .ELEMENT ROOT [] [] b false).items.map Item.norm := by
    intro a b h
    simp only [Node.items, List.map_nil, List.nil_append, List.map_cons, List.map_append, h,
      List.cons_append]
  constructor
  · intro is_xml h
    obtain ⟨cs', p1, p2, p3⟩ := markup_document_reads is_xml cs h
    obtain ⟨cs'', q1, q2, _⟩ := markup_document_reads is_xml cs' p3
    exact ⟨cs', cs'', p1, q1, p3, hitems _ _ p2, hitems _ _ (q2.trans p2)⟩
  · intro h
    obtain ⟨cs', p1, p2, p3⟩ := eml_document_reads cs h
    obtain ⟨cs'', q1, q2, _⟩ := eml_document_reads cs' p3
    exact ⟨cs', cs'', p1, q1, p3, hitems _ _ p2, hitems _ _ (q2.trans p2)⟩
/-- C10 (witness): the document made of a comment, a Whitespace node of two line breaks
and the element `div` with the attribute `class="a"` and the children `span`, holding the
text `Hi`, and `br`, is in both classes; it keeps its sequence through the strict markup
renderer and the markup parser, and through the EML renderer and the EML parser. -/
theorem C10_witness :
    (∃ cs' cs'',
        Parser.parse (MarkupFormatter.format true (.mk .ELEMENT ROOT [] []
          [Node.leaf .COMMENT "note".toList, Node.leaf .WHITESPACE "\n\n".toList,
       .mk .ELEMENT "div".toList [⟨"class".toList, "a".toList, SEP⟩] []
         [.mk .ELEMENT "span".toList [] [] [Node.leaf .TEXT "Hi".toList] false,
          .mk .ELEMENT "br".toList [] [] [] false] false] false) 0) false
          = some (.mk .ELEMENT ROOT [] [] cs' false) ∧
        Parser.parse (MarkupFormatter.format true (.mk .ELEMENT ROOT [] [] cs' false) 0) false
          = some (.mk .ELEMENT ROOT [] [] cs'' false) ∧
        markup_rt_list true false cs' = true ∧
        (Node.mk .ELEMENT ROOT [] [] cs' false).items.map Item.norm
          = (Node.mk .ELEMENT ROOT [] []
          [Node.leaf .COMMENT "note".toList, Node.leaf .WHITESPACE "\n\n".toList,
       .mk .ELEMENT "div".toList [⟨"class".toList, "a".toList, SEP⟩] []
         [.mk .ELEMENT "span".toList [] [] [Node.leaf .TEXT "Hi".toList] false,
          .mk .ELEMENT "br".toList [] [] [] false] false] false).items.map Item.norm ∧
        (Node.mk .ELEMENT ROOT [] [] cs'' false).items.map Item.norm
          = (Node.mk .ELEMENT ROOT [] []
          [Node.leaf .COMMENT "note".toList, Node.leaf .WHITESPACE "\n\n".toList,
       .mk .ELEMENT "div".toList [⟨"class".toList, "a".toList, SEP⟩] []
         [.mk .ELEMENT "span".toList [] [] [Node.leaf .TEXT "Hi".toList] false,
          .mk .ELEMENT "br".toList [] [] [] false] false] false).items.map Item.norm) ∧
    (∃ cs' cs'',
        Parser.parse (EmlFormatter.format (.mk .ELEMENT ROOT [] []
          [Node.leaf .COMMENT "note".toList, Node.leaf .WHITESPACE "\n\n".toList,
       .mk .ELEMENT "div".toList [⟨"class".toList, "a".toList, SEP⟩] []
         [.mk .ELEMENT "span".toList [] [] [Node.leaf .TEXT "Hi".toList] false,
          .mk .ELEMENT "br".toList [] [] [] false] false] false) 0) true
          = some (.mk .ELEMENT ROOT [] [] cs' false) ∧
        Parser.parse (EmlFormatter.format (.mk .ELEMENT ROOT [] [] cs' false) 0) true
          = some (.mk .ELEMENT ROOT [] [] cs'' false) ∧
        eml_rt_list cs' = true ∧
        (Node.mk .ELEMENT ROOT [] [] cs' false).items.map Item.norm
          = (Node.mk .ELEMENT ROOT [] []
          [Node.leaf .COMMENT "note".toList, Node.leaf .WHITESPACE "\n\n".toList,
       .mk .ELEMENT "div".toList [⟨"class".toList, "a".toList, SEP⟩] []
         [.mk .ELEMENT "span".toList [] [] [Node.leaf .TEXT "Hi".toList] false,
          .mk .ELEMENT "br".toList [] [] [] false] false] false).items.map Item.norm ∧
        (Node.mk .ELEMENT ROOT [] [] cs'' false).items.map Item.norm
          = (Node.mk .ELEMENT ROOT [] []
          [Node.leaf .COMMENT "note".toList, Node.leaf .WHITESPACE "\n\n".toList,
       .mk .ELEMENT "div".toList [⟨"class".toList, "a".toList, SEP⟩] []
         [.mk .ELEMENT "span".toList [] [] [Node.leaf .TEXT "Hi".toList] false,
          .mk .ELEMENT "br".toList [] [] [] false] false] false).items.map Item.norm) :=
  ⟨(C10_round_trip_up_to_trimming
      [Node.leaf .COMMENT "note".toList, Node.leaf .WHITESPACE "\n\n".toList,
       .mk .ELEMENT "div".toList [⟨"class".toList, "a".toList, SEP⟩] []
         [.mk .ELEMENT "span".toList [] [] [Node.leaf .TEXT "Hi".toList] false,
          .mk .ELEMENT "br".toList [] [] [] false] false]).1 true (by decide),
   (C10_round_trip_up_to_trimming
      [Node.leaf .COMMENT "note".toList, Node.leaf .WHITESPACE "\n\n".toList,
       .mk .ELEMENT "div".toList [⟨"class".toList, "a".toList, SEP⟩] []
         [.mk .ELEMENT "span".toList [] [] [Node.leaf .TEXT "Hi".toList] false,
          .mk .ELEMENT "br".toList [] [] [] false] false]).2 (by decide)⟩

/-- C11 (the code at the failing inputs): two bare EML tags `a` and `b` separated by
whitespace only, whatever the number of line breaks in it, parse to the two elements with
no Whitespace node between them, and the EML renderer prints `a` and `b` on consecutive
lines: the blank lines of the source are lost. After an element that ends with a block
and in markup the blank line is kept: `a {}`, two line breaks, `b {}` and `<a/>`, two
line breaks, `<b/>` come back with one blank line between the two elements. -/
theorem C11_bare_tags_lose_blank_lines (w : Str) (hne : w ≠ [])
    (hw : ∀ c ∈ w, isspace c = true) :
    Parser.parse ("a".toList ++ w ++ "b".toList) true
        = some (.mk .ELEMENT ROOT [] []
            [.mk .ELEMENT "a".toList [] [] [] false, .mk .ELEMENT "b".toList [] [] [] false]
            false) ∧
    (Parser.parse ("a".toList ++ w ++ "b".toList) true).map (fun n => EmlFormatter.format n 0)
      = some "a\nb\n".toList ∧
    (Parser.parse "a \x7b\x7d\n\nb \x7b\x7d".toList true).map
        (fun n => EmlFormatter.format n 0)
      = some "a \x7b\x7d\n\nb \x7b\x7d\n".toList ∧
    (Parser.parse "<a/>\n\n<b/>".toList false).map
        (fun n => MarkupFormatter.format true n 0)
      = some "<a />\n\n<b />\n".toList := by
  have e : "a".toList ++ w ++ "b".toList = 'a' :: (w ++ ['b']) := by simp [String.toList]
  have hlen : List.length ("a".toList ++ w ++ "b".toList) + 1 = w.length + 3 := by
    simp [String.toList]
  have hparse : Parser.parse ("a".toList ++ w ++ "b".toList) true
      = some (.mk .ELEMENT ROOT [] []
          [.mk .ELEMENT "a".toList [] [] [] false, .mk .ELEMENT "b".toList [] [] [] false]
          false) := by
    rw [Parser.parse, Parser.parse_fuel, hlen, e]
    simp only [if_true]
    rw [eml_bare_siblings w.length w hne hw]
    rfl
  refine ⟨hparse, ?_, by decide, by decide⟩
  rw [hparse]
  decide

/-- C11 (witness): the EML text `a`, two line breaks, `b` is rendered back as the two
lines `a` and `b`, with no blank line between them. -/
theorem C11_witness :
    (Parser.parse "a\n\nb".toList true).map (fun n => EmlFormatter.format n 0)
      = some "a\nb\n".toList :=
  (C11_bare_tags_lose_blank_lines "\n\n".toList (by decide) (by decide)).2.1

/-- C12 (the code at the failing input): in the attribute loop of the EML parser, an
iteration at `!` consumes nothing, pushes an attribute with an empty key and goes on at
the same position; so the loop never exits, and on the EML text `a(!)` the parser returns
no tree, whatever the amount of fuel. -/
theorem C12_attribute_loop_no_progress :
    (∀ f, parse_eml_attrs (f + 1) "!)".toList
      = (parse_eml_attrs f "!)".toList).map (fun p => (⟨[], [], SEP⟩ :: p.1, p.2))) ∧
    (∀ fuel, Parser.parse_fuel fuel "a(!)".toList true = none) ∧
    Parser.parse "a(!)".toList true = none := by
  have h : ∀ fuel, Parser.parse_fuel fuel "a(!)".toList true = none := by
    intro fuel
    have := parse_eml_nodes_attrs_stuck 'a' [] '!' [')'] (by decide) (by decide) (by decide)
      (by decide) (by decide) (by decide) (by decide) (by decide) fuel
    have e : "a(!)".toList = ['a'] ++ '(' :: '!' :: [')'] := rfl
    rw [Parser.parse_fuel, e, this]
    rfl
  exact ⟨fun f => parse_eml_attrs_same_position f '!' [')'] (by decide) (by decide) (by decide)
    (by decide) (by decide), h, h _⟩

/-- C13: for every input string the markup parser returns a tree. With `input.length + 1`
units of fuel, one for each iteration of the node loop and each nested call, `Parser::parse`
returns a root; the node loop gives the same nodes and stops at the same suffix of the
input with any larger amount of fuel, and the suffix is not longer than the input. This
covers unexpected characters, unterminated comments, processing instructions and tags,
and mismatched or stray closing tags. -/
theorem C13_markup_parser_returns (input : Str) :
    ∃ nodes rest, Parser.parse input false = some (.mk .ELEMENT ROOT [] [] nodes false) ∧
      MarkupParses input nodes rest ∧ rest.length ≤ input.length := by
  obtain ⟨nodes, rest, h1, h2⟩ := markup_parses_total input
  exact ⟨nodes, rest, parse_markup_of_parses h1, h1, h2⟩

/-- C14 (the code at the failing inputs, and the part that holds): the markup parser makes
a Whitespace node of a gap with a single line break. The markup text `<a/>`, one line
break, `<b/>` parses to a root whose second child is a Whitespace node with the payload of
one line break; the markup text `<a>`, one line break, `</a>` gives `a` one Whitespace
child with one line break and no flag, and is rendered in EML with an open block, while
`<a></a>` gives `a` no child and the flag and is rendered `a {}`. On the EML side the
text `a {}`, one line break, `b {}` parses to the two elements with no node between them,
and in every tree that the EML parser returns, with any amount of fuel, every Whitespace
node has a payload with at least two line breaks. -/
theorem C14_markup_single_break_node :
    (Parser.parse "<a/>\n<b/>".toList false
        = some (.mk .ELEMENT ROOT [] []
            [.mk .ELEMENT "a".toList [] [] [] false, Node.leaf .WHITESPACE "\n".toList,
             .mk .ELEMENT "b".toList [] [] [] false] false) ∧
      count_newlines "\n".toList = 1) ∧
    (Parser.parse "<a>\n</a>".toList false
        = some (.mk .ELEMENT ROOT [] []
            [.mk .ELEMENT "a".toList [] [] [Node.leaf .WHITESPACE "\n".toList] false] false) ∧
      (Parser.parse "<a>\n</a>".toList false).map (fun T => EmlFormatter.format T 0)
        = some "a \x7b\n\x7d\n".toList ∧
      (Parser.parse "<a></a>".toList false).map (fun T => EmlFormatter.format T 0)
        = some "a \x7b\x7d\n".toList) ∧
    Parser.parse "a \x7b\x7d\nb \x7b\x7d".toList true
        = some (.mk .ELEMENT ROOT [] []
            [.mk .ELEMENT "a".toList [] [] [] true,
             .mk .ELEMENT "b".toList [] [] [] true] false) ∧
    (∀ fuel input T, Parser.parse_fuel fuel input true = some T → ws_breaks_ge 2 T = true) := by
  refine ⟨⟨rfl, by decide⟩, ⟨rfl, rfl, rfl⟩, rfl, ?_⟩
  intro fuel input T h
  rw [Parser.parse_fuel] at h
  simp only [if_true] at h
  cases hn : parse_eml_nodes fuel input with
  | none => simp [hn] at h
  | some nodes =>
    simp only [hn, Option.some.injEq] at h
    rw [← h, ws_breaks_ge, eml_ws_breaks fuel input nodes hn]
    rfl

/-- C14 (witness): in the tree of the EML text `a {}`, three line breaks, `b {}`, the one
Whitespace node has three line breaks. -/
theorem C14_witness :
    ws_breaks_ge 2 (.mk .ELEMENT ROOT [] []
      [.mk .ELEMENT "a".toList [] [] [] true, Node.leaf .WHITESPACE "\n\n\n".toList,
       .mk .ELEMENT "b".toList [] [] [] true] false) = true :=
  C14_markup_single_break_node.2.2.2 _ "a \x7b\x7d\n\n\nb \x7b\x7d".toList _ (by
    show Parser.parse "a \x7b\x7d\n\n\nb \x7b\x7d".toList true = _
    rfl)

/-- C15 (what holds, and the code at the failing input): in both renderers, at every
indentation level, the rendering of an Element with tag `ROOT` is the concatenation, in
order, of the renderings of its children at the same level, whatever its other fields;
`Parser::parse` returns on every markup input an Element with tag `ROOT`, no attributes
and the flag false; on EML input every tree it returns is such an Element, but on the
EML text `b(?)` it returns no tree, whatever the amount of fuel. -/
theorem C15_root_node :
    (∀ attrs content children flag L,
      EmlFormatter.format (.mk .ELEMENT ROOT attrs content children flag) L
        = (children.map (fun c => EmlFormatter.format c L)).flatten) ∧
    (∀ is_xml attrs content children flag L,
      MarkupFormatter.format is_xml (.mk .ELEMENT ROOT attrs content children flag) L
        = (children.map (fun c => MarkupFormatter.format is_xml c L)).flatten) ∧
    (∀ input, ∃ children,
      Parser.parse input false = some (.mk .ELEMENT ROOT [] [] children false)) ∧
    (∀ fuel input T, Parser.parse_fuel fuel input true = some T →
      ∃ children, T = .mk .ELEMENT ROOT [] [] children false) ∧
    (∀ fuel, Parser.parse_fuel fuel "b(?)".toList true = none) := by
  refine ⟨?_, ?_, ?_, ?_, ?_⟩
  · intro attrs content children flag L
    rw [EmlFormatter.format, ← eml_format_children_flatten]
    simp [EmlFormatter.format_node]
  · intro is_xml attrs content children flag L
    rw [MarkupFormatter.format, ← markup_format_children_flatten]
    simp [MarkupFormatter.format_node]
  · intro input
    obtain ⟨nodes, rest, h1, _⟩ := markup_parses_total input
    exact ⟨nodes, parse_markup_of_parses h1⟩
  · intro fuel input T h
    rw [Parser.parse_fuel] at h
    simp only [if_true] at h
    cases hn : parse_eml_nodes fuel input with
    | none => simp [hn] at h
    | some nodes =>
      simp only [hn, Option.some.injEq] at h
      exact ⟨nodes, h.symm⟩
  · intro fuel
    have := parse_eml_nodes_attrs_stuck 'b' [] '?' [')'] (by decide) (by decide) (by decide)
      (by decide) (by decide) (by decide) (by decide) (by decide) fuel
    have e : "b(?)".toList = ['b'] ++ '(' :: '?' :: [')'] := rfl
    rw [Parser.parse_fuel, e, this]
    rfl

/-- C16: for every Whitespace node, whatever its other fields, whose payload has `N` line
breaks, the EML renderer and the markup renderer (strict or loose) output `N - 1` line
breaks and nothing else when `N > 1`, and the empty text when `N ≤ 1`, at every
indentation level. -/
theorem C16_whitespace_rendering (tag : Str) (attrs : List Attribute) (content : Str)
    (children : List Node) (flag : Bool) (is_xml : Bool) (L : Nat) :
    EmlFormatter.format (.mk .WHITESPACE tag attrs content children flag) L
        = (if count_newlines content > 1 then List.replicate (count_newlines content - 1) '\n'
            else []) ∧
    MarkupFormatter.format is_xml (.mk .WHITESPACE tag attrs content children flag) L
        = (if count_newlines content > 1 then List.replicate (count_newlines content - 1) '\n'
            else []) := by
  constructor
  · rw [EmlFormatter.format]
    rfl
  · rw [MarkupFormatter.format]
    rfl

/-- C17 (as stated, refuted): the markup text `<a>`, in which the element is never closed,
parses to a root whose only child is the element `a` with the flag true. -/
theorem C17_counterexample :
    Parser.parse "<a>".toList false
      = some (.mk .ELEMENT ROOT [] [] [.mk .ELEMENT "a".toList [] [] [] true] false) := by
  rfl

/-- C17 (amended): at every opening tag (a `<` that starts neither a comment, nor a
processing instruction, nor a closing tag) the markup parser returns, and the Element it
builds for the tag has the flag true if and only if the tag is not self-closed (no `/`
after the attributes), its name is not in the void-element set and it has no children;
whether a closing tag was there to consume plays no part. -/
theorem C17_flag_of_markup_element (q : Str)
    (hc : "<!--".toList.isPrefixOf ('<' :: q) = false)
    (hp : "<?".toList.isPrefixOf ('<' :: q) = false)
    (hs : (1 < ('<' :: q).length && peek q == '/') = false) :
    ∃ attrs r2 children flag more rest,
      MarkupAttrsParse (q.dropWhile is_ident_part) attrs r2 ∧
      MarkupParses ('<' :: q)
        (.mk .ELEMENT (q.takeWhile is_ident_part) attrs [] children flag :: more) rest ∧
      (flag = true ↔
        (peek r2 ≠ '/' ∧ q.takeWhile is_ident_part ∉ SELF_CLOSING_TAGS ∧ children = [])) := by
  have hdw := (List.dropWhile_suffix (l := q) is_ident_part).length_le
  obtain ⟨attrs, r2, hattrs, hl2⟩ := markup_attrs_parse_total _ (q.dropWhile is_ident_part)
    (le_refl _)
  by_cases hleaf : (!(peek r2 == '/') &&
      !SELF_CLOSING_TAGS.contains (q.takeWhile is_ident_part)) = true
  · simp only [Bool.and_eq_true, Bool.not_eq_true'] at hleaf
    obtain ⟨hself, hvoid⟩ := hleaf
    obtain ⟨children, r5, hch, hl5⟩ := markup_parses_total (if peek r2 == '>' then advance r2 else r2)
    obtain ⟨more, r6, hm, _⟩ :=
      markup_parses_total (consume_closing_tag (q.takeWhile is_ident_part) r5)
    have h4 := tag_end_length r2
    simp only [hself, Bool.false_eq_true, if_false] at h4
    refine ⟨attrs, r2, children, children.isEmpty, more, r6, hattrs,
      markup_parses_tag_open q attrs r2 r5 r6 children more hc hp hs hattrs (by omega) hself
        hvoid hch (by omega) hm, ?_⟩
    have h1 : peek r2 ≠ '/' := by simpa using hself
    have h2 : q.takeWhile is_ident_part ∉ SELF_CLOSING_TAGS := by simpa using hvoid
    simp [h1, h2]
  · have hleaf' : (!(peek r2 == '/') &&
        !SELF_CLOSING_TAGS.contains (q.takeWhile is_ident_part)) = false :=
      (Bool.not_eq_true _).mp hleaf
    obtain ⟨more, r6, hm, _⟩ := markup_parses_total
      (if peek (if peek r2 == '/' then advance r2 else r2) == '>'
        then advance (if peek r2 == '/' then advance r2 else r2)
        else (if peek r2 == '/' then advance r2 else r2))
    refine ⟨attrs, r2, [], false, more, r6, hattrs,
      markup_parses_tag_leaf q attrs r2 r6 more hc hp hs hattrs (by omega) hleaf' hm, ?_⟩
    simp only [Bool.false_eq_true, false_iff, not_and, and_true]
    intro h1 h2
    have e1 : (peek r2 == '/') = false := by simpa using h1
    have e2 : SELF_CLOSING_TAGS.contains (q.takeWhile is_ident_part) = false := by simpa using h2
    rw [e1, e2] at hleaf'
    exact absurd hleaf' (by decide)

/-- C17 (witness): at the opening tag of `<a>`, never closed, the element has the flag
exactly under the three conditions (and it has it). -/
theorem C17_witness :
    ∃ attrs r2 children flag more rest,
      MarkupAttrsParse ("a>".toList.dropWhile is_ident_part) attrs r2 ∧
      MarkupParses ('<' :: "a>".toList)
        (.mk .ELEMENT ("a>".toList.takeWhile is_ident_part) attrs [] children flag :: more)
        rest ∧
      (flag = true ↔
        (peek r2 ≠ '/' ∧ "a>".toList.takeWhile is_ident_part ∉ SELF_CLOSING_TAGS ∧
          children = [])) :=
  C17_flag_of_markup_element "a>".toList (by decide) (by decide) (by decide)

/-- C18 (the code at the failing input, and what holds): in the markup text `<!-->-->`,
whose comment body is `>`, the search for `-->` starts at the `<` and finds the two dashes
of the opening itself followed by the body; the length of the payload wraps around, so the
Comment node holds the rest of the input, `>-->`, and the second `-->` is parsed again as
a Text node. For every body that does not contain `-->` and does not start with `>` or
`->`, and every rest, the text `<!--` + body + `-->` + rest parses to a root whose first
child is a Comment with payload `trim body`, followed by the nodes of the rest alone. -/
theorem C18_comment_closed_inside_opening :
    Parser.parse "<!-->-->".toList false
        = some (.mk .ELEMENT ROOT [] []
            [Node.leaf .COMMENT ">-->".toList, Node.leaf .TEXT "-->".toList] false) ∧
      find_str "-->".toList "<!-->-->".toList = some 2 ∧
      trim ">".toList = ">".toList ∧
      (∀ body rest : Str, ¬ "-->".toList <:+: body → ¬ ">".toList <+: body →
        ¬ "->".toList <+: body →
        ∃ ns, Parser.parse rest false = some (.mk .ELEMENT ROOT [] [] ns false) ∧
          Parser.parse ("<!--".toList ++ body ++ "-->".toList ++ rest) false
            = some (.mk .ELEMENT ROOT [] [] (Node.leaf .COMMENT (trim body) :: ns) false)) := by
  refine ⟨?_, ?_, ?_, ?_⟩
  · rfl
  · decide
  · decide
  · intro body rest hno h1 h2
    obtain ⟨ns, r, hrest, _⟩ := markup_parses_total rest
    exact ⟨ns, parse_markup_of_parses hrest,
      parse_markup_of_parses (markup_parses_comment_body body rest ns r hno h1 h2 hrest)⟩

/-- C19: for every string `s` with balanced braces (every prefix has at least as many `{`
as `}`, and the totals are equal), the EML text `php {` + `s` + `}` parses to a root whose
only child is a ProcessingInstruction node with tag `php`, no attributes, no children and
payload exactly `s`; the brace-balancing loop stops after the last character of the input,
so the whole input is consumed. The flag of the node is set exactly when `s` is empty. -/
theorem C19_php_raw_block (s : Str) (h : BraceBalanced s) :
    Parser.parse ("php \x7b".toList ++ s ++ "\x7d".toList) true
        = some (.mk .ELEMENT ROOT [] [] [.mk .PI "php".toList [] s [] s.isEmpty] false) ∧
      read_balanced_braces (s ++ "\x7d".toList) = (s, []) := by
  have e : "php \x7b".toList ++ s ++ "\x7d".toList
      = ('p' :: "hp".toList) ++ ' ' :: '\x7b' :: (s ++ ['\x7d']) := by
    simp [String.toList]
  have hlen : List.length ("php \x7b".toList ++ s ++ "\x7d".toList) + 1 = (s.length + 5) + 2 := by
    simp [String.toList]
  have hb := balanced_of_brace_balanced h
  refine ⟨?_, read_balanced_braces_balanced s [] hb⟩
  rw [Parser.parse, Parser.parse_fuel, hlen, e]
  simp only [if_true]
  rw [eml_raw_element_parses (s.length + 5) 'p' "hp".toList s (by decide) hb]
  rfl

/-- C19 (witness): `php {echo {1}}` gives one `php` node with payload `echo {1}`. -/
theorem C19_witness :
    Parser.parse "php \x7becho \x7b1\x7d\x7d".toList true
      = some (.mk .ELEMENT ROOT [] [] [.mk .PI "php".toList [] "echo \x7b1\x7d".toList [] false]
          false) :=
  (C19_php_raw_block "echo \x7b1\x7d".toList (by
    have key : ∀ p ∈ List.inits "echo \x7b1\x7d".toList, p.count '\x7d' ≤ p.count '\x7b' := by
      decide
    exact ⟨fun p hp => key p ((List.mem_inits _ _).2 hp), by decide⟩)).1

/-- C20: for every tag `t` among `pre`, `code`, `script`, `style` and every string `s` with
balanced braces, the EML text `t` + ` {` + `s` + `}` parses to a root whose only child is
an Element with tag `t`, without attributes, whose only child is a Text node with payload
exactly `s`: leading and trailing whitespace is kept and nothing inside is parsed. -/
theorem C20_verbatim_block (t s : Str) (ht : t ∈ RAW_TAGS) (h : BraceBalanced s) :
    Parser.parse (t ++ " \x7b".toList ++ s ++ "\x7d".toList) true
      = some (.mk .ELEMENT ROOT [] []
          [.mk .ELEMENT t [] [] [Node.leaf .TEXT s] false] false) := by
  obtain ⟨a, t', rfl⟩ : ∃ a t', t = a :: t' := by
    simp only [RAW_TAGS, List.mem_cons, List.mem_singleton, List.not_mem_nil, or_false] at ht
    rcases ht with h | h | h | h <;> rw [h] <;> exact ⟨_, _, rfl⟩
  have hne : a :: t' ≠ "php".toList := by
    have key : ∀ tag ∈ RAW_TAGS, tag ≠ "php".toList := by decide
    exact key _ ht
  have e : (a :: t') ++ " \x7b".toList ++ s ++ "\x7d".toList
      = (a :: t') ++ ' ' :: '\x7b' :: (s ++ ['\x7d']) := by
    simp [String.toList]
  have hlen : List.length ((a :: t') ++ " \x7b".toList ++ s ++ "\x7d".toList) + 1
      = (t'.length + s.length + 3) + 2 := by
    simp [String.toList]; omega
  have hb := balanced_of_brace_balanced h
  rw [Parser.parse, Parser.parse_fuel, hlen, e]
  simp only [if_true]
  rw [eml_raw_element_parses _ a t' s (List.mem_cons_of_mem _ ht) hb, if_neg hne]

/-- C20 (witness): `pre { a { b } }` gives `pre` with the one Text child ` a { b } `. -/
theorem C20_witness :
    Parser.parse "pre \x7b a \x7b b \x7d \x7d".toList true
      = some (.mk .ELEMENT ROOT [] []
          [.mk .ELEMENT "pre".toList [] [] [Node.leaf .TEXT " a \x7b b \x7d ".toList] false]
          false) :=
  C20_verbatim_block "pre".toList " a \x7b b \x7d ".toList (by decide) (by
    have key : ∀ p ∈ List.inits " a \x7b b \x7d ".toList, p.count '\x7d' ≤ p.count '\x7b' := by
      decide
    exact ⟨fun p hp => key p ((List.mem_inits _ _).2 hp), by decide⟩)

/-- C21: for every identifier tag `t` (a letter or underscore followed by identifier
characters) other than `php`, `pre`, `code`, `script`, `style` and `import`, and every
non-empty string `s` without `(`, `{` and `}`, the EML text `t` + ` {` + `s` + `}` parses to
a root whose only child is an Element with tag `t`, no attributes, the flag false, and
exactly one child: a Text node whose payload is `s` as written. -/
theorem C21_plain_text_block (a : Char) (t' s : Str)
    (ha : is_ident_start a = true) (hid : ∀ c ∈ t', is_ident_part c = true)
    (htag : a :: t' ∉ ["php".toList, "pre".toList, "code".toList, "script".toList,
      "style".toList, "import".toList])
    (hne : s ≠ []) (h1 : '(' ∉ s) (h2 : '\x7b' ∉ s) (h3 : '\x7d' ∉ s) :
    Parser.parse ((a :: t') ++ " \x7b".toList ++ s ++ "\x7d".toList) true
      = some (.mk .ELEMENT ROOT [] []
          [.mk .ELEMENT (a :: t') [] [] [Node.leaf .TEXT s] false] false) := by
  have hid' : ∀ c ∈ a :: t', is_ident_part c = true := by
    intro c hc
    rcases List.mem_cons.mp hc with rfl | hc
    · exact (ident_start_facts ha).1
    · exact hid c hc
  have himp : a :: t' ≠ "import".toList := fun e => htag (by rw [e]; decide)
  have hraw : a :: t' ∉ "php".toList :: RAW_TAGS := by
    intro hm
    apply htag
    simp only [RAW_TAGS, List.mem_cons, List.mem_singleton, List.not_mem_nil, or_false] at hm ⊢
    tauto
  have e : (a :: t') ++ " \x7b".toList ++ s ++ "\x7d".toList
      = (a :: t') ++ ' ' :: '\x7b' :: (s ++ ['\x7d']) := by
    simp [String.toList]
  have hlen : List.length ((a :: t') ++ " \x7b".toList ++ s ++ "\x7d".toList) + 1
      = (t'.length + s.length + 3) + 2 := by
    simp [String.toList]; omega
  rw [Parser.parse, Parser.parse_fuel, hlen, e]
  simp only [if_true]
  rw [eml_plain_element_parses _ a t' s ha hid' himp hraw h1 h2 h3 hne]

/-- C21 (witness): `h1 { Hello World }` gives the Text payload ` Hello World `. -/
theorem C21_witness :
    Parser.parse "h1 \x7b Hello World \x7d".toList true
      = some (.mk .ELEMENT ROOT [] []
          [.mk .ELEMENT "h1".toList [] [] [Node.leaf .TEXT " Hello World ".toList] false]
          false) :=
  C21_plain_text_block 'h' "1".toList " Hello World ".toList (by decide) (by decide)
    (by decide) (by decide) (by decide) (by decide) (by decide)

/-- C22: for every ProcessingInstruction node with tag `php`, whatever its payload `p` and
its other fields, the markup renderer, strict or loose, at every indentation level,
outputs the indentation, `<?php`, a text `c`, the indentation, `?>` and a line break,
where `c` begins with a line break, ends with a line break, and is `p` with a line break
put before it only if `p` does not start with one, and a line break put after the result
only if the result does not end with one. -/
theorem C22_php_block_rendering (is_xml : Bool) (attrs : List Attribute) (p : Str)
    (children : List Node) (flag : Bool) (L : Nat) :
    ∃ c, MarkupFormatter.format is_xml (.mk .PI "php".toList attrs p children flag) L
        = get_indent L ++ "<?php".toList ++ c ++ get_indent L ++ "?>\n".toList ∧
      c.head? = some '\n' ∧ c.getLast? = some '\n' ∧
      c = (if p.head? = some '\n' then p else '\n' :: p)
          ++ (if (if p.head? = some '\n' then p else '\n' :: p).getLast? = some '\n' then []
              else ['\n']) := by
  refine ⟨php_out_content p, ?_, php_out_content_head p, php_out_content_last p,
    php_out_content_eq p⟩
  rw [MarkupFormatter.format]
  simp [MarkupFormatter.format_node]

/-- C23: for all distinct tag names `a` and `b` of identifier characters that are not in
the void-element set, the markup text `<a><b></a>` parses to a root whose only child is
the element `a`, whose only child is the element `b` without children. The frame of `b`
does not consume `</a>` (the read position is put back), the frame of `a` consumes it,
and the parser stops at the end of the input. -/
theorem C23_mismatched_closing_tag (a b : Str) (ha : a ≠ []) (hb : b ≠ [])
    (hida : ∀ c ∈ a, is_ident_part c = true) (hidb : ∀ c ∈ b, is_ident_part c = true)
    (hva : a ∉ SELF_CLOSING_TAGS) (hvb : b ∉ SELF_CLOSING_TAGS) (hab : a ≠ b) :
    Parser.parse ("<".toList ++ a ++ "><".toList ++ b ++ "></".toList ++ a ++ ">".toList) false
        = some (.mk .ELEMENT ROOT [] []
            [.mk .ELEMENT a [] [] [.mk .ELEMENT b [] [] [] true] false] false) ∧
    MarkupParses ("<".toList ++ a ++ "><".toList ++ b ++ "></".toList ++ a ++ ">".toList)
        [.mk .ELEMENT a [] [] [.mk .ELEMENT b [] [] [] true] false] [] ∧
    consume_closing_tag b ("</".toList ++ a ++ ">".toList) = "</".toList ++ a ++ ">".toList ∧
    consume_closing_tag a ("</".toList ++ a ++ ">".toList) = [] := by
  have e : "<".toList ++ a ++ "><".toList ++ b ++ "></".toList ++ a ++ ">".toList
      = '<' :: (a ++ '>' :: '<' :: (b ++ '>' :: '<' :: '/' :: (a ++ ['>']))) := by
    simp [String.toList]
  have e2 : "</".toList ++ a ++ ">".toList = '<' :: '/' :: (a ++ '>' :: []) := by
    simp [String.toList]
  have h := markup_parses_mismatched a b ha hb hida hidb hva hvb hab
  rw [e, e2]
  exact ⟨parse_markup_of_parses h, h, consume_closing_tag_mismatch b a [] hida hab,
    consume_closing_tag_match a [] hida⟩

/-- C23 (witness): `<a><b></a>` gives `a` with the one child `b`. -/
theorem C23_witness :
    Parser.parse "<a><b></a>".toList false
      = some (.mk .ELEMENT ROOT [] []
          [.mk .ELEMENT "a".toList [] [] [.mk .ELEMENT "b".toList [] [] [] true] false] false) :=
  (C23_mismatched_closing_tag "a".toList "b".toList (by decide) (by decide) (by decide)
    (by decide) (by decide) (by decide) (by decide)).1

/-- C24: for every tag name of identifier characters other than `ROOT`, and every list of
attributes whose keys are identifiers (a letter or underscore, then identifier characters)
and whose values have no double quote, the markup renderer (strict or loose, at any
level, whatever the flag) writes a childless element with that list as the indentation,
`<`, the tag, each attribute as ` key="value"` in order, and a tail; the markup parser
reads that output back as a root whose first child is an Element with the same tag, no
children, and the same key/value pairs in the same order, repeated keys included. -/
theorem C24_attributes_round_trip (is_xml : Bool) (tag : Str) (attrs : List Attribute)
    (content : Str) (flag : Bool) (L : Nat)
    (htag : markup_tag_ok tag = true) (hattrs : attrs.all markup_attr_ok = true) :
    ∃ tail attrs' flag' more,
      MarkupFormatter.format is_xml (.mk .ELEMENT tag attrs content [] flag) L
        = get_indent L ++ "<".toList ++ tag ++ (attrs.map
            (fun a => " ".toList ++ a.key ++ "=\"".toList ++ a.value ++ "\"".toList)).flatten
          ++ tail ∧
      Parser.parse (MarkupFormatter.format is_xml (.mk .ELEMENT tag attrs content [] flag) L)
          false
        = some (.mk .ELEMENT ROOT [] [] (.mk .ELEMENT tag attrs' [] [] flag' :: more) false) ∧
      attrs'.map (fun a => (a.key, a.value)) = attrs.map (fun a => (a.key, a.value)) := by
  obtain ⟨hne, hid, hroot⟩ := markup_tag_ok_facts htag
  obtain ⟨⟨m1, h1⟩, ⟨f2, m2, r2, h2⟩, h3⟩ := markup_childless_read_back L tag attrs htag hattrs
  have hkv : (with_sep attrs).map (fun a => (a.key, a.value))
      = attrs.map (fun a => (a.key, a.value)) := by
    simp [with_sep, Function.comp_def]
  rw [← markup_attrs_eq_flatten]
  have hpair : MarkupFormatter.format is_xml (.mk .ELEMENT tag attrs content [] flag) L
        = get_indent L ++ "<".toList ++ tag ++ markup_attrs attrs
          ++ ">".toList ++ "</".toList ++ tag ++ ">\n".toList →
      ∃ tail attrs' flag' more,
      MarkupFormatter.format is_xml (.mk .ELEMENT tag attrs content [] flag) L
        = get_indent L ++ "<".toList ++ tag ++ markup_attrs attrs ++ tail ∧
      Parser.parse (MarkupFormatter.format is_xml (.mk .ELEMENT tag attrs content [] flag) L)
          false
        = some (.mk .ELEMENT ROOT [] [] (.mk .ELEMENT tag attrs' [] [] flag' :: more) false) ∧
      attrs'.map (fun a => (a.key, a.value)) = attrs.map (fun a => (a.key, a.value)) := by
    intro e
    refine ⟨">".toList ++ "</".toList ++ tag ++ ">\n".toList, with_sep attrs, f2, m2, ?_, ?_, hkv⟩
    · rw [e]; simp [List.append_assoc]
    · rw [e]; exact parse_markup_of_parses h2
  cases is_xml with
  | true =>
    cases flag with
    | false =>
      have e : MarkupFormatter.format true (.mk .ELEMENT tag attrs content [] false) L
          = get_indent L ++ "<".toList ++ tag ++ markup_attrs attrs ++ " />\n".toList := by
        rw [MarkupFormatter.format]
        simp [MarkupFormatter.format_node, hroot, List.append_assoc]
      exact ⟨" />\n".toList, with_sep attrs, false, m1, e, by rw [e]; exact parse_markup_of_parses h1,
        hkv⟩
    | true =>
      apply hpair
      rw [MarkupFormatter.format]
      simp [MarkupFormatter.format_node, hroot, List.append_assoc]
  | false =>
    by_cases hvoid : tag ∈ SELF_CLOSING_TAGS
    · obtain ⟨m3, h3'⟩ := h3 hvoid
      have e : MarkupFormatter.format false (.mk .ELEMENT tag attrs content [] flag) L
          = get_indent L ++ "<".toList ++ tag ++ markup_attrs attrs ++ ">\n".toList := by
        rw [MarkupFormatter.format]
        simp [MarkupFormatter.format_node, hroot, hvoid, List.append_assoc]
      exact ⟨">\n".toList, with_sep attrs, false, m3, e, by rw [e]; exact parse_markup_of_parses h3',
        hkv⟩
    · apply hpair
      rw [MarkupFormatter.format]
      simp [MarkupFormatter.format_node, hroot, hvoid, List.append_assoc]

/-- C24 (witness): `<a x="1" x="2" />` is read back with both attributes `x`, in order. -/
theorem C24_witness :
    ∃ tail attrs' flag' more,
      MarkupFormatter.format true (.mk .ELEMENT "a".toList
          [⟨"x".toList, "1".toList, SEP⟩, ⟨"x".toList, "2".toList, SEP⟩] [] [] false) 0
        = get_indent 0 ++ "<".toList ++ "a".toList
          ++ ([⟨"x".toList, "1".toList, SEP⟩, ⟨"x".toList, "2".toList, SEP⟩].map
            (fun a : Attribute =>
              " ".toList ++ a.key ++ "=\"".toList ++ a.value ++ "\"".toList)).flatten
          ++ tail ∧
      Parser.parse (MarkupFormatter.format true (.mk .ELEMENT "a".toList
          [⟨"x".toList, "1".toList, SEP⟩, ⟨"x".toList, "2".toList, SEP⟩] [] [] false) 0) false
        = some (.mk .ELEMENT ROOT [] [] (.mk .ELEMENT "a".toList attrs' [] [] flag' :: more)
            false) ∧
      attrs'.map (fun a => (a.key, a.value))
        = [⟨"x".toList, "1".toList, SEP⟩, ⟨"x".toList, "2".toList, SEP⟩].map
            (fun a : Attribute => (a.key, a.value)) :=
  C24_attributes_round_trip true "a".toList
    [⟨"x".toList, "1".toList, SEP⟩, ⟨"x".toList, "2".toList, SEP⟩] [] false 0
    (by decide) (by decide)

/-- C25: in every tree that the EML parser returns, with any amount of fuel, every node
whose explicit-empty-block flag is true has no children and an empty payload; the markup
parser returns a tree on every input, with the same property. In the EML parser, the node
built for a tag has the flag true exactly when a `{` follows the tag and its attributes
(a block, read up to its matching `}` or to the end of the input) and the block leaves no
child and no payload. -/
theorem C25_flag_means_empty_block :
    (∀ fuel input T, Parser.parse_fuel fuel input true = some T →
      flag_means_empty T = true) ∧
    (∀ input, ∃ T, Parser.parse input false = some T ∧ flag_means_empty T = true) ∧
    (∀ sub tag attrs r el r', parse_eml_element_body sub tag attrs r = some (el, r') →
      (el.explicit_empty_block = true ↔
        ((!r.isEmpty && peek r == '\x7b') = true ∧ el.children = [] ∧ el.content = []))) := by
  refine ⟨?_, ?_, eml_body_flag⟩
  · intro fuel input T h
    rw [Parser.parse_fuel] at h
    simp only [if_true] at h
    cases hn : parse_eml_nodes fuel input with
    | none => simp [hn] at h
    | some nodes =>
      simp only [hn, Option.some.injEq] at h
      rw [← h, flag_means_empty, eml_flag_means_empty fuel input nodes hn]
      rfl
  · intro input
    obtain ⟨nodes, rest, h1, h2⟩ := markup_flag_means_empty input
    refine ⟨_, parse_markup_of_parses h1, ?_⟩
    rw [flag_means_empty, h2]
    rfl

/-- C25 (witness): in the tree of the EML text `a {} b { c }`, only `a` has the flag, and
it has no children and no payload. -/
theorem C25_witness :
    flag_means_empty (.mk .ELEMENT ROOT [] []
      [.mk .ELEMENT "a".toList [] [] [] true,
       .mk .ELEMENT "b".toList [] [] [Node.leaf .TEXT " c ".toList] false] false) = true :=
  C25_flag_means_empty_block.1 _ "a \x7b\x7d b \x7b c \x7d".toList _ (by
    show Parser.parse "a \x7b\x7d b \x7b c \x7d".toList true = _
    rfl)

/-- C26: for every string `rest`, the markup text `</` + `rest` parses to a root with no
children, and both renderers print nothing for it; so `</x><a/>` gives an empty
document. -/
theorem C26_top_level_closing_tag (rest : Str) (is_xml : Bool) :
    Parser.parse ("</".toList ++ rest) false = some (.mk .ELEMENT ROOT [] [] [] false) ∧
    (Parser.parse ("</".toList ++ rest) false).map (fun n => MarkupFormatter.format is_xml n 0)
      = some [] ∧
    (Parser.parse ("</".toList ++ rest) false).map (fun n => EmlFormatter.format n 0)
      = some [] ∧
    Parser.parse "</x><a/>".toList false = some (.mk .ELEMENT ROOT [] [] [] false) := by
  have h : ∀ r : Str, Parser.parse ("</".toList ++ r) false
      = some (.mk .ELEMENT ROOT [] [] [] false) := by
    intro r
    have e : "</".toList ++ r = '<' :: '/' :: r := rfl
    rw [Parser.parse, Parser.parse_fuel, e, parse_markup_nodes_closing]
    rfl
  refine ⟨h rest, ?_, ?_, h "x><a/>".toList⟩
  · rw [h rest]
    cases is_xml <;> rfl
  · rw [h rest]
    rfl

/-- C27: in loose mode, for every Element whose tag is in the void-element set, whatever
its children, its payload and its flag, the markup renderer outputs the indentation, `<`,
the tag, the attributes each as ` key="value"`, `>` and a line break, and nothing of the
children; the EML text `br { hi }` is rendered as the line `<br>`. -/
theorem C27_loose_void_element (tag : Str) (attrs : List Attribute) (content : Str)
    (children : List Node) (flag : Bool) (L : Nat) (hvoid : tag ∈ SELF_CLOSING_TAGS) :
    MarkupFormatter.format false (.mk .ELEMENT tag attrs content children flag) L
        = get_indent L ++ "<".toList ++ tag ++ markup_attrs attrs ++ ">\n".toList ∧
    (Parser.parse "br \x7b hi \x7d".toList true).map (fun n => MarkupFormatter.format false n 0)
      = some "<br>\n".toList := by
  constructor
  · have hroot : tag ≠ ROOT := by
      intro e
      rw [e] at hvoid
      exact absurd hvoid (by decide)
    have hc : SELF_CLOSING_TAGS.contains tag = true := by simpa using hvoid
    rw [MarkupFormatter.format]
    simp [MarkupFormatter.format_node, hroot, hc, hvoid]
  · decide

/-- C27 (witness): `<br>` with a Text child, at level 0. -/
theorem C27_witness :
    MarkupFormatter.format false
        (.mk .ELEMENT "br".toList [] [] [Node.leaf .TEXT " hi ".toList] false) 0
      = "<br>\n".toList :=
  (C27_loose_void_element "br".toList [] [] [Node.leaf .TEXT " hi ".toList] false 0
    (by decide)).1

/-- C28: in every tree that the EML parser returns, with any amount of fuel, a Text node is
the only child of its parent (the children of every node are without a Text node, or a
single node), and the root has no Text child. A block that mixes words and nested
elements gives no Text child: in `p { hi b { x } }` the word `hi` is parsed as an
element, and the only Text node is the one child of `b`. -/
theorem C28_text_is_only_child :
    (∀ fuel input T, Parser.parse_fuel fuel input true = some T →
      text_only_child T = true ∧ no_text T.children = true) ∧
    Parser.parse "p \x7b hi b \x7b x \x7d \x7d".toList true
      = some (.mk .ELEMENT ROOT [] []
          [.mk .ELEMENT "p".toList [] []
            [.mk .ELEMENT "hi".toList [] [] [] false,
             .mk .ELEMENT "b".toList [] [] [Node.leaf .TEXT " x ".toList] false] false]
          false) := by
  refine ⟨?_, rfl⟩
  intro fuel input T h
  rw [Parser.parse_fuel] at h
  simp only [if_true] at h
  cases hn : parse_eml_nodes fuel input with
  | none => simp [hn] at h
  | some nodes =>
    simp only [hn, Option.some.injEq] at h
    obtain ⟨h1, h2⟩ := eml_text_only_child fuel input nodes hn
    rw [← h]
    refine ⟨?_, h1⟩
    rw [text_only_child, h1, h2]
    rfl

/-- C28 (witness): in the tree of `p { hi b { x } }` a Text node is an only child. -/
theorem C28_witness :
    text_only_child (.mk .ELEMENT ROOT [] []
          [.mk .ELEMENT "p".toList [] []
            [.mk .ELEMENT "hi".toList [] [] [] false,
             .mk .ELEMENT "b".toList [] [] [Node.leaf .TEXT " x ".toList] false] false]
          false) = true :=
  (C28_text_is_only_child.1 _ "p \x7b hi b \x7b x \x7d \x7d".toList _ (by
    show Parser.parse "p \x7b hi b \x7b x \x7d \x7d".toList true = _
    rfl)).1

/-- C29: for every string X that does not contain `?>` and does not begin with `php`,
`import ` or `>` (empty or not), the markup text `<?` + X + `?>` parses to a root whose
only child is a ProcessingInstruction with tag `xml` and payload X; the markup renderer,
strict or loose, writes it as the line `<?xml ` + X + `?>`; and after `n + 1` conversions
from markup to markup the text is `<?`, then `n + 1` copies of `xml `, then X and `?>`: the
payload grows by the prefix `xml ` on every pass. -/
theorem C29_generic_pi_grows (is_xml : Bool) (X : Str) (hno : ¬ "?>".toList <:+: X)
    (h1 : ¬ ">".toList <+: X) (h2 : ¬ "php".toList <+: X) (h3 : ¬ "import ".toList <+: X) :
    Parser.parse ("<?".toList ++ X ++ "?>".toList) false
        = some (.mk .ELEMENT ROOT [] [] [.mk .PI "xml".toList [] X [] false] false) ∧
    markup_to_markup is_xml ("<?".toList ++ X ++ "?>".toList)
        = some ("<?xml ".toList ++ X ++ "?>\n".toList) ∧
    ∀ n, Nat.iterate (fun o => Option.bind o (markup_to_markup is_xml)) (n + 1)
          (some ("<?".toList ++ X ++ "?>".toList))
        = some ("<?".toList ++ (List.replicate (n + 1) "xml ".toList).flatten ++ X
            ++ "?>\n".toList) := by
  have hp := markup_parses_pi_body X [] [] [] hno h1 (markup_parses_text_eof [] (by simp))
  rw [markup_pi_node_generic X h2 h3, List.append_nil] at hp
  have hfirst := markup_to_markup_pi is_xml X [] hno h1 h2 h3 (Or.inl rfl)
  rw [List.append_nil] at hfirst
  refine ⟨parse_markup_of_parses hp, hfirst, ?_⟩
  intro n
  induction n with
  | zero =>
    simp only [Function.iterate_succ, Function.iterate_zero, Function.comp_apply, id_eq,
      Option.some_bind, hfirst]
    simp [String.toList]
  | succ n ih =>
    rw [Function.iterate_succ_apply', ih]
    obtain ⟨k1, k2, k3, k4⟩ := xml_prefix_ok _ (xml_copies_ok X hno n)
    have hstep := markup_to_markup_pi is_xml
      ("xml ".toList ++ ((List.replicate n "xml ".toList).flatten ++ X)) ['\n'] k1 k2 k3 k4
      (Or.inr rfl)
    have e1 : "<?".toList ++ (List.replicate (n + 1) "xml ".toList).flatten ++ X ++ "?>\n".toList
        = "<?".toList ++ ("xml ".toList ++ ((List.replicate n "xml ".toList).flatten ++ X))
          ++ "?>".toList ++ ['\n'] := by
      simp [List.replicate_succ, List.append_assoc, String.toList]
    rw [Option.some_bind, e1, hstep]
    simp [List.replicate_succ, List.append_assoc, String.toList]

/-- C29 (witness): `<?xml version="1.0"?>` becomes `<?xml xml version="1.0"?>`. -/
theorem C29_witness :
    markup_to_markup true "<?xml version=\"1.0\"?>".toList
      = some "<?xml xml version=\"1.0\"?>\n".toList :=
  (C29_generic_pi_grows true "xml version=\"1.0\"".toList (by decide) (by decide) (by decide)
    (by decide)).2.1

end Emlc
